import Mathlib

/-!
Verification of the PathFinder graph-search engine: the weighted graph
representation (`Graph.buildFromJSON`), the ordered-insertion priority queue
(`PriorityQueue`), and the five search algorithms (Dijkstra, A*, greedy
best-first search, breadth-first search, depth-first search).

Node ids are modelled as `ℤ` (JavaScript integers), edge weights and
coordinates as `ℚ` (JavaScript numbers), and the `Infinity`-valued distance
table entries as `WithTop ℚ`.  JavaScript objects used as maps are modelled as
functions `ℤ → Option α`, where `none` models a missing key (JavaScript
`undefined`); the map `prev` of an algorithm, whose values are node ids or
`null`, is modelled as `ℤ → Option (Option ℤ)` with `some none` for `null`.
The main loops of the algorithms are modelled with an explicit fuel parameter;
a result of `none` means the run did not finish within the given fuel (which
also covers genuine divergence, proved as `none` for every fuel) or aborted
with a runtime type error (a non-null assertion `!` failing).
-/

/-- Node record from src/types/index.d.ts: id, latitude, longitude. -/
structure GraphNode where
  id : ℤ
  lat : ℚ
  lon : ℚ
deriving DecidableEq, Repr

/-- Edge record from src/types/index.d.ts: source, target, weight. -/
structure GraphEdge where
  source : ℤ
  target : ℤ
  weight : ℚ
deriving DecidableEq, Repr

/-- JavaScript `Map` lookup: first entry with the given key. -/
def mapGet {α : Type} (m : List (ℤ × α)) (k : ℤ) : Option α :=
  match m with
  | [] => none
  | (k', v) :: rest => if k = k' then some v else mapGet rest k

/-- JavaScript `Map.set`: overwrite in place if the key is present, else append. -/
def mapSet {α : Type} (m : List (ℤ × α)) (k : ℤ) (v : α) : List (ℤ × α) :=
  match m with
  | [] => [(k, v)]
  | (k', v') :: rest => if k' = k then (k', v) :: rest else (k', v') :: mapSet rest k v

/-- The `this.adj.get(key)?.push(e)` pattern of `buildFromJSON`: append `e` to the
list stored at `key` when the key is present, and do nothing otherwise. -/
def adjPush (m : List (ℤ × List GraphEdge)) (k : ℤ) (e : GraphEdge) : List (ℤ × List GraphEdge) :=
  match m with
  | [] => []
  | (k', l) :: rest => if k' = k then (k', l ++ [e]) :: rest else (k', l) :: adjPush rest k e

/-- The graph of src/core/data_structures/Graph.ts: a node map and an adjacency map. -/
structure Graph where
  nodes : List (ℤ × GraphNode)
  adj : List (ℤ × List GraphEdge)

namespace Graph

/-- `Graph.getNode`: map lookup. -/
def getNode (g : Graph) (id : ℤ) : Option GraphNode :=
  mapGet g.nodes id

/-- The list of keys of the node map, in insertion order; iterating
`graph.getNodes().entries()` visits exactly these ids. -/
def nodeIds (g : Graph) : List ℤ :=
  g.nodes.map Prod.fst

/-- `Graph.getNeighbors`: the stored adjacency list, or `[]` for a missing key. -/
def getNeighbors (g : Graph) (id : ℤ) : List GraphEdge :=
  (mapGet g.adj id).getD []

/-- First pass of `buildFromJSON`: insert one node and its empty adjacency list. -/
def buildNodeStep (g : Graph) (n : GraphNode) : Graph :=
  ⟨mapSet g.nodes n.id n, mapSet g.adj n.id []⟩

/-- Second pass of `buildFromJSON`: append the edge to its source's list and a
mirrored edge to its target's list; each push is silently skipped when the key
is absent (the optional-chaining `?.push`). -/
def buildEdgeStep (g : Graph) (e : GraphEdge) : Graph :=
  { g with adj := adjPush (adjPush g.adj e.source e) e.target ⟨e.target, e.source, e.weight⟩ }

/-- `Graph.buildFromJSON`: node pass followed by edge pass. -/
def buildFromJSON (nodesIn : List GraphNode) (edges : List GraphEdge) : Graph :=
  edges.foldl buildEdgeStep (nodesIn.foldl buildNodeStep ⟨[], []⟩)

end Graph

/-- Entry of the priority queue: an element together with its priority.
Priorities are JavaScript numbers; `WithTop ℚ` covers `Infinity`. -/
structure PQElem (α : Type) where
  element : α
  priority : WithTop ℚ
deriving DecidableEq, Repr

/-- The ordered-insertion priority queue of PriorityQueue.ts, as its item list. -/
def pqEnqueue {α : Type} (e : PQElem α) : List (PQElem α) → List (PQElem α)
  | [] => [e]
  | x :: rest => if e.priority < x.priority then e :: x :: rest else x :: pqEnqueue e rest

/-- `dequeue` is `items.shift()`: the head of the list, or `none` when empty. -/
def pqDequeue {α : Type} (items : List (PQElem α)) : Option (PQElem α) :=
  items.head?

/-- `isEmpty`. -/
def pqIsEmpty {α : Type} (items : List (PQElem α)) : Bool :=
  items.isEmpty

/-- Update of a JavaScript object used as a map: `m[k] = v`. -/
def upd {α : Type} (m : ℤ → Option α) (k : ℤ) (v : α) : ℤ → Option α :=
  fun x => if x = k then some v else m x

/-- The initialisation loops `for (const [nodeId] of graph.getNodes().entries())`:
every listed id is bound to the given initial value. -/
def initMap {α : Type} (ids : List ℤ) (v : α) : ℤ → Option α :=
  ids.foldl (fun m i => upd m i v) (fun _ => none)

/-- Queue ordering invariant: items sorted by non-decreasing priority. -/
def PQSorted {α : Type} (q : List (PQElem α)) : Prop :=
  List.Pairwise (fun a b => a.priority ≤ b.priority) q

/-- Reachable queue contents: item lists produced by any sequence of
`enqueue`/`dequeue` operations starting from the empty queue. -/
inductive PQReachable {α : Type} : List (PQElem α) → Prop
  | empty : PQReachable []
  | enq (e : PQElem α) (q : List (PQElem α)) : PQReachable q → PQReachable (pqEnqueue e q)
  | deq (q : List (PQElem α)) : PQReachable q → PQReachable q.tail

/-- Adjacency symmetry: every stored directed entry has a stored mirror. -/
def Graph.SymmetricAdj (g : Graph) : Prop :=
  ∀ a b w, (∃ e ∈ g.getNeighbors a, e.target = b ∧ e.weight = w) →
    ∃ e ∈ g.getNeighbors b, e.target = a ∧ e.weight = w

/-! ## The uniform result record and the five search algorithms -/

/-- The `AlgorithmResult` record of dijkstra.ts: final path (start to end),
visitation order, and the raw predecessor map. -/
structure AlgorithmResult where
  path : List ℤ
  visitedInOrder : List ℤ
  prev : ℤ → Option (Option ℤ)

/-- Loop state of `dijkstra`: distance table, predecessor map, priority queue
items and visitation order. -/
structure DState where
  dist : ℤ → Option (WithTop ℚ)
  prev : ℤ → Option (Option ℤ)
  pq : List (PQElem ℤ)
  visitedInOrder : List ℤ

/-- One edge relaxation of `dijkstra`: `newDist = distances[current] + weight`;
relax when strictly smaller than the stored distance.  A missing table entry
(JavaScript `undefined`, yielding `NaN` comparisons) never relaxes. -/
def dijkstraRelax (cur : ℤ) (st : DState) (ed : GraphEdge) : DState :=
  match st.dist cur with
  | none => st
  | some dc =>
    let nd : WithTop ℚ := dc + (ed.weight : ℚ)
    match st.dist ed.target with
    | none => st
    | some dt =>
      if nd < dt then
        { st with
          dist := upd st.dist ed.target nd
          prev := upd st.prev ed.target (some cur)
          pq := pqEnqueue ⟨ed.target, nd⟩ st.pq }
      else st

/-- Main loop of `dijkstra`, with fuel: dequeue, record the visit, stop on the
end node, otherwise relax all stored neighbors and continue. -/
def dijkstraLoop (g : Graph) (endN : ℤ) : ℕ → DState → Option DState
  | 0, st =>
    match st.pq with
    | [] => some st
    | _ :: _ => none
  | fuel + 1, st =>
    match st.pq with
    | [] => some st
    | c :: rest =>
      let st1 : DState := { st with pq := rest, visitedInOrder := st.visitedInOrder ++ [c.element] }
      if c.element = endN then some st1
      else dijkstraLoop g endN fuel ((g.getNeighbors c.element).foldl (dijkstraRelax c.element) st1)

/-- The reconstruction loop `while (current !== null) { path.push(current);
current = prev[current]; }`.  The cursor ranges over node id (`some (some v)`),
`null` (`some none`) and `undefined` (`none`); on `undefined` the JavaScript
loop never exits (`undefined !== null`), modelled by consuming all fuel. -/
def walkPrev (prev : ℤ → Option (Option ℤ)) : ℕ → Option (Option ℤ) → List ℤ → Option (List ℤ)
  | 0, _, _ => none
  | fuel + 1, cur, acc =>
    match cur with
    | some none => some acc
    | some (some v) => walkPrev prev fuel (prev v) (acc ++ [v])
    | none => walkPrev prev fuel none acc

/-- Initial state of `dijkstra`: all listed nodes at `Infinity` with `null`
predecessor, then `distances[startNode] = 0` and one queue entry. -/
def dijkstraInit (g : Graph) (startN : ℤ) : DState :=
  { dist := upd (initMap g.nodeIds (⊤ : WithTop ℚ)) startN (0 : WithTop ℚ)
    prev := initMap g.nodeIds (none : Option ℤ)
    pq := pqEnqueue ⟨startN, ((0 : ℚ) : WithTop ℚ)⟩ []
    visitedInOrder := [] }

/-- `dijkstra(graph, startNode, endNode)`: run the loop, walk the predecessor
map backward from the end node, and empty the path unless the walk ended at
the start node. -/
def dijkstraRun (g : Graph) (startN endN : ℤ) (fuel : ℕ) : Option AlgorithmResult :=
  match dijkstraLoop g endN fuel (dijkstraInit g startN) with
  | none => none
  | some st =>
    match walkPrev st.prev fuel (some (some endN)) [] with
    | none => none
    | some path =>
      if path.getLast? = some startN then some ⟨path.reverse, st.visitedInOrder, st.prev⟩
      else some ⟨[], st.visitedInOrder, st.prev⟩

/-- Loop state of `aStar`: g-score and f-score tables, predecessor map, queue
and visitation order. -/
structure AState where
  gScore : ℤ → Option (WithTop ℚ)
  fScore : ℤ → Option (WithTop ℚ)
  prev : ℤ → Option (Option ℤ)
  pq : List (PQElem ℤ)
  visitedInOrder : List ℤ

/-- One edge relaxation of `aStar`.  The heuristic `hv` stands for
`haversineDistance(lat1, lon1, lat2, lon2)`.  Modelled from the spec: the file
src/core/utils/haversine.ts is not among the sources; the spec fixes only that
it computes the great-circle distance between two coordinate pairs, so the
algorithms are parametric in this function.  A relaxation of a neighbor with
no score entry is skipped (`NaN`/`undefined` comparison); a relaxation that
reaches `graph.getNode(neighborId)!` with a missing node is the JavaScript
non-null-assertion crash, modelled as an aborted run (`none`). -/
def aStarRelax (g : Graph) (hv : ℚ → ℚ → ℚ → ℚ → ℚ) (endData : GraphNode) (cur : ℤ)
    (st : AState) (ed : GraphEdge) : Option AState :=
  match st.gScore cur with
  | none => some st
  | some gc =>
    let tg : WithTop ℚ := gc + (ed.weight : ℚ)
    match st.gScore ed.target with
    | none => some st
    | some gt =>
      if tg < gt then
        match g.getNode ed.target with
        | none => none
        | some nd =>
          let hn : ℚ := hv nd.lat nd.lon endData.lat endData.lon
          some { st with
            prev := upd st.prev ed.target (some cur)
            gScore := upd st.gScore ed.target tg
            fScore := upd st.fScore ed.target (tg + (hn : ℚ))
            pq := pqEnqueue ⟨ed.target, tg + (hn : ℚ)⟩ st.pq }
      else some st

/-- Main loop of `aStar`, with fuel. -/
def aStarLoop (g : Graph) (hv : ℚ → ℚ → ℚ → ℚ → ℚ) (endData : GraphNode) (endN : ℤ) :
    ℕ → AState → Option AState
  | 0, st =>
    match st.pq with
    | [] => some st
    | _ :: _ => none
  | fuel + 1, st =>
    match st.pq with
    | [] => some st
    | c :: rest =>
      let st1 : AState := { st with pq := rest, visitedInOrder := st.visitedInOrder ++ [c.element] }
      if c.element = endN then some st1
      else
        match (g.getNeighbors c.element).foldl
            (fun acc ed => acc.bind fun s => aStarRelax g hv endData c.element s ed)
            (some st1) with
        | none => none
        | some st2 => aStarLoop g hv endData endN fuel st2

/-- Initial state of `aStar`: scores at `Infinity` except the start node, whose
f-score is the start heuristic `hs0`; one queue entry. -/
def aStarInit (g : Graph) (startN : ℤ) (hs0 : ℚ) : AState :=
  { gScore := upd (initMap g.nodeIds (⊤ : WithTop ℚ)) startN (0 : WithTop ℚ)
    fScore := upd (initMap g.nodeIds (⊤ : WithTop ℚ)) startN ((hs0 : ℚ) : WithTop ℚ)
    prev := initMap g.nodeIds (none : Option ℤ)
    pq := pqEnqueue ⟨startN, ((hs0 : ℚ) : WithTop ℚ)⟩ []
    visitedInOrder := [] }

/-- `aStar(graph, startNode, endNode)`: an absent end node returns the empty
result with an empty `prev`; an absent start node crashes on
`startNodeData!.lat` (modelled `none`); otherwise run and reconstruct as in
Dijkstra. -/
def aStarRun (hv : ℚ → ℚ → ℚ → ℚ → ℚ) (g : Graph) (startN endN : ℤ) (fuel : ℕ) :
    Option AlgorithmResult :=
  match g.getNode endN with
  | none => some ⟨[], [], fun _ => none⟩
  | some endData =>
    match g.getNode startN with
    | none => none
    | some startData =>
      match aStarLoop g hv endData endN fuel
          (aStarInit g startN (hv startData.lat startData.lon endData.lat endData.lon)) with
      | none => none
      | some st =>
        match walkPrev st.prev fuel (some (some endN)) [] with
        | none => none
        | some path =>
          if path.getLast? = some startN then some ⟨path.reverse, st.visitedInOrder, st.prev⟩
          else some ⟨[], st.visitedInOrder, st.prev⟩

/-- Loop state of `greedyBestFirstSearch`: predecessor map doubling as the
visited flag, queue and visitation order. -/
structure GState where
  prev : ℤ → Option (Option ℤ)
  pq : List (PQElem ℤ)
  visitedInOrder : List ℤ

/-- One neighbor step of `greedyBestFirstSearch`: only a neighbor whose `prev`
entry is strictly `null` is claimed and enqueued at its heuristic priority;
a neighbor with no entry at all fails the `=== null` test and is skipped. -/
def gbfsRelax (g : Graph) (hv : ℚ → ℚ → ℚ → ℚ → ℚ) (endData : GraphNode) (cur : ℤ)
    (st : GState) (ed : GraphEdge) : Option GState :=
  match st.prev ed.target with
  | some none =>
    match g.getNode ed.target with
    | none => none
    | some nd =>
      some { st with
        prev := upd st.prev ed.target (some cur)
        pq := pqEnqueue ⟨ed.target, ((hv nd.lat nd.lon endData.lat endData.lon : ℚ) : WithTop ℚ)⟩ st.pq }
  | _ => some st

/-- Main loop of `greedyBestFirstSearch`, with fuel. -/
def gbfsLoop (g : Graph) (hv : ℚ → ℚ → ℚ → ℚ → ℚ) (endData : GraphNode) (endN : ℤ) :
    ℕ → GState → Option GState
  | 0, st =>
    match st.pq with
    | [] => some st
    | _ :: _ => none
  | fuel + 1, st =>
    match st.pq with
    | [] => some st
    | c :: rest =>
      let st1 : GState := { st with pq := rest, visitedInOrder := st.visitedInOrder ++ [c.element] }
      if c.element = endN then some st1
      else
        match (g.getNeighbors c.element).foldl
            (fun acc ed => acc.bind fun s => gbfsRelax g hv endData c.element s ed)
            (some st1) with
        | none => none
        | some st2 => gbfsLoop g hv endData endN fuel st2

/-- The reconstruction loop of `greedyBestFirstSearch`: push the current node,
break once the start sentinel is reached, otherwise follow `prev`. -/
def gbfsWalk (prev : ℤ → Option (Option ℤ)) (startN : ℤ) :
    ℕ → Option (Option ℤ) → List ℤ → Option (List ℤ)
  | 0, _, _ => none
  | fuel + 1, cur, acc =>
    match cur with
    | some none => some acc
    | some (some v) =>
      if v = startN then some (acc ++ [v])
      else gbfsWalk prev startN fuel (prev v) (acc ++ [v])
    | none => gbfsWalk prev startN fuel none acc

/-- Initial state of `greedyBestFirstSearch`: every listed node's `prev` is
`null`, then the start sentinel `prev[start] = start`; one queue entry at the
start heuristic `hs0`. -/
def gbfsInit (g : Graph) (startN : ℤ) (hs0 : ℚ) : GState :=
  { prev := upd (initMap g.nodeIds (none : Option ℤ)) startN (some startN)
    pq := pqEnqueue ⟨startN, ((hs0 : ℚ) : WithTop ℚ)⟩ []
    visitedInOrder := [] }

/-- `greedyBestFirstSearch(graph, startNode, endNode)`. -/
def gbfsRun (hv : ℚ → ℚ → ℚ → ℚ → ℚ) (g : Graph) (startN endN : ℤ) (fuel : ℕ) :
    Option AlgorithmResult :=
  match g.getNode endN with
  | none => some ⟨[], [], fun _ => none⟩
  | some endData =>
    match g.getNode startN with
    | none => none
    | some startData =>
      match gbfsLoop g hv endData endN fuel
          (gbfsInit g startN (hv startData.lat startData.lon endData.lat endData.lon)) with
      | none => none
      | some st =>
        match gbfsWalk st.prev startN fuel (some (some endN)) [] with
        | none => none
        | some path =>
          if path.getLast? = some startN then some ⟨path.reverse, st.visitedInOrder, st.prev⟩
          else some ⟨[], st.visitedInOrder, st.prev⟩

/-- Loop state of `breadthFirstSearch`: FIFO queue, explicit visited set,
predecessor map and visitation order. -/
structure BState where
  queue : List ℤ
  visited : List ℤ
  prev : ℤ → Option (Option ℤ)
  visitedInOrder : List ℤ

/-- One neighbor step of `breadthFirstSearch`: an unvisited neighbor is marked
visited, given its predecessor, and appended to the back of the queue. -/
def bfsRelax (cur : ℤ) (st : BState) (ed : GraphEdge) : BState :=
  if ed.target ∈ st.visited then st
  else
    { st with
      visited := ed.target :: st.visited
      prev := upd st.prev ed.target (some cur)
      queue := st.queue ++ [ed.target] }

/-- Main loop of `breadthFirstSearch`, with fuel; the boolean is the `found`
flag. -/
def bfsLoop (g : Graph) (endN : ℤ) : ℕ → BState → Option (BState × Bool)
  | 0, st =>
    match st.queue with
    | [] => some (st, false)
    | _ :: _ => none
  | fuel + 1, st =>
    match st.queue with
    | [] => some (st, false)
    | c :: rest =>
      let st1 : BState := { st with queue := rest, visitedInOrder := st.visitedInOrder ++ [c] }
      if c = endN then some (st1, true)
      else bfsLoop g endN fuel ((g.getNeighbors c).foldl (bfsRelax c) st1)

/-- Initial state of `breadthFirstSearch`: start enqueued and visited. -/
def bfsInit (g : Graph) (startN : ℤ) : BState :=
  { queue := [startN]
    visited := [startN]
    prev := initMap g.nodeIds (none : Option ℤ)
    visitedInOrder := [] }

/-- `breadthFirstSearch(graph, startNode, endNode)`: path reconstruction runs
only when the end node was actually dequeued. -/
def bfsRun (g : Graph) (startN endN : ℤ) (fuel : ℕ) : Option AlgorithmResult :=
  match bfsLoop g endN fuel (bfsInit g startN) with
  | none => none
  | some (st, found) =>
    if found then
      match walkPrev st.prev fuel (some (some endN)) [] with
      | none => none
      | some path => some ⟨path.reverse, st.visitedInOrder, st.prev⟩
    else some ⟨[], st.visitedInOrder, st.prev⟩

/-- Loop state of `depthFirstSearch`: LIFO stack (top at the head), predecessor
map doubling as the visited flag, and visitation order. -/
structure FState where
  stack : List ℤ
  prev : ℤ → Option (Option ℤ)
  visitedInOrder : List ℤ

/-- One neighbor step of `depthFirstSearch`: a neighbor whose `prev` entry is
strictly `null` is claimed and pushed on the stack. -/
def dfsRelax (cur : ℤ) (st : FState) (ed : GraphEdge) : FState :=
  match st.prev ed.target with
  | some none =>
    { st with
      prev := upd st.prev ed.target (some cur)
      stack := ed.target :: st.stack }
  | _ => st

/-- Main loop of `depthFirstSearch`, with fuel; the boolean is the `found`
flag. -/
def dfsLoop (g : Graph) (endN : ℤ) : ℕ → FState → Option (FState × Bool)
  | 0, st =>
    match st.stack with
    | [] => some (st, false)
    | _ :: _ => none
  | fuel + 1, st =>
    match st.stack with
    | [] => some (st, false)
    | c :: rest =>
      let st1 : FState := { st with stack := rest, visitedInOrder := st.visitedInOrder ++ [c] }
      if c = endN then some (st1, true)
      else dfsLoop g endN fuel ((g.getNeighbors c).foldl (dfsRelax c) st1)

/-- The reconstruction loop of `depthFirstSearch`: exits on `null` or on the
`-1` start sentinel (before pushing), spins forever on `undefined`. -/
def dfsWalk (prev : ℤ → Option (Option ℤ)) :
    ℕ → Option (Option ℤ) → List ℤ → Option (List ℤ)
  | 0, _, _ => none
  | fuel + 1, cur, acc =>
    match cur with
    | some none => some acc
    | some (some v) =>
      if v = -1 then some acc
      else dfsWalk prev fuel (prev v) (acc ++ [v])
    | none => dfsWalk prev fuel none acc

/-- Initial state of `depthFirstSearch`: start on the stack, its `prev` entry
the `-1` sentinel. -/
def dfsInit (g : Graph) (startN : ℤ) : FState :=
  { stack := [startN]
    prev := upd (initMap g.nodeIds (none : Option ℤ)) startN (some (-1))
    visitedInOrder := [] }

/-- `depthFirstSearch(graph, startNode, endNode)`: the start node's `prev`
entry is the `-1` sentinel; reconstruction runs only when found. -/
def dfsRun (g : Graph) (startN endN : ℤ) (fuel : ℕ) : Option AlgorithmResult :=
  match dfsLoop g endN fuel (dfsInit g startN) with
  | none => none
  | some (st, found) =>
    if found then
      match dfsWalk st.prev fuel (some (some endN)) [] with
      | none => none
      | some path => some ⟨path.reverse, st.visitedInOrder, st.prev⟩
    else some ⟨[], st.visitedInOrder, st.prev⟩

/-! ## Specification-side predicates and concrete example graphs -/

/-- Weighted path semantics over the stored adjacency: `PathCost g s e p c`
says that `p` lists the nodes of a walk from `s` to `e` whose consecutive
pairs are joined by stored edges of total weight `c`. -/
inductive PathCost (g : Graph) : ℤ → ℤ → List ℤ → ℚ → Prop
  | single (s : ℤ) : PathCost g s s [s] 0
  | cons (u e : ℤ) (ed : GraphEdge) (p : List ℤ) (c : ℚ) :
      ed ∈ g.getNeighbors u → PathCost g ed.target e p c →
      PathCost g u e (u :: p) (ed.weight + c)

/-- A walk from `s` to `e` along stored edges, with some total weight. -/
def IsPath (g : Graph) (s e : ℤ) (p : List ℤ) : Prop :=
  ∃ c, PathCost g s e p c

/-- Reachability along stored adjacency (reflexive). -/
def Reachable (g : Graph) (s e : ℤ) : Prop :=
  ∃ p, IsPath g s e p

/-- The targets pushed on the stack while `depthFirstSearch` scans the stored
neighbor list of `cur` left to right: exactly the neighbors whose `prev` entry
is still `null`, in stored order (marking each as claimed as it goes). -/
def dfsPushList (cur : ℤ) (pr : ℤ → Option (Option ℤ)) : List GraphEdge → List ℤ
  | [] => []
  | ed :: rest =>
    match pr ed.target with
    | some none => ed.target :: dfsPushList cur (upd pr ed.target (some cur)) rest
    | _ => dfsPushList cur pr rest

/-- Example graph: square with a shortcut plus an isolated node 4; node 3 is
relaxed twice, leaving a stale queue entry. -/
def exGraphStale : Graph :=
  Graph.buildFromJSON [⟨1, 0, 0⟩, ⟨2, 0, 0⟩, ⟨3, 0, 0⟩, ⟨4, 0, 0⟩]
    [⟨1, 2, 1⟩, ⟨1, 3, 5⟩, ⟨2, 3, 1⟩]

/-- Example graph: one node 1 with two neighbors 2 and 3 in stored order. -/
def exGraphFork : Graph :=
  Graph.buildFromJSON [⟨1, 0, 0⟩, ⟨2, 0, 0⟩, ⟨3, 0, 0⟩] [⟨1, 2, 1⟩, ⟨1, 3, 1⟩]

/-- Example graph: the single node `-1` (a legal integer id). -/
def exGraphNegOne : Graph :=
  Graph.buildFromJSON [⟨-1, 0, 0⟩] []

/-- Example graph: node `-1` joined to node 2. -/
def exGraphNegEdge : Graph :=
  Graph.buildFromJSON [⟨-1, 0, 0⟩, ⟨2, 0, 0⟩] [⟨-1, 2, 1⟩]

/-- Example graph: the single node 1 (so that node id 2 does not exist). -/
def exGraphOne : Graph :=
  Graph.buildFromJSON [⟨1, 0, 0⟩] []

/-- No-duplicate invariant for `breadthFirstSearch`: each node occurs at most
once in the queue and visit list combined, and an unvisited node occurs in
neither. -/
def BfsNoDupInv (st : BState) : Prop :=
  (∀ v : ℤ, st.queue.count v + st.visitedInOrder.count v ≤ 1) ∧
  (∀ v : ℤ, v ∉ st.visited → v ∉ st.queue ∧ v ∉ st.visitedInOrder)

/-- No-duplicate invariant for `depthFirstSearch`: the `prev`-as-visited-flag
version of the BFS invariant (`some none` is an unclaimed `null` entry). -/
def DfsNoDupInv (st : FState) : Prop :=
  (∀ v : ℤ, st.stack.count v + st.visitedInOrder.count v ≤ 1) ∧
  (∀ v : ℤ, st.prev v = some none → v ∉ st.stack ∧ v ∉ st.visitedInOrder)

/-- No-duplicate invariant for `greedyBestFirstSearch`, over the queued
elements. -/
def GbfsNoDupInv (st : GState) : Prop :=
  (∀ v : ℤ, (st.pq.map PQElem.element).count v + st.visitedInOrder.count v ≤ 1) ∧
  (∀ v : ℤ, st.prev v = some none → v ∉ st.pq.map PQElem.element ∧ v ∉ st.visitedInOrder)

/-- A stored directed edge from `u` to `v`. -/
def Adjacent (g : Graph) (u v : ℤ) : Prop :=
  ∃ ed ∈ g.getNeighbors u, ed.target = v

/-- Invariant of the Dijkstra loop used for claims C9 and C10: everything
queued or visited is reachable from the start, every predecessor entry comes
from a stored edge into a reachable node, and listed nodes keep a table
entry. -/
def DijkstraInv (g : Graph) (s : ℤ) (st : DState) : Prop :=
  (∀ x ∈ st.pq, Reachable g s x.element) ∧
  (∀ v ∈ st.visitedInOrder, Reachable g s v) ∧
  (∀ v u, st.prev v = some (some u) → Adjacent g u v ∧ Reachable g s v) ∧
  (∀ v, v ∈ g.nodeIds → st.prev v ≠ none)

/-- The A* analogue of `DijkstraInv`. -/
def AStarInv (g : Graph) (s : ℤ) (st : AState) : Prop :=
  (∀ x ∈ st.pq, Reachable g s x.element) ∧
  (∀ v ∈ st.visitedInOrder, Reachable g s v) ∧
  (∀ v u, st.prev v = some (some u) → Adjacent g u v ∧ Reachable g s v) ∧
  (∀ v, v ∈ g.nodeIds → st.prev v ≠ none)

/-- The greedy-best-first analogue; the start node's `prev` is the
self-referencing sentinel, excluded from the edge property. -/
def GbfsInv (g : Graph) (s : ℤ) (st : GState) : Prop :=
  (∀ x ∈ st.pq, Reachable g s x.element) ∧
  (∀ v ∈ st.visitedInOrder, Reachable g s v) ∧
  (∀ v u, st.prev v = some (some u) → v = s ∨ (Adjacent g u v ∧ Reachable g s v)) ∧
  (∀ v, v ∈ g.nodeIds → st.prev v ≠ none)

/-- Invariant of the BFS loop for claims C9 and C10. -/
def BfsInv (g : Graph) (s : ℤ) (st : BState) : Prop :=
  (∀ v ∈ st.visited, Reachable g s v) ∧
  (∀ v u, st.prev v = some (some u) → Adjacent g u v ∧ u ∈ st.visited) ∧
  (∀ v ∈ st.visited, v ≠ s → ∃ u, st.prev v = some (some u)) ∧
  (∀ v ∈ st.queue, v ∈ st.visited) ∧
  (∀ v ∈ st.visitedInOrder, v ∈ st.visited)

/-- A node claimed by depthFirstSearch: its `prev` entry holds a number. -/
def DfsClaimed (st : FState) (v : ℤ) : Prop :=
  ∃ u, st.prev v = some (some u)

/-- Invariant of the DFS loop for claims C9 and C10, for a start node other
than `-1` on a graph not using the id `-1`. -/
def DfsInv (g : Graph) (s : ℤ) (st : FState) : Prop :=
  (∀ v, DfsClaimed st v → Reachable g s v) ∧
  (∀ v u, st.prev v = some (some u) →
    (v = s ∧ u = -1) ∨ (u ≠ -1 ∧ Adjacent g u v ∧ DfsClaimed st u)) ∧
  (∀ v ∈ st.stack, DfsClaimed st v) ∧
  (∀ v ∈ st.visitedInOrder, DfsClaimed st v) ∧
  st.prev (-1) = none

/-- Weaker DFS invariant used for claim C9, valid for every start node and
graph (no assumption about the id `-1`): every claimed node is reachable, and
stacked or visited nodes are claimed. -/
def DfsReachInv (g : Graph) (s : ℤ) (st : FState) : Prop :=
  (∀ v, DfsClaimed st v → Reachable g s v) ∧
  (∀ v ∈ st.stack, DfsClaimed st v) ∧
  (∀ v ∈ st.visitedInOrder, DfsClaimed st v)

/-- Example graph: two isolated nodes 1 and 2 with no edges (node 2 is
unreachable from node 1). -/
def exGraphTwo : Graph :=
  Graph.buildFromJSON [⟨1, 0, 0⟩, ⟨2, 0, 0⟩] []

/-- Depth bookkeeping for the BFS hop-minimality proof (claim C5), with a
ghost depth assignment `D`: the start is visited at depth 0 and keeps its
`null`/missing predecessor entry; every visited node is either already popped
(in `visitedInOrder`) or still queued; predecessor entries step the depth down
by exactly one; the queue is sorted by depth with spread at most one beyond
its head; pops happen in nondecreasing depth order, queued depths never exceed
the last popped depth plus one, and the last popped depth is maximal among
pops. -/
def BfsDepthClauses (s : ℤ) (st : BState) (D : ℤ → ℕ) : Prop :=
  (s ∈ st.visited ∧ D s = 0) ∧
  (st.prev s = some none ∨ st.prev s = none) ∧
  (∀ v ∈ st.visited, v ∈ st.visitedInOrder ∨ v ∈ st.queue) ∧
  (∀ v ∈ st.visitedInOrder, v ∈ st.visited) ∧
  (∀ v ∈ st.queue, v ∈ st.visited) ∧
  (∀ v ∈ st.visited, v = s ∨ ∃ u, st.prev v = some (some u) ∧ u ∈ st.visited ∧ D v = D u + 1) ∧
  List.Pairwise (fun a b => D a ≤ D b) st.queue ∧
  (∀ w ∈ st.queue, ∀ h, st.queue.head? = some h → D w ≤ D h + 1) ∧
  (∀ v ∈ st.visitedInOrder, ∀ w ∈ st.queue, D v ≤ D w) ∧
  (∀ l, st.visitedInOrder.getLast? = some l → ∀ w ∈ st.queue, D w ≤ D l + 1) ∧
  (∀ v ∈ st.visitedInOrder, ∀ l, st.visitedInOrder.getLast? = some l → D v ≤ D l)

/-- The expansion clause of the BFS depth invariant: every popped node other
than the end node (whose pop stops the loop before its neighbors are scanned)
and other than `cur` (the node whose neighbor scan is in progress) has all its
stored neighbors visited at most one level deeper. -/
def BfsFrontierExcept (g : Graph) (endN cur : ℤ) (st : BState) (D : ℤ → ℕ) : Prop :=
  ∀ v ∈ st.visitedInOrder, v ≠ endN → v ≠ cur →
    ∀ ed ∈ g.getNeighbors v, ed.target ∈ st.visited ∧ D ed.target ≤ D v + 1

/-- The full BFS depth invariant for claim C5. -/
def BfsD (g : Graph) (s endN : ℤ) (st : BState) : Prop :=
  ∃ D : ℤ → ℕ, BfsDepthClauses s st D ∧
    ∀ v ∈ st.visitedInOrder, v ≠ endN →
      ∀ ed ∈ g.getNeighbors v, ed.target ∈ st.visited ∧ D ed.target ≤ D v + 1

/-- All stored edge weights are nonnegative (the spec's weights are road
distances). -/
def WeightsNonneg (g : Graph) : Prop :=
  ∀ u : ℤ, ∀ ed ∈ g.getNeighbors u, 0 ≤ ed.weight

/-- Every id outside the node map has an empty stored neighbor list (true of
every graph produced by `buildFromJSON`). -/
def GraphClosed (g : Graph) : Prop :=
  ∀ v : ℤ, v ∉ g.nodeIds → g.getNeighbors v = []

/-- The heuristic of `aStar` as a function of the node id: the haversine
estimate from the node's stored coordinates to the end node's. -/
def hfun (g : Graph) (hv : ℚ → ℚ → ℚ → ℚ → ℚ) (endData : GraphNode) (x : ℤ) : ℚ :=
  match g.getNode x with
  | some nd => hv nd.lat nd.lon endData.lat endData.lon
  | none => 0

/-- Consistency of the heuristic: along every stored edge the estimate drops
by at most the edge weight. -/
def Consistent (g : Graph) (hv : ℚ → ℚ → ℚ → ℚ → ℚ) (endData : GraphNode) : Prop :=
  ∀ u : ℤ, ∀ ed ∈ g.getNeighbors u,
    hfun g hv endData u ≤ ed.weight + hfun g hv endData ed.target

/-- Core invariant of the Dijkstra loop for claim C1.  The start keeps
distance 0 and a `null` predecessor; distance entries are nonnegative; every
finite entry away from the start records a relaxed stored edge from its
predecessor; the queue is sorted; queued entries carry finite priorities at or
above the current distance of their node; an unpopped node with a finite
distance has its current distance enqueued; popped nodes are at or below the
cost of every path from the start; every finite distance is realised by some
path; every listed node has a table entry. -/
def DijkClauses (g : Graph) (s : ℤ) (st : DState) : Prop :=
  (st.dist s = some ((0 : ℚ) : WithTop ℚ) ∧ st.prev s = some none) ∧
  (∀ (v : ℤ) (dv : ℚ), st.dist v = some ((dv : ℚ) : WithTop ℚ) → 0 ≤ dv) ∧
  (∀ v : ℤ, v ≠ s → ∀ dv : ℚ, st.dist v = some ((dv : ℚ) : WithTop ℚ) →
    ∃ (u : ℤ) (du : ℚ) (ed : GraphEdge), st.prev v = some (some u) ∧
      st.dist u = some ((du : ℚ) : WithTop ℚ) ∧ ed ∈ g.getNeighbors u ∧ ed.target = v ∧
      du + ed.weight ≤ dv) ∧
  PQSorted st.pq ∧
  (∀ x ∈ st.pq, ∃ (px : ℚ) (dx : WithTop ℚ), x.priority = ((px : ℚ) : WithTop ℚ) ∧
    st.dist x.element = some dx ∧ dx ≤ ((px : ℚ) : WithTop ℚ)) ∧
  (∀ v : ℤ, v ∉ st.visitedInOrder → ∀ dv : ℚ, st.dist v = some ((dv : ℚ) : WithTop ℚ) →
    (⟨v, ((dv : ℚ) : WithTop ℚ)⟩ : PQElem ℤ) ∈ st.pq) ∧
  (∀ u ∈ st.visitedInOrder, ∀ (P : List ℤ) (c : ℚ), PathCost g s u P c →
    ∃ du : WithTop ℚ, st.dist u = some du ∧ du ≤ ((c : ℚ) : WithTop ℚ)) ∧
  (∀ (v : ℤ) (dv : ℚ), st.dist v = some ((dv : ℚ) : WithTop ℚ) →
    ∃ P, PathCost g s v P dv) ∧
  (∀ v ∈ g.nodeIds, ∃ d, st.dist v = some d)

/-- The expansion clause for Dijkstra: every popped node other than the end
node and the node currently being scanned has every stored neighbor either
relaxed to within its distance plus the edge weight, or absent from the
distance table. -/
def DijkFrontierExcept (g : Graph) (endN cur : ℤ) (st : DState) : Prop :=
  ∀ u ∈ st.visitedInOrder, u ≠ endN → u ≠ cur →
    ∀ ed ∈ g.getNeighbors u, ∀ du : ℚ, st.dist u = some ((du : ℚ) : WithTop ℚ) →
      (∃ dt : WithTop ℚ, st.dist ed.target = some dt ∧
        dt ≤ (((du + ed.weight : ℚ)) : WithTop ℚ)) ∨
      st.dist ed.target = none

/-- Full Dijkstra optimality invariant for claim C1. -/
def DijkOpt (g : Graph) (s endN : ℤ) (st : DState) : Prop :=
  DijkClauses g s st ∧
  ∀ u ∈ st.visitedInOrder, u ≠ endN →
    ∀ ed ∈ g.getNeighbors u, ∀ du : ℚ, st.dist u = some ((du : ℚ) : WithTop ℚ) →
      (∃ dt : WithTop ℚ, st.dist ed.target = some dt ∧
        dt ≤ (((du + ed.weight : ℚ)) : WithTop ℚ)) ∨
      st.dist ed.target = none

/-- Core invariant of the A* loop for claim C1, the analogue of `DijkClauses`
on the g-score table, with queue priorities equal to a (possibly stale)
g-score plus the heuristic of the node. -/
def AStarClauses (g : Graph) (hv : ℚ → ℚ → ℚ → ℚ → ℚ) (endData : GraphNode) (s : ℤ)
    (st : AState) : Prop :=
  (st.gScore s = some ((0 : ℚ) : WithTop ℚ) ∧ st.prev s = some none) ∧
  (∀ (v : ℤ) (dv : ℚ), st.gScore v = some ((dv : ℚ) : WithTop ℚ) → 0 ≤ dv) ∧
  (∀ v : ℤ, v ≠ s → ∀ dv : ℚ, st.gScore v = some ((dv : ℚ) : WithTop ℚ) →
    ∃ (u : ℤ) (du : ℚ) (ed : GraphEdge), st.prev v = some (some u) ∧
      st.gScore u = some ((du : ℚ) : WithTop ℚ) ∧ ed ∈ g.getNeighbors u ∧ ed.target = v ∧
      du + ed.weight ≤ dv) ∧
  PQSorted st.pq ∧
  (∀ x ∈ st.pq, ∃ (px : ℚ) (dx : WithTop ℚ),
    x.priority = (((px + hfun g hv endData x.element : ℚ)) : WithTop ℚ) ∧
    st.gScore x.element = some dx ∧ dx ≤ ((px : ℚ) : WithTop ℚ)) ∧
  (∀ v : ℤ, v ∉ st.visitedInOrder → ∀ dv : ℚ, st.gScore v = some ((dv : ℚ) : WithTop ℚ) →
    (⟨v, (((dv + hfun g hv endData v : ℚ)) : WithTop ℚ)⟩ : PQElem ℤ) ∈ st.pq) ∧
  (∀ u ∈ st.visitedInOrder, ∀ (P : List ℤ) (c : ℚ), PathCost g s u P c →
    ∃ du : WithTop ℚ, st.gScore u = some du ∧ du ≤ ((c : ℚ) : WithTop ℚ)) ∧
  (∀ (v : ℤ) (dv : ℚ), st.gScore v = some ((dv : ℚ) : WithTop ℚ) →
    ∃ P, PathCost g s v P dv) ∧
  (∀ v ∈ g.nodeIds, ∃ d, st.gScore v = some d)

/-- Full A* optimality invariant for claim C1. -/
def AStarOpt (g : Graph) (hv : ℚ → ℚ → ℚ → ℚ → ℚ) (endData : GraphNode) (s endN : ℤ)
    (st : AState) : Prop :=
  AStarClauses g hv endData s st ∧
  ∀ u ∈ st.visitedInOrder, u ≠ endN →
    ∀ ed ∈ g.getNeighbors u, ∀ du : ℚ, st.gScore u = some ((du : ℚ) : WithTop ℚ) →
      (∃ dt : WithTop ℚ, st.gScore ed.target = some dt ∧
        dt ≤ (((du + ed.weight : ℚ)) : WithTop ℚ)) ∨
      st.gScore ed.target = none

/-- Example graph with a negative edge weight: nodes 1 and 2 joined by an
edge of weight -1 (stored in both directions by `buildFromJSON`). -/
def exGraphNeg : Graph :=
  Graph.buildFromJSON [⟨1, 0, 0⟩, ⟨2, 0, 0⟩] [⟨1, 2, -1⟩]

/-! ## Theorems: map and table lemmas -/

@[simp] theorem upd_same {α : Type} (m : ℤ → Option α) (k : ℤ) (v : α) :
    upd m k v k = some v := by
  simp [upd]

theorem upd_ne {α : Type} (m : ℤ → Option α) (k x : ℤ) (v : α) (h : x ≠ k) :
    upd m k v x = m x := by
  simp [upd, h]

theorem upd_eval {α : Type} (m : ℤ → Option α) (k x : ℤ) (v : α) :
    upd m k v x = if x = k then some v else m x := rfl

theorem initMap_eval {α : Type} (ids : List ℤ) (v : α) (x : ℤ) :
    initMap ids v x = if x ∈ ids then some v else none := by
  suffices h : ∀ (m : ℤ → Option α),
      ids.foldl (fun m i => upd m i v) m x = if x ∈ ids then some v else m x by
    simpa [initMap] using h (fun _ => none)
  induction ids with
  | nil => intro m; simp
  | cons a rest ih =>
    intro m
    by_cases hx : x ∈ rest
    · simp [List.foldl_cons, ih, hx]
    · by_cases hxa : x = a
      · subst hxa
        simp [List.foldl_cons, ih, hx]
      · simp [List.foldl_cons, ih, hx, hxa, upd_ne _ _ _ _ hxa]

/-! ## Priority queue lemmas -/

theorem mem_pqEnqueue {α : Type} (e x : PQElem α) (q : List (PQElem α)) :
    x ∈ pqEnqueue e q ↔ x = e ∨ x ∈ q := by
  induction q with
  | nil => simp [pqEnqueue]
  | cons a rest ih =>
    by_cases h : e.priority < a.priority
    · simp only [pqEnqueue, if_pos h, List.mem_cons]
    · simp only [pqEnqueue, if_neg h, List.mem_cons, ih]
      tauto

theorem pqEnqueue_sorted {α : Type} (e : PQElem α) (q : List (PQElem α))
    (hq : PQSorted q) : PQSorted (pqEnqueue e q) := by
  induction q with
  | nil => simp [pqEnqueue, PQSorted]
  | cons a rest ih =>
    rw [PQSorted, List.pairwise_cons] at hq
    by_cases h : e.priority < a.priority
    · rw [PQSorted, pqEnqueue, if_pos h, List.pairwise_cons]
      refine ⟨?_, ?_⟩
      · intro x hx
        rcases List.mem_cons.mp hx with hx | hx
        · exact le_of_lt (hx ▸ h)
        · exact le_trans (le_of_lt h) (hq.1 x hx)
      · rw [List.pairwise_cons]
        exact hq
    · rw [PQSorted, pqEnqueue, if_neg h, List.pairwise_cons]
      refine ⟨?_, ih hq.2⟩
      intro x hx
      rcases (mem_pqEnqueue e x rest).mp hx with hx | hx
      · exact hx ▸ le_of_not_lt h
      · exact hq.1 x hx

/-- Exact position of the new entry: `enqueue` splits the old items into the
maximal leading block whose priorities are not strictly greater than the new
priority and the remainder, and inserts the new entry in between. -/
theorem pqEnqueue_split {α : Type} (e : PQElem α) (q : List (PQElem α)) :
    ∃ l₁ l₂, q = l₁ ++ l₂ ∧ pqEnqueue e q = l₁ ++ e :: l₂ ∧
      (∀ x ∈ l₁, ¬ e.priority < x.priority) ∧
      (∀ y rest, l₂ = y :: rest → e.priority < y.priority) := by
  induction q with
  | nil =>
    exact ⟨[], [], rfl, rfl, by simp, by simp⟩
  | cons a rest ih =>
    by_cases h : e.priority < a.priority
    · refine ⟨[], a :: rest, rfl, ?_, by simp, ?_⟩
      · simp [pqEnqueue, h]
      · intro y r hy
        cases hy
        exact h
    · obtain ⟨l₁, l₂, hq, henq, h₁, h₂⟩ := ih
      refine ⟨a :: l₁, l₂, by simp [hq], ?_, ?_, h₂⟩
      · simp [pqEnqueue, h, henq]
      · intro x hx
        rcases List.mem_cons.mp hx with hx | hx
        · exact hx ▸ h
        · exact h₁ x hx

theorem pqReachable_sorted {α : Type} (q : List (PQElem α)) (h : PQReachable q) :
    PQSorted q := by
  induction h with
  | empty => simp [PQSorted]
  | enq e q _ ih => exact pqEnqueue_sorted e q ih
  | deq q _ ih =>
    cases q with
    | nil => simpa using ih
    | cons a rest =>
      rw [PQSorted, List.pairwise_cons] at ih
      exact ih.2

/-- Claim C6.  On every queue reachable by enqueue/dequeue operations from the
empty queue: the items stay sorted by priority; `dequeue` on the empty queue
returns the empty signal rather than throwing; a successful `dequeue` removes
the head entry, whose priority is minimal among all current entries (and which
is the first-listed, hence earliest-enqueued, entry of that minimal priority);
and `enqueue` inserts the new entry after all existing entries whose priority
is not strictly greater — in particular after all entries of equal priority,
preserving the relative order of the existing entries (stable FIFO ties). -/
theorem c6_priority_queue_contract {α : Type} :
    (pqDequeue ([] : List (PQElem α)) = none) ∧
    (∀ q : List (PQElem α), PQReachable q → PQSorted q) ∧
    (∀ (q : List (PQElem α)), PQReachable q → ∀ c, pqDequeue q = some c →
      (∃ rest, q = c :: rest ∧ q.tail = rest) ∧ ∀ x ∈ q, c.priority ≤ x.priority) ∧
    (∀ (e : PQElem α) (q : List (PQElem α)), PQReachable q →
      ∃ l₁ l₂, q = l₁ ++ l₂ ∧ pqEnqueue e q = l₁ ++ e :: l₂ ∧
        (∀ x ∈ l₁, x.priority ≤ e.priority) ∧
        (∀ x ∈ l₂, e.priority < x.priority)) := by
  refine ⟨rfl, pqReachable_sorted, ?_, ?_⟩
  · intro q hq c hc
    cases q with
    | nil => cases hc
    | cons a rest =>
      have ha : a = c := by
        simpa [pqDequeue] using hc
      subst ha
      refine ⟨⟨rest, rfl, rfl⟩, ?_⟩
      intro x hx
      rcases List.mem_cons.mp hx with hx | hx
      · exact hx ▸ le_refl _
      · have hs := pqReachable_sorted _ hq
        rw [PQSorted, List.pairwise_cons] at hs
        exact hs.1 x hx
  · intro e q hq
    obtain ⟨l₁, l₂, hsplit, henq, h₁, h₂⟩ := pqEnqueue_split e q
    refine ⟨l₁, l₂, hsplit, henq, fun x hx => le_of_not_lt (h₁ x hx), ?_⟩
    have hs := pqReachable_sorted _ hq
    intro x hx
    cases l₂ with
    | nil => cases hx
    | cons y rest =>
      rcases List.mem_cons.mp hx with hx | hx
      · exact hx ▸ h₂ y rest rfl
      · have hyx : y.priority ≤ x.priority := by
          have : List.Pairwise (fun a b : PQElem α => a.priority ≤ b.priority) (y :: rest) := by
            have := hsplit ▸ hs
            exact (List.pairwise_append.mp this).2.1
          rw [List.pairwise_cons] at this
          exact this.1 x hx
        exact lt_of_lt_of_le (h₂ y rest rfl) hyx

/-- Concrete instance of the C6 contract: enqueue 1 with priority 2, then 2
with priority 1; dequeue returns the priority-1 entry and it is minimal. -/
theorem c6_priority_queue_contract_witness :
    pqDequeue (pqEnqueue (⟨2, (1 : ℚ)⟩ : PQElem ℤ) (pqEnqueue ⟨1, (2 : ℚ)⟩ [])) =
      some (⟨2, (1 : ℚ)⟩ : PQElem ℤ) ∧
    ∀ x ∈ pqEnqueue (⟨2, (1 : ℚ)⟩ : PQElem ℤ) (pqEnqueue ⟨1, (2 : ℚ)⟩ []),
      (⟨2, (1 : ℚ)⟩ : PQElem ℤ).priority ≤ x.priority := by
  have hr : PQReachable (pqEnqueue ⟨2, (1 : ℚ)⟩ (pqEnqueue ⟨1, (2 : ℚ)⟩ ([] : List (PQElem ℤ)))) :=
    PQReachable.enq _ _ (PQReachable.enq _ _ PQReachable.empty)
  have h := (c6_priority_queue_contract (α := ℤ)).2.2.1 _ hr ⟨2, (1 : ℚ)⟩ (by decide)
  exact ⟨by decide, fun x hx => h.2 x hx⟩

/-! ## Map lemmas and the adjacency symmetry of buildFromJSON (claim C4) -/

theorem mapGet_mapSet {α : Type} (m : List (ℤ × α)) (k x : ℤ) (v : α) :
    mapGet (mapSet m k v) x = if x = k then some v else mapGet m x := by
  induction m with
  | nil => simp [mapSet, mapGet]
  | cons p rest ih =>
    obtain ⟨k', v'⟩ := p
    by_cases hk : k' = k
    · subst hk
      by_cases hx : x = k' <;> simp [mapSet, mapGet, hx]
    · by_cases hx : x = k'
      · subst hx
        simp [mapSet, mapGet, hk, Ne.symm hk]
      · simp [mapSet, mapGet, hx, hk, ih]

theorem mapGet_adjPush (m : List (ℤ × List GraphEdge)) (k x : ℤ) (e : GraphEdge) :
    mapGet (adjPush m k e) x =
      if x = k then (mapGet m x).map (fun l => l ++ [e]) else mapGet m x := by
  induction m with
  | nil => simp [adjPush, mapGet]
  | cons p rest ih =>
    obtain ⟨k', l⟩ := p
    by_cases hk : k' = k
    · subst hk
      by_cases hx : x = k' <;> simp [adjPush, mapGet, hx]
    · by_cases hx : x = k'
      · subst hx
        simp [adjPush, mapGet, hk, Ne.symm hk]
      · simp [adjPush, mapGet, hx, hk, ih]

theorem adjPush_isSome (m : List (ℤ × List GraphEdge)) (k x : ℤ) (e : GraphEdge) :
    (mapGet (adjPush m k e) x).isSome = (mapGet m x).isSome := by
  rw [mapGet_adjPush]
  by_cases hx : x = k <;> simp [hx]

theorem buildNodeStep_fold_adj (ns : List GraphNode) (x : ℤ) :
    ∀ g : Graph, mapGet (ns.foldl Graph.buildNodeStep g).adj x =
      if x ∈ ns.map GraphNode.id then some [] else mapGet g.adj x := by
  induction ns with
  | nil => intro g; simp
  | cons n rest ih =>
    intro g
    by_cases hx : x ∈ rest.map GraphNode.id
    · simp [List.foldl_cons, ih, hx]
    · by_cases hxn : x = n.id
      · subst hxn
        rw [List.foldl_cons, ih, if_neg hx]
        simp [Graph.buildNodeStep, mapGet_mapSet]
      · rw [List.foldl_cons, ih, if_neg hx]
        simp [Graph.buildNodeStep, mapGet_mapSet, hxn, hx]

theorem buildEdgeStep_getNeighbors (g : Graph) (e : GraphEdge) (ls lt : List GraphEdge)
    (hls : mapGet g.adj e.source = some ls) (hlt : mapGet g.adj e.target = some lt) (x : ℤ) :
    (g.buildEdgeStep e).getNeighbors x =
      if x = e.target then
        (if e.target = e.source then ls ++ [e] else lt) ++ [⟨e.target, e.source, e.weight⟩]
      else if x = e.source then ls ++ [e]
      else g.getNeighbors x := by
  unfold Graph.buildEdgeStep Graph.getNeighbors
  simp only [mapGet_adjPush]
  by_cases hxt : x = e.target
  · rw [if_pos hxt, if_pos hxt]
    by_cases hxs : x = e.source
    · have hts : e.target = e.source := hxt.symm.trans hxs
      rw [if_pos hxs, if_pos hts, hxs, hls]
      rfl
    · have hts : ¬ e.target = e.source := fun h => hxs (hxt.trans h)
      rw [if_neg hxs, if_neg hts, hxt, hlt]
      rfl
  · rw [if_neg hxt, if_neg hxt]
    by_cases hxs : x = e.source
    · rw [if_pos hxs, if_pos hxs, hxs, hls]
      rfl
    · rw [if_neg hxs, if_neg hxs]

theorem buildEdgeStep_mem (g : Graph) (e : GraphEdge)
    (hs : (mapGet g.adj e.source).isSome) (ht : (mapGet g.adj e.target).isSome)
    (x : ℤ) (e' : GraphEdge) :
    e' ∈ (g.buildEdgeStep e).getNeighbors x ↔
      e' ∈ g.getNeighbors x ∨ (x = e.source ∧ e' = e) ∨
        (x = e.target ∧ e' = ⟨e.target, e.source, e.weight⟩) := by
  obtain ⟨ls, hls⟩ := Option.isSome_iff_exists.mp hs
  obtain ⟨lt, hlt⟩ := Option.isSome_iff_exists.mp ht
  rw [buildEdgeStep_getNeighbors g e ls lt hls hlt x]
  by_cases hxt : x = e.target
  · rw [if_pos hxt]
    by_cases hxs : x = e.source
    · have hts : e.target = e.source := hxt.symm.trans hxs
      have hnb : g.getNeighbors x = ls := by
        unfold Graph.getNeighbors
        rw [hxs, hls]
        rfl
      rw [if_pos hts, hnb]
      simp [hxs, hxt]
      tauto
    · have hts : ¬ e.target = e.source := fun h => hxs (hxt.trans h)
      have hnb : g.getNeighbors x = lt := by
        unfold Graph.getNeighbors
        rw [hxt, hlt]
        rfl
      rw [if_neg hts, hnb]
      simp [hxs, hxt, hts]
  · rw [if_neg hxt]
    by_cases hxs : x = e.source
    · have hst : ¬ e.source = e.target := fun h => hxt (hxs.trans h)
      have hnb : g.getNeighbors x = ls := by
        unfold Graph.getNeighbors
        rw [hxs, hls]
        rfl
      rw [if_pos hxs, hnb]
      simp [hxs, hxt, hst]
    · rw [if_neg hxs]
      simp [hxs, hxt]

theorem buildEdgeStep_symmetric (g : Graph) (e : GraphEdge)
    (hsym : g.SymmetricAdj)
    (hs : (mapGet g.adj e.source).isSome) (ht : (mapGet g.adj e.target).isSome) :
    (g.buildEdgeStep e).SymmetricAdj := by
  intro a b w hab
  obtain ⟨e', he', htgt, hwt⟩ := hab
  rcases (buildEdgeStep_mem g e hs ht a e').mp he' with hold | ⟨ha, he⟩ | ⟨ha, he⟩
  · obtain ⟨e'', he'', h₁, h₂⟩ := hsym a b w ⟨e', hold, htgt, hwt⟩
    exact ⟨e'', (buildEdgeStep_mem g e hs ht b e'').mpr (Or.inl he''), h₁, h₂⟩
  · rw [he] at htgt hwt
    refine ⟨⟨e.target, e.source, e.weight⟩, ?_, ?_, ?_⟩
    · exact (buildEdgeStep_mem g e hs ht b _).mpr (Or.inr (Or.inr ⟨htgt.symm, rfl⟩))
    · exact ha.symm
    · exact hwt
  · rw [he] at htgt hwt
    refine ⟨e, ?_, ?_, ?_⟩
    · exact (buildEdgeStep_mem g e hs ht b e).mpr (Or.inr (Or.inl ⟨htgt.symm, rfl⟩))
    · exact ha.symm
    · exact hwt

theorem buildEdgeStep_fold_symmetric (edges : List GraphEdge) (ids : List ℤ) :
    ∀ g : Graph, g.SymmetricAdj →
      (∀ i ∈ ids, (mapGet g.adj i).isSome) →
      (∀ e ∈ edges, e.source ∈ ids ∧ e.target ∈ ids) →
      (edges.foldl Graph.buildEdgeStep g).SymmetricAdj := by
  induction edges with
  | nil => intro g hsym _ _; simpa using hsym
  | cons e rest ih =>
    intro g hsym hkeys hwf
    have hse := hwf e (List.mem_cons_self e rest)
    have hs := hkeys e.source hse.1
    have ht := hkeys e.target hse.2
    rw [List.foldl_cons]
    refine ih (g.buildEdgeStep e) (buildEdgeStep_symmetric g e hsym hs ht) ?_ ?_
    · intro i hi
      unfold Graph.buildEdgeStep
      rw [adjPush_isSome, adjPush_isSome]
      exact hkeys i hi
    · intro e' he'
      exact hwf e' (List.mem_cons_of_mem e he')

/-- Claim C4, amended: provided every input edge's endpoints are listed in the
input node set, the built adjacency is symmetric — every stored entry
`(a, b, w)` in `a`'s neighbor list has a stored mirror `(b, a, w)` of the same
weight in `b`'s list. -/
theorem c4_buildFromJSON_symmetric (nodesIn : List GraphNode) (edges : List GraphEdge)
    (hwf : ∀ e ∈ edges,
      e.source ∈ nodesIn.map GraphNode.id ∧ e.target ∈ nodesIn.map GraphNode.id) :
    (Graph.buildFromJSON nodesIn edges).SymmetricAdj := by
  unfold Graph.buildFromJSON
  refine buildEdgeStep_fold_symmetric edges (nodesIn.map GraphNode.id) _ ?_ ?_ hwf
  · intro a b w hab
    obtain ⟨e, he, _, _⟩ := hab
    unfold Graph.getNeighbors at he
    rw [buildNodeStep_fold_adj] at he
    by_cases hx : a ∈ nodesIn.map GraphNode.id
    · rw [if_pos hx] at he
      simp at he
    · rw [if_neg hx] at he
      simp [mapGet] at he
  · intro i hi
    rw [buildNodeStep_fold_adj, if_pos hi]
    rfl

/-- Concrete instance of the amended C4: two nodes, one edge; the mirror of the
inserted edge is stored with equal weight. -/
theorem c4_buildFromJSON_symmetric_witness :
    ∃ e ∈ (Graph.buildFromJSON [⟨1, 0, 0⟩, ⟨2, 0, 0⟩] [⟨1, 2, 3⟩]).getNeighbors 2,
      e.target = 1 ∧ e.weight = 3 :=
  c4_buildFromJSON_symmetric [⟨1, 0, 0⟩, ⟨2, 0, 0⟩] [⟨1, 2, 3⟩] (by decide) 1 2 3 (by decide)

/-- Counterexample to claim C4 as stated (quantified over every input): when an
edge references a node id absent from the node set, the forward entry is still
inserted into the existing endpoint's list, but no mirrored entry exists. -/
theorem c4_counterexample :
    (∃ e ∈ (Graph.buildFromJSON [⟨1, 0, 0⟩] [⟨1, 2, 5⟩]).getNeighbors 1,
      e.target = 2 ∧ e.weight = 5) ∧
    ¬ ∃ e ∈ (Graph.buildFromJSON [⟨1, 0, 0⟩] [⟨1, 2, 5⟩]).getNeighbors 2,
      e.target = 1 ∧ e.weight = 5 := by
  decide

/-! ## Unfolding lemmas for the fuelled loops and walks -/

theorem keys_mem_of_mapGet_isSome {α : Type} (m : List (ℤ × α)) (k : ℤ) :
    (mapGet m k).isSome ↔ k ∈ m.map Prod.fst := by
  induction m with
  | nil => simp [mapGet]
  | cons p rest ih =>
    obtain ⟨k', v⟩ := p
    by_cases hk : k = k' <;> simp [mapGet, hk, ih]

theorem dijkstraLoop_nil (g : Graph) (endN : ℤ) (fuel : ℕ) (st : DState) (h : st.pq = []) :
    dijkstraLoop g endN fuel st = some st := by
  cases fuel <;> simp [dijkstraLoop, h]

theorem dijkstraLoop_cons_found (g : Graph) (endN : ℤ) (fuel : ℕ) (st : DState)
    (c : PQElem ℤ) (rest : List (PQElem ℤ)) (h : st.pq = c :: rest) (he : c.element = endN) :
    dijkstraLoop g endN (fuel + 1) st =
      some { st with pq := rest, visitedInOrder := st.visitedInOrder ++ [c.element] } := by
  simp [dijkstraLoop, h, he]

theorem dijkstraLoop_cons_step (g : Graph) (endN : ℤ) (fuel : ℕ) (st : DState)
    (c : PQElem ℤ) (rest : List (PQElem ℤ)) (h : st.pq = c :: rest) (he : c.element ≠ endN) :
    dijkstraLoop g endN (fuel + 1) st =
      dijkstraLoop g endN fuel
        ((g.getNeighbors c.element).foldl (dijkstraRelax c.element)
          { st with pq := rest, visitedInOrder := st.visitedInOrder ++ [c.element] }) := by
  simp [dijkstraLoop, h, he]

theorem dijkstraLoop_zero_cons (g : Graph) (endN : ℤ) (st : DState)
    (c : PQElem ℤ) (rest : List (PQElem ℤ)) (h : st.pq = c :: rest) :
    dijkstraLoop g endN 0 st = none := by
  simp [dijkstraLoop, h]

theorem walkPrev_undefined (prev : ℤ → Option (Option ℤ)) :
    ∀ (n : ℕ) (acc : List ℤ), walkPrev prev n none acc = none := by
  intro n
  induction n with
  | zero => intro acc; rfl
  | succ n ih => intro acc; exact ih acc

theorem walkPrev_step (prev : ℤ → Option (Option ℤ)) (fuel : ℕ) (v : ℤ) (acc : List ℤ) :
    walkPrev prev (fuel + 1) (some (some v)) acc = walkPrev prev fuel (prev v) (acc ++ [v]) := rfl

theorem walkPrev_null (prev : ℤ → Option (Option ℤ)) (fuel : ℕ) (acc : List ℤ) :
    walkPrev prev (fuel + 1) (some none) acc = some acc := rfl

/-! ## Claim C3: a nonexistent end node makes dijkstra's reconstruction loop diverge -/

/-- Claim C3 (divergence witness).  On the one-node graph, `dijkstra(g, 1, 2)`
with nonexistent end node 2 never returns, for any amount of fuel: the main
loop finishes, but the reconstruction loop walks `prev[2] = undefined` and
`undefined !== null` keeps it spinning forever. -/
theorem c3_dijkstra_missing_end_diverges :
    ∀ fuel : ℕ, dijkstraRun exGraphOne 1 2 fuel = none := by
  intro fuel
  cases fuel with
  | zero => with_unfolding_all rfl
  | succ f =>
    have hpq : (dijkstraInit exGraphOne 1).pq = [⟨1, ((0 : ℚ) : WithTop ℚ)⟩] := by
      with_unfolding_all rfl
    have hnb : exGraphOne.getNeighbors 1 = [] := by
      with_unfolding_all rfl
    have hloop : dijkstraLoop exGraphOne 2 (f + 1) (dijkstraInit exGraphOne 1) =
        some { dijkstraInit exGraphOne 1 with pq := [], visitedInOrder := [1] } := by
      rw [dijkstraLoop_cons_step exGraphOne 2 f (dijkstraInit exGraphOne 1)
        ⟨1, ((0 : ℚ) : WithTop ℚ)⟩ [] hpq (by decide), hnb]
      exact dijkstraLoop_nil _ _ _ _ rfl
    have hprev : (dijkstraInit exGraphOne 1).prev 2 = none := by
      with_unfolding_all rfl
    have hwalk : walkPrev (dijkstraInit exGraphOne 1).prev (f + 1) (some (some 2)) [] = none := by
      rw [walkPrev_step, hprev]
      exact walkPrev_undefined _ _ _
    unfold dijkstraRun
    rw [hloop]
    simp only [hwalk]

/-! ## Concrete counterexamples from the example graphs -/

/-- Counterexample to claim C2 as stated: on `exGraphStale`, searching from 1
to the isolated node 4, node 3 is relaxed twice (via 1 at distance 5, via 2 at
distance 2); when the stale queue entry `(3, 5)` is popped after `(3, 2)`, the
code appends 3 to `visitedInOrder` a second time. -/
theorem c2_counterexample :
    (dijkstraRun exGraphStale 1 4 10).map (fun r => r.visitedInOrder) = some [1, 2, 3, 3] ∧
    ¬ ([1, 2, 3, 3] : List ℤ).Nodup := by
  constructor
  · with_unfolding_all decide
  · decide

/-- Counterexample to claim C7 as stated: node 1's stored neighbor list is
`[2, 3]`, but `depthFirstSearch` expands 3 (the last stored neighbor) first,
because the neighbors are pushed on a LIFO stack in stored order. -/
theorem c7_counterexample :
    (exGraphFork.getNeighbors 1).map GraphEdge.target = [2, 3] ∧
    (dfsRun exGraphFork 1 2 10).map (fun r => r.visitedInOrder) = some [1, 3, 2] := by
  constructor
  · with_unfolding_all decide
  · with_unfolding_all decide

/-- Counterexample to claim C8 as stated: node id `-1` exists in the graph,
but `depthFirstSearch(g, -1, -1)` returns the empty path instead of `[-1]`,
because `-1` is also the reconstruction loop's start sentinel. -/
theorem c8_counterexample :
    (-1 : ℤ) ∈ exGraphNegOne.nodeIds ∧
    (dfsRun exGraphNegOne (-1) (-1) 5).map (fun r => r.path) = some [] := by
  constructor
  · with_unfolding_all decide
  · with_unfolding_all decide

/-- Counterexample to claim C10 as stated: on the two-node graph with edge
`(-1, 2)`, `depthFirstSearch(g, -1, 2)` returns the non-empty path `[2]`,
which does not begin at the start node `-1`: the reconstruction loop stops at
`prev[2] = -1`, mistaking the start node's id for the sentinel. -/
theorem c10_counterexample :
    (dfsRun exGraphNegEdge (-1) 2 10).map (fun r => r.path) = some [2] ∧
    ([2] : List ℤ).head? ≠ some (-1) := by
  constructor
  · with_unfolding_all decide
  · decide

/-! ## Unfolding lemmas for the other loops -/

theorem aStarLoop_nil (g : Graph) (hv : ℚ → ℚ → ℚ → ℚ → ℚ) (endData : GraphNode) (endN : ℤ)
    (fuel : ℕ) (st : AState) (h : st.pq = []) :
    aStarLoop g hv endData endN fuel st = some st := by
  cases fuel <;> simp [aStarLoop, h]

theorem aStarLoop_zero_cons (g : Graph) (hv : ℚ → ℚ → ℚ → ℚ → ℚ) (endData : GraphNode) (endN : ℤ)
    (st : AState) (c : PQElem ℤ) (rest : List (PQElem ℤ)) (h : st.pq = c :: rest) :
    aStarLoop g hv endData endN 0 st = none := by
  simp [aStarLoop, h]

theorem aStarLoop_cons_found (g : Graph) (hv : ℚ → ℚ → ℚ → ℚ → ℚ) (endData : GraphNode)
    (endN : ℤ) (fuel : ℕ) (st : AState) (c : PQElem ℤ) (rest : List (PQElem ℤ))
    (h : st.pq = c :: rest) (he : c.element = endN) :
    aStarLoop g hv endData endN (fuel + 1) st =
      some { st with pq := rest, visitedInOrder := st.visitedInOrder ++ [c.element] } := by
  simp [aStarLoop, h, he]

theorem aStarLoop_cons_step (g : Graph) (hv : ℚ → ℚ → ℚ → ℚ → ℚ) (endData : GraphNode)
    (endN : ℤ) (fuel : ℕ) (st : AState) (c : PQElem ℤ) (rest : List (PQElem ℤ))
    (h : st.pq = c :: rest) (he : c.element ≠ endN) :
    aStarLoop g hv endData endN (fuel + 1) st =
      match (g.getNeighbors c.element).foldl
          (fun acc ed => acc.bind fun s => aStarRelax g hv endData c.element s ed)
          (some { st with pq := rest, visitedInOrder := st.visitedInOrder ++ [c.element] }) with
      | none => none
      | some st2 => aStarLoop g hv endData endN fuel st2 := by
  simp [aStarLoop, h, he]

theorem gbfsLoop_nil (g : Graph) (hv : ℚ → ℚ → ℚ → ℚ → ℚ) (endData : GraphNode) (endN : ℤ)
    (fuel : ℕ) (st : GState) (h : st.pq = []) :
    gbfsLoop g hv endData endN fuel st = some st := by
  cases fuel <;> simp [gbfsLoop, h]

theorem gbfsLoop_zero_cons (g : Graph) (hv : ℚ → ℚ → ℚ → ℚ → ℚ) (endData : GraphNode) (endN : ℤ)
    (st : GState) (c : PQElem ℤ) (rest : List (PQElem ℤ)) (h : st.pq = c :: rest) :
    gbfsLoop g hv endData endN 0 st = none := by
  simp [gbfsLoop, h]

theorem gbfsLoop_cons_found (g : Graph) (hv : ℚ → ℚ → ℚ → ℚ → ℚ) (endData : GraphNode)
    (endN : ℤ) (fuel : ℕ) (st : GState) (c : PQElem ℤ) (rest : List (PQElem ℤ))
    (h : st.pq = c :: rest) (he : c.element = endN) :
    gbfsLoop g hv endData endN (fuel + 1) st =
      some { st with pq := rest, visitedInOrder := st.visitedInOrder ++ [c.element] } := by
  simp [gbfsLoop, h, he]

theorem gbfsLoop_cons_step (g : Graph) (hv : ℚ → ℚ → ℚ → ℚ → ℚ) (endData : GraphNode)
    (endN : ℤ) (fuel : ℕ) (st : GState) (c : PQElem ℤ) (rest : List (PQElem ℤ))
    (h : st.pq = c :: rest) (he : c.element ≠ endN) :
    gbfsLoop g hv endData endN (fuel + 1) st =
      match (g.getNeighbors c.element).foldl
          (fun acc ed => acc.bind fun s => gbfsRelax g hv endData c.element s ed)
          (some { st with pq := rest, visitedInOrder := st.visitedInOrder ++ [c.element] }) with
      | none => none
      | some st2 => gbfsLoop g hv endData endN fuel st2 := by
  simp [gbfsLoop, h, he]

theorem bfsLoop_nil (g : Graph) (endN : ℤ) (fuel : ℕ) (st : BState) (h : st.queue = []) :
    bfsLoop g endN fuel st = some (st, false) := by
  cases fuel <;> simp [bfsLoop, h]

theorem bfsLoop_zero_cons (g : Graph) (endN : ℤ) (st : BState) (c : ℤ) (rest : List ℤ)
    (h : st.queue = c :: rest) :
    bfsLoop g endN 0 st = none := by
  simp [bfsLoop, h]

theorem bfsLoop_cons_found (g : Graph) (endN : ℤ) (fuel : ℕ) (st : BState) (c : ℤ)
    (rest : List ℤ) (h : st.queue = c :: rest) (he : c = endN) :
    bfsLoop g endN (fuel + 1) st =
      some ({ st with queue := rest, visitedInOrder := st.visitedInOrder ++ [c] }, true) := by
  simp [bfsLoop, h, he]

theorem bfsLoop_cons_step (g : Graph) (endN : ℤ) (fuel : ℕ) (st : BState) (c : ℤ)
    (rest : List ℤ) (h : st.queue = c :: rest) (he : c ≠ endN) :
    bfsLoop g endN (fuel + 1) st =
      bfsLoop g endN fuel ((g.getNeighbors c).foldl (bfsRelax c)
        { st with queue := rest, visitedInOrder := st.visitedInOrder ++ [c] }) := by
  simp [bfsLoop, h, he]

theorem dfsLoop_nil (g : Graph) (endN : ℤ) (fuel : ℕ) (st : FState) (h : st.stack = []) :
    dfsLoop g endN fuel st = some (st, false) := by
  cases fuel <;> simp [dfsLoop, h]

theorem dfsLoop_zero_cons (g : Graph) (endN : ℤ) (st : FState) (c : ℤ) (rest : List ℤ)
    (h : st.stack = c :: rest) :
    dfsLoop g endN 0 st = none := by
  simp [dfsLoop, h]

theorem dfsLoop_cons_found (g : Graph) (endN : ℤ) (fuel : ℕ) (st : FState) (c : ℤ)
    (rest : List ℤ) (h : st.stack = c :: rest) (he : c = endN) :
    dfsLoop g endN (fuel + 1) st =
      some ({ st with stack := rest, visitedInOrder := st.visitedInOrder ++ [c] }, true) := by
  simp [dfsLoop, h, he]

theorem dfsLoop_cons_step (g : Graph) (endN : ℤ) (fuel : ℕ) (st : FState) (c : ℤ)
    (rest : List ℤ) (h : st.stack = c :: rest) (he : c ≠ endN) :
    dfsLoop g endN (fuel + 1) st =
      dfsLoop g endN fuel ((g.getNeighbors c).foldl (dfsRelax c)
        { st with stack := rest, visitedInOrder := st.visitedInOrder ++ [c] }) := by
  simp [dfsLoop, h, he]

theorem getNode_isSome_of_mem (g : Graph) (s : ℤ) (hs : s ∈ g.nodeIds) :
    ∃ nd, g.getNode s = some nd := by
  rw [← Option.isSome_iff_exists]
  exact (keys_mem_of_mapGet_isSome g.nodes s).mpr hs

/-! ## Claim C8: start equal to end -/

theorem c8_dijkstra_self (g : Graph) (s : ℤ) (hs : s ∈ g.nodeIds) (fuel : ℕ)
    (r : AlgorithmResult) (h : dijkstraRun g s s fuel = some r) :
    r.path = [s] ∧ s ∈ r.visitedInOrder := by
  have hpq : (dijkstraInit g s).pq = [⟨s, ((0 : ℚ) : WithTop ℚ)⟩] := rfl
  have hprev : (dijkstraInit g s).prev s = some none := by
    show initMap g.nodeIds (none : Option ℤ) s = some none
    rw [initMap_eval, if_pos hs]
  cases fuel with
  | zero =>
    unfold dijkstraRun at h
    rw [dijkstraLoop_zero_cons g s (dijkstraInit g s) _ _ hpq] at h
    simp at h
  | succ f =>
    unfold dijkstraRun at h
    rw [dijkstraLoop_cons_found g s f (dijkstraInit g s) _ _ hpq rfl] at h
    cases f with
    | zero =>
      have hw : walkPrev (dijkstraInit g s).prev 1 (some (some s)) [] = none := by
        rw [walkPrev_step]
        rfl
      simp only [hw] at h
      simp at h
    | succ f' =>
      have hw : walkPrev (dijkstraInit g s).prev (f' + 1 + 1) (some (some s)) [] = some [s] := by
        rw [walkPrev_step, hprev]
        exact walkPrev_null _ _ _
      simp only [hw] at h
      simp at h
      rw [← h]
      simp

theorem c8_aStar_self (g : Graph) (s : ℤ) (hs : s ∈ g.nodeIds) (hv : ℚ → ℚ → ℚ → ℚ → ℚ)
    (fuel : ℕ) (r : AlgorithmResult) (h : aStarRun hv g s s fuel = some r) :
    r.path = [s] ∧ s ∈ r.visitedInOrder := by
  obtain ⟨nd, hnd⟩ := getNode_isSome_of_mem g s hs
  unfold aStarRun at h
  rw [hnd] at h
  dsimp only at h
  have hpq : (aStarInit g s (hv nd.lat nd.lon nd.lat nd.lon)).pq =
      [⟨s, ((hv nd.lat nd.lon nd.lat nd.lon : ℚ) : WithTop ℚ)⟩] := rfl
  have hprev : (aStarInit g s (hv nd.lat nd.lon nd.lat nd.lon)).prev s = some none := by
    show initMap g.nodeIds (none : Option ℤ) s = some none
    rw [initMap_eval, if_pos hs]
  cases fuel with
  | zero =>
    rw [aStarLoop_zero_cons g hv nd s _ _ _ hpq] at h
    simp at h
  | succ f =>
    rw [aStarLoop_cons_found g hv nd s f _ _ _ hpq rfl] at h
    cases f with
    | zero =>
      have hw : walkPrev (aStarInit g s (hv nd.lat nd.lon nd.lat nd.lon)).prev 1
          (some (some s)) [] = none := by
        rw [walkPrev_step]
        rfl
      simp only [hw] at h
      simp at h
    | succ f' =>
      have hw : walkPrev (aStarInit g s (hv nd.lat nd.lon nd.lat nd.lon)).prev (f' + 1 + 1)
          (some (some s)) [] = some [s] := by
        rw [walkPrev_step, hprev]
        exact walkPrev_null _ _ _
      simp only [hw] at h
      simp at h
      rw [← h]
      simp

theorem c8_gbfs_self (g : Graph) (s : ℤ) (hs : s ∈ g.nodeIds) (hv : ℚ → ℚ → ℚ → ℚ → ℚ)
    (fuel : ℕ) (r : AlgorithmResult) (h : gbfsRun hv g s s fuel = some r) :
    r.path = [s] ∧ s ∈ r.visitedInOrder := by
  obtain ⟨nd, hnd⟩ := getNode_isSome_of_mem g s hs
  unfold gbfsRun at h
  rw [hnd] at h
  dsimp only at h
  have hpq : (gbfsInit g s (hv nd.lat nd.lon nd.lat nd.lon)).pq =
      [⟨s, ((hv nd.lat nd.lon nd.lat nd.lon : ℚ) : WithTop ℚ)⟩] := rfl
  cases fuel with
  | zero =>
    rw [gbfsLoop_zero_cons g hv nd s _ _ _ hpq] at h
    simp at h
  | succ f =>
    rw [gbfsLoop_cons_found g hv nd s f _ _ _ hpq rfl] at h
    have hw : gbfsWalk (gbfsInit g s (hv nd.lat nd.lon nd.lat nd.lon)).prev s (f + 1)
        (some (some s)) [] = some [s] := by
      simp [gbfsWalk]
    simp only [hw] at h
    simp at h
    rw [← h]
    simp

theorem c8_bfs_self (g : Graph) (s : ℤ) (hs : s ∈ g.nodeIds) (fuel : ℕ)
    (r : AlgorithmResult) (h : bfsRun g s s fuel = some r) :
    r.path = [s] ∧ s ∈ r.visitedInOrder := by
  have hq : (bfsInit g s).queue = [s] := rfl
  have hprev : (bfsInit g s).prev s = some none := by
    show initMap g.nodeIds (none : Option ℤ) s = some none
    rw [initMap_eval, if_pos hs]
  cases fuel with
  | zero =>
    unfold bfsRun at h
    rw [bfsLoop_zero_cons g s (bfsInit g s) _ _ hq] at h
    simp at h
  | succ f =>
    unfold bfsRun at h
    rw [bfsLoop_cons_found g s f (bfsInit g s) _ _ hq rfl] at h
    cases f with
    | zero =>
      have hw : walkPrev (bfsInit g s).prev 1 (some (some s)) [] = none := by
        rw [walkPrev_step]
        rfl
      simp only [hw] at h
      simp at h
    | succ f' =>
      have hw : walkPrev (bfsInit g s).prev (f' + 1 + 1) (some (some s)) [] = some [s] := by
        rw [walkPrev_step, hprev]
        exact walkPrev_null _ _ _
      simp only [hw] at h
      simp at h
      rw [← h]
      simp

theorem c8_dfs_self (g : Graph) (s : ℤ) (hneg : s ≠ -1) (fuel : ℕ)
    (r : AlgorithmResult) (h : dfsRun g s s fuel = some r) :
    r.path = [s] ∧ s ∈ r.visitedInOrder := by
  have hq : (dfsInit g s).stack = [s] := rfl
  have hprev : (dfsInit g s).prev s = some (some (-1)) := upd_same _ _ _
  cases fuel with
  | zero =>
    unfold dfsRun at h
    rw [dfsLoop_zero_cons g s (dfsInit g s) _ _ hq] at h
    simp at h
  | succ f =>
    unfold dfsRun at h
    rw [dfsLoop_cons_found g s f (dfsInit g s) _ _ hq rfl] at h
    cases f with
    | zero =>
      have hw : dfsWalk (dfsInit g s).prev 1 (some (some s)) [] = none := by
        simp [dfsWalk, hneg]
      simp only [hw] at h
      simp at h
    | succ f' =>
      have hw : dfsWalk (dfsInit g s).prev (f' + 1 + 1) (some (some s)) [] = some [s] := by
        rw [show (f' + 1 + 1) = (f' + 1) + 1 from rfl]
        simp [dfsWalk, hneg, hprev]
      simp only [hw] at h
      simp at h
      rw [← h]
      simp

/-- Claim C8, amended: on every graph and node id `s` present in it, each of
the five algorithms called with `start == end == s` that returns a result
returns the single-element path `[s]` with `s` in `visitedInOrder` — except
that `depthFirstSearch` additionally requires `s ≠ -1`, since the id `-1`
collides with its reconstruction sentinel (see the counterexample). -/
theorem c8_start_equals_end (g : Graph) (s : ℤ) (hs : s ∈ g.nodeIds) :
    (∀ fuel r, dijkstraRun g s s fuel = some r → r.path = [s] ∧ s ∈ r.visitedInOrder) ∧
    (∀ hv fuel r, aStarRun hv g s s fuel = some r → r.path = [s] ∧ s ∈ r.visitedInOrder) ∧
    (∀ hv fuel r, gbfsRun hv g s s fuel = some r → r.path = [s] ∧ s ∈ r.visitedInOrder) ∧
    (∀ fuel r, bfsRun g s s fuel = some r → r.path = [s] ∧ s ∈ r.visitedInOrder) ∧
    (s ≠ -1 → ∀ fuel r, dfsRun g s s fuel = some r → r.path = [s] ∧ s ∈ r.visitedInOrder) :=
  ⟨fun fuel r h => c8_dijkstra_self g s hs fuel r h,
   fun hv fuel r h => c8_aStar_self g s hs hv fuel r h,
   fun hv fuel r h => c8_gbfs_self g s hs hv fuel r h,
   fun fuel r h => c8_bfs_self g s hs fuel r h,
   fun hneg fuel r h => c8_dfs_self g s hneg fuel r h⟩

/-- Concrete instance of the amended C8: node 1 of the fork graph, Dijkstra
with start = end = 1 actually returns, and the theorem applies to it. -/
theorem c8_start_equals_end_witness :
    ∃ r, dijkstraRun exGraphFork 1 1 5 = some r ∧ r.path = [1] ∧ (1 : ℤ) ∈ r.visitedInOrder := by
  have hsome : (dijkstraRun exGraphFork 1 1 5).isSome = true := by
    with_unfolding_all decide
  obtain ⟨r, hr⟩ := Option.isSome_iff_exists.mp hsome
  exact ⟨r, hr, (c8_start_equals_end exGraphFork 1 (by decide)).1 5 r hr⟩

/-! ## Claim C7: expansion order of depthFirstSearch -/

theorem dfsRelax_vio (cur : ℤ) (st : FState) (ed : GraphEdge) :
    (dfsRelax cur st ed).visitedInOrder = st.visitedInOrder := by
  unfold dfsRelax
  split <;> rfl

theorem dfsRelax_foldl_vio (cur : ℤ) (edges : List GraphEdge) : ∀ st : FState,
    ((edges.foldl (dfsRelax cur) st).visitedInOrder = st.visitedInOrder) := by
  induction edges with
  | nil => intro st; rfl
  | cons ed rest ih =>
    intro st
    rw [List.foldl_cons, ih, dfsRelax_vio]

theorem dfsRelax_prev_eq (cur : ℤ) (st : FState) (ed : GraphEdge) :
    (dfsRelax cur st ed).prev = match st.prev ed.target with
      | some none => upd st.prev ed.target (some cur)
      | _ => st.prev := by
  unfold dfsRelax
  split <;> simp_all

theorem dfsPushList_stack (cur : ℤ) (edges : List GraphEdge) : ∀ st : FState,
    (edges.foldl (dfsRelax cur) st).stack =
      (dfsPushList cur st.prev edges).reverse ++ st.stack := by
  induction edges with
  | nil => intro st; simp [dfsPushList]
  | cons ed rest ih =>
    intro st
    rw [List.foldl_cons]
    cases hm : st.prev ed.target with
    | none =>
      have hrelax : dfsRelax cur st ed = st := by
        unfold dfsRelax
        rw [hm]
      rw [hrelax, ih]
      simp only [dfsPushList, hm]
    | some o =>
      cases o with
      | none =>
        have hrelax : dfsRelax cur st ed =
            { st with prev := upd st.prev ed.target (some cur), stack := ed.target :: st.stack } := by
          unfold dfsRelax
          rw [hm]
        rw [hrelax, ih]
        simp only [dfsPushList, hm, List.reverse_cons, List.append_assoc, List.singleton_append]
      | some u =>
        have hrelax : dfsRelax cur st ed = st := by
          unfold dfsRelax
          rw [hm]
        rw [hrelax, ih]
        simp only [dfsPushList, hm]

theorem dfsLoop_vio_prefix (g : Graph) (endN : ℤ) : ∀ (fuel : ℕ) (st : FState)
    (r : FState) (b : Bool), dfsLoop g endN fuel st = some (r, b) →
    ∃ t, r.visitedInOrder = st.visitedInOrder ++ t := by
  intro fuel
  induction fuel with
  | zero =>
    intro st r b h
    cases hst : st.stack with
    | nil =>
      rw [dfsLoop_nil g endN 0 st hst] at h
      obtain ⟨rfl, rfl⟩ : st = r ∧ false = b := by
        injection h with h1
        injection h1 with h2 h3
        exact ⟨h2, h3⟩
      exact ⟨[], by simp⟩
    | cons c cs =>
      rw [dfsLoop_zero_cons g endN st c cs hst] at h
      cases h
  | succ f ih =>
    intro st r b h
    cases hst : st.stack with
    | nil =>
      rw [dfsLoop_nil g endN (f + 1) st hst] at h
      obtain ⟨rfl, rfl⟩ : st = r ∧ false = b := by
        injection h with h1
        injection h1 with h2 h3
        exact ⟨h2, h3⟩
      exact ⟨[], by simp⟩
    | cons c cs =>
      by_cases hce : c = endN
      · rw [dfsLoop_cons_found g endN f st c cs hst hce] at h
        obtain ⟨hr, _⟩ : { st with stack := cs, visitedInOrder := st.visitedInOrder ++ [c] } = r ∧
            true = b := by
          injection h with h1
          injection h1 with h2 h3
          exact ⟨h2, h3⟩
        exact ⟨[c], by rw [← hr]⟩
      · rw [dfsLoop_cons_step g endN f st c cs hst hce] at h
        obtain ⟨t, ht⟩ := ih _ _ _ h
        refine ⟨[c] ++ t, ?_⟩
        rw [ht, dfsRelax_foldl_vio]
        simp

theorem getLast?_some_decomp {α : Type} (l : List α) (x : α) (h : l.getLast? = some x) :
    ∃ l', l = l' ++ [x] := by
  induction l with
  | nil => cases h
  | cons a rest ih =>
    cases hr : rest with
    | nil =>
      rw [hr] at h
      refine ⟨[], ?_⟩
      simp only [List.getLast?_singleton, Option.some.injEq] at h
      simp [h]
    | cons b bs =>
      rw [hr] at h ih
      have h' : (b :: bs).getLast? = some x := by
        rw [← h, List.getLast?_cons_cons]
      obtain ⟨l', hl'⟩ := ih h'
      exact ⟨a :: l', by rw [hl']; rfl⟩

/-- Claim C7, amended: when `depthFirstSearch` pops `cur` (not the end node),
the neighbors of `cur` whose `prev` entry is still `null` are pushed on the
LIFO stack in stored adjacency order, so the node expanded immediately after
`cur` is the LAST such neighbor in the stored list, not the first: if the
pushed list has last element `x`, every completion of the remaining loop
records `x` directly after `cur` in `visitedInOrder`. -/
theorem c7_dfs_expansion_order (g : Graph) (endN : ℤ) (st : FState) (cur : ℤ) (rest : List ℤ)
    (fuel : ℕ) (hst : st.stack = cur :: rest) (hne : cur ≠ endN) :
    dfsLoop g endN (fuel + 1) st =
      dfsLoop g endN fuel ((g.getNeighbors cur).foldl (dfsRelax cur)
        { st with stack := rest, visitedInOrder := st.visitedInOrder ++ [cur] }) ∧
    ((g.getNeighbors cur).foldl (dfsRelax cur)
        { st with stack := rest, visitedInOrder := st.visitedInOrder ++ [cur] }).stack =
      (dfsPushList cur st.prev (g.getNeighbors cur)).reverse ++ rest ∧
    (∀ x, (dfsPushList cur st.prev (g.getNeighbors cur)).getLast? = some x →
      ∀ r b, dfsLoop g endN fuel ((g.getNeighbors cur).foldl (dfsRelax cur)
          { st with stack := rest, visitedInOrder := st.visitedInOrder ++ [cur] }) = some (r, b) →
        ∃ t, r.visitedInOrder = st.visitedInOrder ++ [cur, x] ++ t) := by
  have hstack := dfsPushList_stack cur (g.getNeighbors cur)
    { st with stack := rest, visitedInOrder := st.visitedInOrder ++ [cur] }
  refine ⟨dfsLoop_cons_step g endN fuel st cur rest hst hne, hstack, ?_⟩
  intro x hx r b h
  have hvio2 : ((g.getNeighbors cur).foldl (dfsRelax cur)
      { st with stack := rest, visitedInOrder := st.visitedInOrder ++ [cur] }).visitedInOrder =
      st.visitedInOrder ++ [cur] := dfsRelax_foldl_vio cur (g.getNeighbors cur) _
  obtain ⟨ns', hns'⟩ := getLast?_some_decomp _ x hx
  have hstack2 : ((g.getNeighbors cur).foldl (dfsRelax cur)
      { st with stack := rest, visitedInOrder := st.visitedInOrder ++ [cur] }).stack =
      x :: (ns'.reverse ++ rest) := by
    rw [hstack, hns']
    simp
  cases fuel with
  | zero =>
    rw [dfsLoop_zero_cons g endN _ x (ns'.reverse ++ rest) hstack2] at h
    cases h
  | succ f =>
    by_cases hxe : x = endN
    · rw [dfsLoop_cons_found g endN f _ x (ns'.reverse ++ rest) hstack2 hxe] at h
      obtain ⟨hr, _⟩ : _ ∧ true = b := by
        injection h with h1
        injection h1 with h2 h3
        exact ⟨h2, h3⟩
      refine ⟨[], ?_⟩
      rw [← hr]
      simp [hvio2]
    · rw [dfsLoop_cons_step g endN f _ x (ns'.reverse ++ rest) hstack2 hxe] at h
      obtain ⟨t, ht⟩ := dfsLoop_vio_prefix g endN f _ r b h
      refine ⟨t, ?_⟩
      rw [ht, dfsRelax_foldl_vio]
      simp [hvio2]

/-- Concrete instance of the amended C7: on the fork graph, from the freshly
initialised state the pushed list is `[2, 3]` and node 3 is recorded directly
after node 1. -/
theorem c7_dfs_expansion_order_witness :
    (dfsPushList 1 (dfsInit exGraphFork 1).prev (exGraphFork.getNeighbors 1)).getLast? =
      some 3 ∧
    ∃ r b t, dfsLoop exGraphFork 2 9 ((exGraphFork.getNeighbors 1).foldl (dfsRelax 1)
        { dfsInit exGraphFork 1 with
          stack := []
          visitedInOrder := (dfsInit exGraphFork 1).visitedInOrder ++ [1] }) = some (r, b) ∧
      r.visitedInOrder = [1, 3] ++ t := by
  have hlast : (dfsPushList 1 (dfsInit exGraphFork 1).prev
      (exGraphFork.getNeighbors 1)).getLast? = some 3 := by
    with_unfolding_all decide
  refine ⟨hlast, ?_⟩
  have h := c7_dfs_expansion_order exGraphFork 2 (dfsInit exGraphFork 1) 1 [] 9 rfl (by decide)
  have hsome : (dfsLoop exGraphFork 2 9 ((exGraphFork.getNeighbors 1).foldl (dfsRelax 1)
      { dfsInit exGraphFork 1 with
        stack := []
        visitedInOrder := (dfsInit exGraphFork 1).visitedInOrder ++ [1] })).isSome = true := by
    with_unfolding_all decide
  obtain ⟨⟨r, b⟩, hr⟩ := Option.isSome_iff_exists.mp hsome
  obtain ⟨t, ht⟩ := h.2.2 3 hlast r b hr
  exact ⟨r, b, t, hr, by simpa using ht⟩

/-! ## Claim C2, amended: no duplicate visits for BFS, DFS and GBFS -/

theorem count_map_pqEnqueue (e : PQElem ℤ) (q : List (PQElem ℤ)) (v : ℤ) :
    ((pqEnqueue e q).map PQElem.element).count v =
      (q.map PQElem.element).count v + if e.element = v then 1 else 0 := by
  obtain ⟨l1, l2, hq, henq, _, _⟩ := pqEnqueue_split e q
  rw [henq, hq]
  simp [List.count_append, List.count_cons]
  omega

theorem mem_map_pqEnqueue (e : PQElem ℤ) (q : List (PQElem ℤ)) (v : ℤ) :
    v ∈ (pqEnqueue e q).map PQElem.element ↔
      v = e.element ∨ v ∈ q.map PQElem.element := by
  simp only [List.mem_map]
  constructor
  · rintro ⟨x, hx, rfl⟩
    rcases (mem_pqEnqueue e x q).mp hx with rfl | hx
    · exact Or.inl rfl
    · exact Or.inr ⟨x, hx, rfl⟩
  · rintro (rfl | ⟨x, hx, rfl⟩)
    · exact ⟨e, (mem_pqEnqueue e e q).mpr (Or.inl rfl), rfl⟩
    · exact ⟨x, (mem_pqEnqueue e x q).mpr (Or.inr hx), rfl⟩

theorem bfsRelax_nodupInv (cur : ℤ) (st : BState) (ed : GraphEdge)
    (h : BfsNoDupInv st) : BfsNoDupInv (bfsRelax cur st ed) := by
  unfold bfsRelax
  by_cases hv : ed.target ∈ st.visited
  · simpa [hv] using h
  · rw [if_neg hv]
    obtain ⟨hzq, hzv⟩ := h.2 ed.target hv
    refine ⟨?_, ?_⟩
    · intro v
      simp only [List.count_append, List.count_cons, List.count_nil]
      by_cases hvt : v = ed.target
      · subst hvt
        rw [List.count_eq_zero.mpr hzq, List.count_eq_zero.mpr hzv]
        simp
      · have := h.1 v
        have hvt' : ¬ ed.target = v := fun hh => hvt hh.symm
        simp [hvt']
        omega
    · intro v hvmem
      simp only [List.mem_cons, not_or] at hvmem
      obtain ⟨hq, hvio⟩ := h.2 v hvmem.2
      refine ⟨?_, hvio⟩
      simp [List.mem_append, hq, hvmem.1]

theorem bfsRelax_foldl_nodupInv (cur : ℤ) (edges : List GraphEdge) : ∀ st : BState,
    BfsNoDupInv st → BfsNoDupInv (edges.foldl (bfsRelax cur) st) := by
  induction edges with
  | nil => intro st h; exact h
  | cons ed rest ih =>
    intro st h
    rw [List.foldl_cons]
    exact ih _ (bfsRelax_nodupInv cur st ed h)

theorem bfs_pop_nodupInv (st : BState) (c : ℤ) (rest : List ℤ) (hq : st.queue = c :: rest)
    (h : BfsNoDupInv st) :
    BfsNoDupInv { st with queue := rest, visitedInOrder := st.visitedInOrder ++ [c] } := by
  refine ⟨?_, ?_⟩
  · intro v
    have := h.1 v
    rw [hq] at this
    simp only [List.count_append, List.count_cons, List.count_nil] at this ⊢
    by_cases hvc : v = c <;> simp [hvc] at this ⊢ <;> omega
  · intro v hv
    obtain ⟨hq', hvio⟩ := h.2 v hv
    rw [hq] at hq'
    simp only [List.mem_cons, not_or] at hq'
    refine ⟨hq'.2, ?_⟩
    simp [List.mem_append, hvio, hq'.1]

theorem bfsLoop_nodupInv (g : Graph) (endN : ℤ) : ∀ (fuel : ℕ) (st : BState)
    (r : BState) (b : Bool), BfsNoDupInv st → bfsLoop g endN fuel st = some (r, b) →
    ∀ v : ℤ, r.visitedInOrder.count v ≤ 1 := by
  intro fuel
  induction fuel with
  | zero =>
    intro st r b hinv h
    cases hst : st.queue with
    | nil =>
      rw [bfsLoop_nil g endN 0 st hst] at h
      obtain ⟨rfl, _⟩ : st = r ∧ false = b := by
        injection h with h1
        injection h1 with h2 h3
        exact ⟨h2, h3⟩
      intro v
      have := hinv.1 v
      omega
    | cons c cs =>
      rw [bfsLoop_zero_cons g endN st c cs hst] at h
      cases h
  | succ f ih =>
    intro st r b hinv h
    cases hst : st.queue with
    | nil =>
      rw [bfsLoop_nil g endN (f + 1) st hst] at h
      obtain ⟨rfl, _⟩ : st = r ∧ false = b := by
        injection h with h1
        injection h1 with h2 h3
        exact ⟨h2, h3⟩
      intro v
      have := hinv.1 v
      omega
    | cons c cs =>
      have hpop := bfs_pop_nodupInv st c cs hst hinv
      by_cases hce : c = endN
      · rw [bfsLoop_cons_found g endN f st c cs hst hce] at h
        obtain ⟨hr, _⟩ : _ = r ∧ true = b := by
          injection h with h1
          injection h1 with h2 h3
          exact ⟨h2, h3⟩
        intro v
        have := hpop.1 v
        rw [hr] at this
        omega
      · rw [bfsLoop_cons_step g endN f st c cs hst hce] at h
        exact ih _ r b (bfsRelax_foldl_nodupInv c (g.getNeighbors c) _ hpop) h

theorem bfsInit_nodupInv (g : Graph) (s : ℤ) : BfsNoDupInv (bfsInit g s) := by
  constructor
  · intro v
    by_cases hv : s = v <;> simp [bfsInit, List.count_cons, hv]
  · intro v hv
    have hvs : v ≠ s := by
      intro heq
      apply hv
      rw [heq]
      exact List.mem_singleton_self s
    exact ⟨by simp [bfsInit, hvs], by simp [bfsInit]⟩

theorem bfsRun_vio (g : Graph) (s e : ℤ) (fuel : ℕ) (r : AlgorithmResult)
    (h : bfsRun g s e fuel = some r) :
    ∃ st found, bfsLoop g e fuel (bfsInit g s) = some (st, found) ∧
      r.visitedInOrder = st.visitedInOrder := by
  unfold bfsRun at h
  cases hl : bfsLoop g e fuel (bfsInit g s) with
  | none => rw [hl] at h; cases h
  | some p =>
    obtain ⟨st, found⟩ := p
    rw [hl] at h
    dsimp only at h
    refine ⟨st, found, rfl, ?_⟩
    cases found with
    | true =>
      cases hw : walkPrev st.prev fuel (some (some e)) [] with
      | none =>
        rw [hw] at h
        simp at h
      | some p =>
        rw [hw] at h
        simp at h
        rw [← h]
    | false =>
      simp at h
      rw [← h]

theorem dfsRelax_nodupInv (cur : ℤ) (st : FState) (ed : GraphEdge)
    (h : DfsNoDupInv st) : DfsNoDupInv (dfsRelax cur st ed) := by
  cases hm : st.prev ed.target with
  | none =>
    have hrelax : dfsRelax cur st ed = st := by
      unfold dfsRelax
      rw [hm]
    rw [hrelax]
    exact h
  | some o =>
    cases o with
    | none =>
      have hrelax : dfsRelax cur st ed =
          { st with prev := upd st.prev ed.target (some cur), stack := ed.target :: st.stack } := by
        unfold dfsRelax
        rw [hm]
      rw [hrelax]
      obtain ⟨hzs, hzv⟩ := h.2 ed.target hm
      refine ⟨?_, ?_⟩
      · intro v
        simp only [List.count_cons]
        by_cases hvt : ed.target = v
        · subst hvt
          rw [List.count_eq_zero.mpr hzs, List.count_eq_zero.mpr hzv]
          simp
        · have := h.1 v
          simp [hvt]
          omega
      · intro v hv
        dsimp only at hv ⊢
        by_cases hvt : v = ed.target
        · subst hvt
          rw [upd_same] at hv
          cases hv
        · rw [upd_ne _ _ _ _ hvt] at hv
          obtain ⟨hs', hv'⟩ := h.2 v hv
          exact ⟨by simp [hvt, hs'], hv'⟩
    | some u =>
      have hrelax : dfsRelax cur st ed = st := by
        unfold dfsRelax
        rw [hm]
      rw [hrelax]
      exact h

theorem dfsRelax_foldl_nodupInv (cur : ℤ) (edges : List GraphEdge) : ∀ st : FState,
    DfsNoDupInv st → DfsNoDupInv (edges.foldl (dfsRelax cur) st) := by
  induction edges with
  | nil => intro st h; exact h
  | cons ed rest ih =>
    intro st h
    rw [List.foldl_cons]
    exact ih _ (dfsRelax_nodupInv cur st ed h)

theorem dfs_pop_nodupInv (st : FState) (c : ℤ) (rest : List ℤ) (hq : st.stack = c :: rest)
    (h : DfsNoDupInv st) :
    DfsNoDupInv { st with stack := rest, visitedInOrder := st.visitedInOrder ++ [c] } := by
  refine ⟨?_, ?_⟩
  · intro v
    have := h.1 v
    rw [hq] at this
    simp only [List.count_append, List.count_cons, List.count_nil] at this ⊢
    by_cases hvc : v = c <;> simp [hvc] at this ⊢ <;> omega
  · intro v hv
    obtain ⟨hq', hvio⟩ := h.2 v hv
    rw [hq] at hq'
    simp only [List.mem_cons, not_or] at hq'
    refine ⟨hq'.2, ?_⟩
    simp [List.mem_append, hvio, hq'.1]

theorem dfsLoop_nodupInv (g : Graph) (endN : ℤ) : ∀ (fuel : ℕ) (st : FState)
    (r : FState) (b : Bool), DfsNoDupInv st → dfsLoop g endN fuel st = some (r, b) →
    ∀ v : ℤ, r.visitedInOrder.count v ≤ 1 := by
  intro fuel
  induction fuel with
  | zero =>
    intro st r b hinv h
    cases hst : st.stack with
    | nil =>
      rw [dfsLoop_nil g endN 0 st hst] at h
      obtain ⟨rfl, _⟩ : st = r ∧ false = b := by
        injection h with h1
        injection h1 with h2 h3
        exact ⟨h2, h3⟩
      intro v
      have := hinv.1 v
      omega
    | cons c cs =>
      rw [dfsLoop_zero_cons g endN st c cs hst] at h
      cases h
  | succ f ih =>
    intro st r b hinv h
    cases hst : st.stack with
    | nil =>
      rw [dfsLoop_nil g endN (f + 1) st hst] at h
      obtain ⟨rfl, _⟩ : st = r ∧ false = b := by
        injection h with h1
        injection h1 with h2 h3
        exact ⟨h2, h3⟩
      intro v
      have := hinv.1 v
      omega
    | cons c cs =>
      have hpop := dfs_pop_nodupInv st c cs hst hinv
      by_cases hce : c = endN
      · rw [dfsLoop_cons_found g endN f st c cs hst hce] at h
        obtain ⟨hr, _⟩ : _ = r ∧ true = b := by
          injection h with h1
          injection h1 with h2 h3
          exact ⟨h2, h3⟩
        intro v
        have := hpop.1 v
        rw [hr] at this
        omega
      · rw [dfsLoop_cons_step g endN f st c cs hst hce] at h
        exact ih _ r b (dfsRelax_foldl_nodupInv c (g.getNeighbors c) _ hpop) h

theorem dfsInit_nodupInv (g : Graph) (s : ℤ) : DfsNoDupInv (dfsInit g s) := by
  constructor
  · intro v
    by_cases hv : s = v <;> simp [dfsInit, List.count_cons, hv]
  · intro v hv
    have hvs : v ≠ s := by
      intro heq
      rw [heq] at hv
      have : (dfsInit g s).prev s = some (some (-1)) := upd_same _ _ _
      rw [this] at hv
      cases hv
    exact ⟨by simp [dfsInit, hvs], by simp [dfsInit]⟩

theorem dfsRun_vio (g : Graph) (s e : ℤ) (fuel : ℕ) (r : AlgorithmResult)
    (h : dfsRun g s e fuel = some r) :
    ∃ st found, dfsLoop g e fuel (dfsInit g s) = some (st, found) ∧
      r.visitedInOrder = st.visitedInOrder := by
  unfold dfsRun at h
  cases hl : dfsLoop g e fuel (dfsInit g s) with
  | none => rw [hl] at h; cases h
  | some p =>
    obtain ⟨st, found⟩ := p
    rw [hl] at h
    dsimp only at h
    refine ⟨st, found, rfl, ?_⟩
    cases found with
    | true =>
      cases hw : dfsWalk st.prev fuel (some (some e)) [] with
      | none =>
        rw [hw] at h
        simp at h
      | some p2 =>
        rw [hw] at h
        simp at h
        rw [← h]
    | false =>
      simp at h
      rw [← h]

theorem gbfsRelax_nodupInv (g : Graph) (hv : ℚ → ℚ → ℚ → ℚ → ℚ) (endData : GraphNode)
    (cur : ℤ) (st st' : GState) (ed : GraphEdge)
    (h : GbfsNoDupInv st) (hrel : gbfsRelax g hv endData cur st ed = some st') :
    GbfsNoDupInv st' := by
  unfold gbfsRelax at hrel
  cases hm : st.prev ed.target with
  | none =>
    rw [hm] at hrel
    injection hrel with h1
    rw [← h1]
    exact h
  | some o =>
    cases o with
    | none =>
      rw [hm] at hrel
      cases hnode : g.getNode ed.target with
      | none =>
        rw [hnode] at hrel
        cases hrel
      | some nd =>
        rw [hnode] at hrel
        injection hrel with h1
        rw [← h1]
        obtain ⟨hzs, hzv⟩ := h.2 ed.target hm
        refine ⟨?_, ?_⟩
        · intro v
          rw [count_map_pqEnqueue]
          by_cases hvt : ed.target = v
          · subst hvt
            rw [List.count_eq_zero.mpr hzs, List.count_eq_zero.mpr hzv]
            simp
          · have := h.1 v
            simp [hvt]
            omega
        · intro v hvp
          dsimp only at hvp ⊢
          by_cases hvt : v = ed.target
          · subst hvt
            rw [upd_same] at hvp
            cases hvp
          · rw [upd_ne _ _ _ _ hvt] at hvp
            obtain ⟨hs', hv'⟩ := h.2 v hvp
            refine ⟨?_, hv'⟩
            rw [mem_map_pqEnqueue]
            simp only [not_or]
            exact ⟨hvt, hs'⟩
    | some u =>
      rw [hm] at hrel
      injection hrel with h1
      rw [← h1]
      exact h

theorem gbfs_foldl_none (g : Graph) (hv : ℚ → ℚ → ℚ → ℚ → ℚ) (endData : GraphNode)
    (cur : ℤ) (edges : List GraphEdge) :
    edges.foldl (fun acc ed => acc.bind fun s => gbfsRelax g hv endData cur s ed) none = none := by
  induction edges with
  | nil => rfl
  | cons ed rest ih => simpa using ih

theorem gbfs_foldl_nodupInv (g : Graph) (hv : ℚ → ℚ → ℚ → ℚ → ℚ) (endData : GraphNode)
    (cur : ℤ) (edges : List GraphEdge) : ∀ (st st' : GState), GbfsNoDupInv st →
    edges.foldl (fun acc ed => acc.bind fun s => gbfsRelax g hv endData cur s ed) (some st) =
      some st' →
    GbfsNoDupInv st' := by
  induction edges with
  | nil =>
    intro st st' h hfold
    injection hfold with h1
    rw [← h1]
    exact h
  | cons ed rest ih =>
    intro st st' h hfold
    rw [List.foldl_cons] at hfold
    cases hrel : gbfsRelax g hv endData cur st ed with
    | none =>
      rw [show (some st).bind (fun s => gbfsRelax g hv endData cur s ed) = none by
        simpa using hrel] at hfold
      rw [gbfs_foldl_none] at hfold
      cases hfold
    | some st1 =>
      rw [show (some st).bind (fun s => gbfsRelax g hv endData cur s ed) = some st1 by
        simpa using hrel] at hfold
      exact ih st1 st' (gbfsRelax_nodupInv g hv endData cur st st1 ed h hrel) hfold

theorem gbfs_pop_nodupInv (st : GState) (c : PQElem ℤ) (rest : List (PQElem ℤ))
    (hq : st.pq = c :: rest) (h : GbfsNoDupInv st) :
    GbfsNoDupInv { st with pq := rest, visitedInOrder := st.visitedInOrder ++ [c.element] } := by
  refine ⟨?_, ?_⟩
  · intro v
    have := h.1 v
    rw [hq] at this
    simp only [List.map_cons, List.count_append, List.count_cons, List.count_nil] at this ⊢
    by_cases hvc : v = c.element <;> simp [hvc] at this ⊢ <;> omega
  · intro v hvp
    obtain ⟨hq', hvio⟩ := h.2 v hvp
    rw [hq] at hq'
    simp only [List.map_cons, List.mem_cons, not_or] at hq'
    refine ⟨hq'.2, ?_⟩
    simp [List.mem_append, hvio, hq'.1]

theorem gbfsLoop_nodupInv (g : Graph) (hv : ℚ → ℚ → ℚ → ℚ → ℚ) (endData : GraphNode)
    (endN : ℤ) : ∀ (fuel : ℕ) (st : GState) (r : GState), GbfsNoDupInv st →
    gbfsLoop g hv endData endN fuel st = some r →
    ∀ v : ℤ, r.visitedInOrder.count v ≤ 1 := by
  intro fuel
  induction fuel with
  | zero =>
    intro st r hinv h
    cases hst : st.pq with
    | nil =>
      rw [gbfsLoop_nil g hv endData endN 0 st hst] at h
      injection h with h1
      rw [← h1]
      intro v
      have := hinv.1 v
      omega
    | cons c cs =>
      rw [gbfsLoop_zero_cons g hv endData endN st c cs hst] at h
      cases h
  | succ f ih =>
    intro st r hinv h
    cases hst : st.pq with
    | nil =>
      rw [gbfsLoop_nil g hv endData endN (f + 1) st hst] at h
      injection h with h1
      rw [← h1]
      intro v
      have := hinv.1 v
      omega
    | cons c cs =>
      have hpop := gbfs_pop_nodupInv st c cs hst hinv
      by_cases hce : c.element = endN
      · rw [gbfsLoop_cons_found g hv endData endN f st c cs hst hce] at h
        injection h with h1
        rw [← h1]
        intro v
        have := hpop.1 v
        omega
      · rw [gbfsLoop_cons_step g hv endData endN f st c cs hst hce] at h
        cases hfold : (g.getNeighbors c.element).foldl
            (fun acc ed => acc.bind fun s => gbfsRelax g hv endData c.element s ed)
            (some { st with pq := cs, visitedInOrder := st.visitedInOrder ++ [c.element] }) with
        | none =>
          rw [hfold] at h
          cases h
        | some st2 =>
          rw [hfold] at h
          exact ih st2 r (gbfs_foldl_nodupInv g hv endData c.element _ _ _ hpop hfold) h

theorem gbfsInit_nodupInv (g : Graph) (s : ℤ) (hs0 : ℚ) : GbfsNoDupInv (gbfsInit g s hs0) := by
  constructor
  · intro v
    by_cases hv : s = v <;> simp [gbfsInit, pqEnqueue, List.count_cons, hv]
  · intro v hvp
    have hvs : v ≠ s := by
      intro heq
      rw [heq] at hvp
      have : (gbfsInit g s hs0).prev s = some (some s) := upd_same _ _ _
      rw [this] at hvp
      cases hvp
    refine ⟨?_, by simp [gbfsInit]⟩
    simp only [gbfsInit, pqEnqueue, List.map_cons, List.map_nil, List.mem_singleton]
    exact fun hh => hvs hh

theorem gbfsRun_vio (hv : ℚ → ℚ → ℚ → ℚ → ℚ) (g : Graph) (s e : ℤ) (fuel : ℕ)
    (r : AlgorithmResult) (h : gbfsRun hv g s e fuel = some r) :
    r.visitedInOrder = [] ∨
    ∃ endData startData st, g.getNode e = some endData ∧ g.getNode s = some startData ∧
      gbfsLoop g hv endData e fuel
        (gbfsInit g s (hv startData.lat startData.lon endData.lat endData.lon)) = some st ∧
      r.visitedInOrder = st.visitedInOrder := by
  unfold gbfsRun at h
  cases hend : g.getNode e with
  | none =>
    rw [hend] at h
    dsimp only at h
    injection h with h1
    left
    rw [← h1]
  | some endData =>
    rw [hend] at h
    dsimp only at h
    cases hstart : g.getNode s with
    | none =>
      rw [hstart] at h
      cases h
    | some startData =>
      rw [hstart] at h
      dsimp only at h
      right
      cases hl : gbfsLoop g hv endData e fuel
          (gbfsInit g s (hv startData.lat startData.lon endData.lat endData.lon)) with
      | none =>
        rw [hl] at h
        cases h
      | some st =>
        rw [hl] at h
        dsimp only at h
        refine ⟨endData, startData, st, rfl, rfl, hl, ?_⟩
        cases hw : gbfsWalk st.prev s fuel (some (some e)) [] with
        | none =>
          rw [hw] at h
          cases h
        | some p2 =>
          rw [hw] at h
          dsimp only at h
          by_cases hlast : p2.getLast? = some s
          · rw [if_pos hlast] at h
            injection h with h1
            rw [← h1]
          · rw [if_neg hlast] at h
            injection h with h1
            rw [← h1]

/-- Claim C2, amended: `breadthFirstSearch`, `depthFirstSearch` and
`greedyBestFirstSearch` never append a node to `visitedInOrder` twice; in
`dijkstra` and `aStar` a stale queue entry popped a second time IS appended
again (see the counterexample), so the no-duplicates guarantee holds only for
the three flag-guarded algorithms. -/
theorem c2_no_duplicate_visits :
    (∀ (g : Graph) (s e : ℤ) (fuel : ℕ) (r : AlgorithmResult),
      bfsRun g s e fuel = some r → r.visitedInOrder.Nodup) ∧
    (∀ (g : Graph) (s e : ℤ) (fuel : ℕ) (r : AlgorithmResult),
      dfsRun g s e fuel = some r → r.visitedInOrder.Nodup) ∧
    (∀ (hv : ℚ → ℚ → ℚ → ℚ → ℚ) (g : Graph) (s e : ℤ) (fuel : ℕ) (r : AlgorithmResult),
      gbfsRun hv g s e fuel = some r → r.visitedInOrder.Nodup) := by
  refine ⟨?_, ?_, ?_⟩
  · intro g s e fuel r h
    obtain ⟨st, found, hl, hvio⟩ := bfsRun_vio g s e fuel r h
    rw [hvio]
    exact List.nodup_iff_count_le_one.mpr
      (bfsLoop_nodupInv g e fuel (bfsInit g s) st found (bfsInit_nodupInv g s) hl)
  · intro g s e fuel r h
    obtain ⟨st, found, hl, hvio⟩ := dfsRun_vio g s e fuel r h
    rw [hvio]
    exact List.nodup_iff_count_le_one.mpr
      (dfsLoop_nodupInv g e fuel (dfsInit g s) st found (dfsInit_nodupInv g s) hl)
  · intro hv g s e fuel r h
    rcases gbfsRun_vio hv g s e fuel r h with hempty | ⟨ed, sd, st, _, _, hl, hvio⟩
    · rw [hempty]
      exact List.nodup_nil
    · rw [hvio]
      exact List.nodup_iff_count_le_one.mpr
        (gbfsLoop_nodupInv g hv ed e fuel _ st (gbfsInit_nodupInv g s _) hl)

/-- Concrete instance of the amended C2: a returning BFS run, and its
visitation order is duplicate-free by the theorem. -/
theorem c2_no_duplicate_visits_witness :
    ∃ r, bfsRun exGraphStale 1 4 10 = some r ∧ r.visitedInOrder.Nodup := by
  have hsome : (bfsRun exGraphStale 1 4 10).isSome = true := by
    with_unfolding_all decide
  obtain ⟨r, hr⟩ := Option.isSome_iff_exists.mp hsome
  exact ⟨r, hr, c2_no_duplicate_visits.1 exGraphStale 1 4 10 r hr⟩

/-! ## Structure of the reconstruction walks -/

theorem walkPrev_spec (prev : ℤ → Option (Option ℤ)) :
    ∀ (fuel : ℕ) (v : ℤ) (acc p : List ℤ),
      walkPrev prev fuel (some (some v)) acc = some p →
      ∃ q, p = acc ++ q ∧ q.head? = some v ∧
        List.Chain' (fun a b => prev a = some (some b)) q ∧
        ∃ z, q.getLast? = some z ∧ prev z = some none := by
  intro fuel
  induction fuel with
  | zero => intro v acc p h; cases h
  | succ f ih =>
    intro v acc p h
    rw [walkPrev_step] at h
    cases hv : prev v with
    | none =>
      rw [hv, walkPrev_undefined] at h
      cases h
    | some o =>
      cases o with
      | none =>
        rw [hv] at h
        cases f with
        | zero => cases h
        | succ f' =>
          rw [walkPrev_null] at h
          injection h with h1
          refine ⟨[v], by rw [← h1], rfl, ?_, v, rfl, hv⟩
          simp
      | some w =>
        rw [hv] at h
        obtain ⟨q', hpq, hhead, hchain, z, hz, hzn⟩ := ih w (acc ++ [v]) p h
        refine ⟨v :: q', by simp [hpq], rfl, ?_, z, ?_, hzn⟩
        · rw [List.chain'_cons']
          refine ⟨fun b hb => ?_, hchain⟩
          rw [hhead] at hb
          injection hb with hb
          rw [← hb]
          exact hv
        · cases q' with
          | nil => cases hhead
          | cons a as =>
            rw [List.getLast?_cons_cons]
            exact hz

theorem gbfsWalk_undefined (prev : ℤ → Option (Option ℤ)) (startN : ℤ) :
    ∀ (n : ℕ) (acc : List ℤ), gbfsWalk prev startN n none acc = none := by
  intro n
  induction n with
  | zero => intro acc; rfl
  | succ n ih => intro acc; exact ih acc

theorem gbfsWalk_spec (prev : ℤ → Option (Option ℤ)) (startN : ℤ) :
    ∀ (fuel : ℕ) (v : ℤ) (acc p : List ℤ),
      gbfsWalk prev startN fuel (some (some v)) acc = some p →
      ∃ q, p = acc ++ q ∧ q.head? = some v ∧
        List.Chain' (fun a b => prev a = some (some b) ∧ a ≠ startN) q ∧
        ∃ z, q.getLast? = some z ∧ (z = startN ∨ prev z = some none) := by
  intro fuel
  induction fuel with
  | zero => intro v acc p h; cases h
  | succ f ih =>
    intro v acc p h
    by_cases hvs : v = startN
    · have hstep : gbfsWalk prev startN (f + 1) (some (some v)) acc = some (acc ++ [v]) := by
        show (if v = startN then some (acc ++ [v]) else gbfsWalk prev startN f (prev v) (acc ++ [v]))
          = some (acc ++ [v])
        rw [if_pos hvs]
      rw [hstep] at h
      injection h with h1
      refine ⟨[v], by rw [← h1], rfl, by simp, v, rfl, Or.inl hvs⟩
    · have hstep : gbfsWalk prev startN (f + 1) (some (some v)) acc =
          gbfsWalk prev startN f (prev v) (acc ++ [v]) := by
        show (if v = startN then some (acc ++ [v]) else gbfsWalk prev startN f (prev v) (acc ++ [v]))
          = gbfsWalk prev startN f (prev v) (acc ++ [v])
        rw [if_neg hvs]
      rw [hstep] at h
      cases hv : prev v with
      | none =>
        rw [hv, gbfsWalk_undefined] at h
        cases h
      | some o =>
        cases o with
        | none =>
          rw [hv] at h
          cases f with
          | zero => cases h
          | succ f' =>
            have : gbfsWalk prev startN (f' + 1) (some none) (acc ++ [v]) = some (acc ++ [v]) := rfl
            rw [this] at h
            injection h with h1
            refine ⟨[v], by rw [← h1], rfl, by simp, v, rfl, Or.inr hv⟩
        | some w =>
          rw [hv] at h
          obtain ⟨q', hpq, hhead, hchain, z, hz, hzn⟩ := ih w (acc ++ [v]) p h
          refine ⟨v :: q', by simp [hpq], rfl, ?_, z, ?_, hzn⟩
          · rw [List.chain'_cons']
            refine ⟨fun b hb => ?_, hchain⟩
            rw [hhead] at hb
            injection hb with hb
            rw [← hb]
            exact ⟨hv, hvs⟩
          · cases q' with
            | nil => cases hhead
            | cons a as =>
              rw [List.getLast?_cons_cons]
              exact hz

theorem dfsWalk_undefined (prev : ℤ → Option (Option ℤ)) :
    ∀ (n : ℕ) (acc : List ℤ), dfsWalk prev n none acc = none := by
  intro n
  induction n with
  | zero => intro acc; rfl
  | succ n ih => intro acc; exact ih acc

theorem dfsWalk_spec (prev : ℤ → Option (Option ℤ)) :
    ∀ (fuel : ℕ) (v : ℤ) (acc p : List ℤ),
      dfsWalk prev fuel (some (some v)) acc = some p →
      (v = -1 ∧ p = acc) ∨
      ∃ q, p = acc ++ q ∧ q.head? = some v ∧
        List.Chain' (fun a b => prev a = some (some b)) q ∧
        ∃ z, q.getLast? = some z ∧ (prev z = some none ∨ prev z = some (some (-1))) := by
  intro fuel
  induction fuel with
  | zero => intro v acc p h; cases h
  | succ f ih =>
    intro v acc p h
    by_cases hv1 : v = -1
    · have hstep : dfsWalk prev (f + 1) (some (some v)) acc = some acc := by
        show (if v = -1 then some acc else dfsWalk prev f (prev v) (acc ++ [v])) = some acc
        rw [if_pos hv1]
      rw [hstep] at h
      injection h with h1
      exact Or.inl ⟨hv1, h1.symm⟩
    · have hstep : dfsWalk prev (f + 1) (some (some v)) acc =
          dfsWalk prev f (prev v) (acc ++ [v]) := by
        show (if v = -1 then some acc else dfsWalk prev f (prev v) (acc ++ [v]))
          = dfsWalk prev f (prev v) (acc ++ [v])
        rw [if_neg hv1]
      rw [hstep] at h
      cases hv : prev v with
      | none =>
        rw [hv, dfsWalk_undefined] at h
        cases h
      | some o =>
        cases o with
        | none =>
          rw [hv] at h
          cases f with
          | zero => cases h
          | succ f' =>
            have : dfsWalk prev (f' + 1) (some none) (acc ++ [v]) = some (acc ++ [v]) := rfl
            rw [this] at h
            injection h with h1
            exact Or.inr ⟨[v], by rw [← h1], rfl, by simp, v, rfl, Or.inl hv⟩
        | some w =>
          rw [hv] at h
          rcases ih w (acc ++ [v]) p h with ⟨hw1, hp⟩ | ⟨q', hpq, hhead, hchain, z, hz, hzn⟩
          · subst hw1
            exact Or.inr ⟨[v], by rw [hp], rfl, by simp, v, rfl, Or.inr hv⟩
          · refine Or.inr ⟨v :: q', by simp [hpq], rfl, ?_, z, ?_, hzn⟩
            · rw [List.chain'_cons']
              refine ⟨fun b hb => ?_, hchain⟩
              rw [hhead] at hb
              injection hb with hb
              rw [← hb]
              exact hv
            · cases q' with
              | nil => cases hhead
              | cons a as =>
                rw [List.getLast?_cons_cons]
                exact hz

/-! ## Destructuring the run wrappers -/

theorem dijkstraRun_spec (g : Graph) (s e : ℤ) (fuel : ℕ) (r : AlgorithmResult)
    (h : dijkstraRun g s e fuel = some r) :
    ∃ st, dijkstraLoop g e fuel (dijkstraInit g s) = some st ∧
      r.visitedInOrder = st.visitedInOrder ∧ r.prev = st.prev ∧
      ∃ p, walkPrev st.prev fuel (some (some e)) [] = some p ∧
        ((p.getLast? = some s ∧ r.path = p.reverse) ∨
         (¬ p.getLast? = some s ∧ r.path = [])) := by
  unfold dijkstraRun at h
  cases hl : dijkstraLoop g e fuel (dijkstraInit g s) with
  | none => rw [hl] at h; cases h
  | some st =>
    rw [hl] at h
    dsimp only at h
    refine ⟨st, rfl, ?_⟩
    cases hw : walkPrev st.prev fuel (some (some e)) [] with
    | none =>
      rw [hw] at h
      cases h
    | some p =>
      rw [hw] at h
      dsimp only at h
      by_cases hlast : p.getLast? = some s
      · rw [if_pos hlast] at h
        injection h with h1
        rw [← h1]
        exact ⟨rfl, rfl, p, rfl, Or.inl ⟨hlast, rfl⟩⟩
      · rw [if_neg hlast] at h
        injection h with h1
        rw [← h1]
        exact ⟨rfl, rfl, p, rfl, Or.inr ⟨hlast, rfl⟩⟩

theorem aStarRun_spec (hv : ℚ → ℚ → ℚ → ℚ → ℚ) (g : Graph) (s e : ℤ) (fuel : ℕ)
    (r : AlgorithmResult) (h : aStarRun hv g s e fuel = some r) :
    (g.getNode e = none ∧ r.path = [] ∧ r.visitedInOrder = []) ∨
    ∃ endData startData st, g.getNode e = some endData ∧ g.getNode s = some startData ∧
      aStarLoop g hv endData e fuel
        (aStarInit g s (hv startData.lat startData.lon endData.lat endData.lon)) = some st ∧
      r.visitedInOrder = st.visitedInOrder ∧ r.prev = st.prev ∧
      ∃ p, walkPrev st.prev fuel (some (some e)) [] = some p ∧
        ((p.getLast? = some s ∧ r.path = p.reverse) ∨
         (¬ p.getLast? = some s ∧ r.path = [])) := by
  unfold aStarRun at h
  cases hend : g.getNode e with
  | none =>
    rw [hend] at h
    dsimp only at h
    injection h with h1
    left
    rw [← h1]
    exact ⟨rfl, rfl, rfl⟩
  | some endData =>
    rw [hend] at h
    dsimp only at h
    cases hstart : g.getNode s with
    | none => rw [hstart] at h; cases h
    | some startData =>
      rw [hstart] at h
      dsimp only at h
      right
      cases hl : aStarLoop g hv endData e fuel
          (aStarInit g s (hv startData.lat startData.lon endData.lat endData.lon)) with
      | none => rw [hl] at h; cases h
      | some st =>
        rw [hl] at h
        dsimp only at h
        refine ⟨endData, startData, st, rfl, rfl, hl, ?_⟩
        cases hw : walkPrev st.prev fuel (some (some e)) [] with
        | none => rw [hw] at h; cases h
        | some p =>
          rw [hw] at h
          dsimp only at h
          by_cases hlast : p.getLast? = some s
          · rw [if_pos hlast] at h
            injection h with h1
            rw [← h1]
            exact ⟨rfl, rfl, p, rfl, Or.inl ⟨hlast, rfl⟩⟩
          · rw [if_neg hlast] at h
            injection h with h1
            rw [← h1]
            exact ⟨rfl, rfl, p, rfl, Or.inr ⟨hlast, rfl⟩⟩

theorem gbfsRun_spec (hv : ℚ → ℚ → ℚ → ℚ → ℚ) (g : Graph) (s e : ℤ) (fuel : ℕ)
    (r : AlgorithmResult) (h : gbfsRun hv g s e fuel = some r) :
    (g.getNode e = none ∧ r.path = [] ∧ r.visitedInOrder = []) ∨
    ∃ endData startData st, g.getNode e = some endData ∧ g.getNode s = some startData ∧
      gbfsLoop g hv endData e fuel
        (gbfsInit g s (hv startData.lat startData.lon endData.lat endData.lon)) = some st ∧
      r.visitedInOrder = st.visitedInOrder ∧ r.prev = st.prev ∧
      ∃ p, gbfsWalk st.prev s fuel (some (some e)) [] = some p ∧
        ((p.getLast? = some s ∧ r.path = p.reverse) ∨
         (¬ p.getLast? = some s ∧ r.path = [])) := by
  unfold gbfsRun at h
  cases hend : g.getNode e with
  | none =>
    rw [hend] at h
    dsimp only at h
    injection h with h1
    left
    rw [← h1]
    exact ⟨rfl, rfl, rfl⟩
  | some endData =>
    rw [hend] at h
    dsimp only at h
    cases hstart : g.getNode s with
    | none => rw [hstart] at h; cases h
    | some startData =>
      rw [hstart] at h
      dsimp only at h
      right
      cases hl : gbfsLoop g hv endData e fuel
          (gbfsInit g s (hv startData.lat startData.lon endData.lat endData.lon)) with
      | none => rw [hl] at h; cases h
      | some st =>
        rw [hl] at h
        dsimp only at h
        refine ⟨endData, startData, st, rfl, rfl, hl, ?_⟩
        cases hw : gbfsWalk st.prev s fuel (some (some e)) [] with
        | none => rw [hw] at h; cases h
        | some p =>
          rw [hw] at h
          dsimp only at h
          by_cases hlast : p.getLast? = some s
          · rw [if_pos hlast] at h
            injection h with h1
            rw [← h1]
            exact ⟨rfl, rfl, p, rfl, Or.inl ⟨hlast, rfl⟩⟩
          · rw [if_neg hlast] at h
            injection h with h1
            rw [← h1]
            exact ⟨rfl, rfl, p, rfl, Or.inr ⟨hlast, rfl⟩⟩

theorem bfsRun_spec (g : Graph) (s e : ℤ) (fuel : ℕ) (r : AlgorithmResult)
    (h : bfsRun g s e fuel = some r) :
    ∃ st found, bfsLoop g e fuel (bfsInit g s) = some (st, found) ∧
      r.visitedInOrder = st.visitedInOrder ∧ r.prev = st.prev ∧
      ((found = false ∧ r.path = []) ∨
       (found = true ∧ ∃ p, walkPrev st.prev fuel (some (some e)) [] = some p ∧
         r.path = p.reverse)) := by
  unfold bfsRun at h
  cases hl : bfsLoop g e fuel (bfsInit g s) with
  | none => rw [hl] at h; cases h
  | some pr =>
    obtain ⟨st, found⟩ := pr
    rw [hl] at h
    dsimp only at h
    refine ⟨st, found, rfl, ?_⟩
    cases found with
    | true =>
      cases hw : walkPrev st.prev fuel (some (some e)) [] with
      | none =>
        rw [hw] at h
        simp at h
      | some p =>
        rw [hw] at h
        simp at h
        rw [← h]
        exact ⟨rfl, rfl, Or.inr ⟨rfl, p, rfl, rfl⟩⟩
    | false =>
      simp at h
      rw [← h]
      exact ⟨rfl, rfl, Or.inl ⟨rfl, rfl⟩⟩

theorem dfsRun_spec (g : Graph) (s e : ℤ) (fuel : ℕ) (r : AlgorithmResult)
    (h : dfsRun g s e fuel = some r) :
    ∃ st found, dfsLoop g e fuel (dfsInit g s) = some (st, found) ∧
      r.visitedInOrder = st.visitedInOrder ∧ r.prev = st.prev ∧
      ((found = false ∧ r.path = []) ∨
       (found = true ∧ ∃ p, dfsWalk st.prev fuel (some (some e)) [] = some p ∧
         r.path = p.reverse)) := by
  unfold dfsRun at h
  cases hl : dfsLoop g e fuel (dfsInit g s) with
  | none => rw [hl] at h; cases h
  | some pr =>
    obtain ⟨st, found⟩ := pr
    rw [hl] at h
    dsimp only at h
    refine ⟨st, found, rfl, ?_⟩
    cases found with
    | true =>
      cases hw : dfsWalk st.prev fuel (some (some e)) [] with
      | none =>
        rw [hw] at h
        simp at h
      | some p =>
        rw [hw] at h
        simp at h
        rw [← h]
        exact ⟨rfl, rfl, Or.inr ⟨rfl, p, rfl, rfl⟩⟩
    | false =>
      simp at h
      rw [← h]
      exact ⟨rfl, rfl, Or.inl ⟨rfl, rfl⟩⟩

/-! ## Reachability lemmas and generic loop preservation -/

theorem reachable_refl (g : Graph) (s : ℤ) : Reachable g s s :=
  ⟨[s], 0, PathCost.single s⟩

theorem pathCost_append_edge (g : Graph) (s : ℤ) :
    ∀ (u : ℤ) (p : List ℤ) (c : ℚ), PathCost g s u p c →
    ∀ ed ∈ g.getNeighbors u, PathCost g s ed.target (p ++ [ed.target]) (c + ed.weight) := by
  intro u p c hp
  induction hp with
  | single s =>
    intro ed hed
    have h0 : PathCost g ed.target ed.target [ed.target] 0 := PathCost.single ed.target
    have := PathCost.cons (g := g) s ed.target ed [ed.target] 0 hed h0
    simpa [add_comm] using this
  | cons u e ed p c hed hp ih =>
    intro ed' hed'
    have := PathCost.cons (g := g) u ed'.target ed (p ++ [ed'.target]) (c + ed'.weight) hed
      (ih ed' hed')
    simpa [add_assoc, add_comm, add_left_comm] using this

theorem reachable_step (g : Graph) (s u v : ℤ) (hu : Reachable g s u)
    (ha : Adjacent g u v) : Reachable g s v := by
  obtain ⟨p, c, hp⟩ := hu
  obtain ⟨ed, hed, htgt⟩ := ha
  exact ⟨p ++ [v], c + ed.weight, htgt ▸ pathCost_append_edge g s u p c hp ed hed⟩

theorem dijkstraRelax_vio (cur : ℤ) (st : DState) (ed : GraphEdge) :
    (dijkstraRelax cur st ed).visitedInOrder = st.visitedInOrder := by
  unfold dijkstraRelax
  split
  · rfl
  · split
    · rfl
    · dsimp only
      split <;> rfl

theorem bfsRelax_vio (cur : ℤ) (st : BState) (ed : GraphEdge) :
    (bfsRelax cur st ed).visitedInOrder = st.visitedInOrder := by
  unfold bfsRelax
  split <;> rfl

theorem aStarRelax_vio (g : Graph) (hv : ℚ → ℚ → ℚ → ℚ → ℚ) (endData : GraphNode)
    (cur : ℤ) (st st' : AState) (ed : GraphEdge)
    (h : aStarRelax g hv endData cur st ed = some st') :
    st'.visitedInOrder = st.visitedInOrder := by
  unfold aStarRelax at h
  split at h
  · injection h with h1; rw [← h1]
  · split at h
    · injection h with h1; rw [← h1]
    · dsimp only at h
      split at h
      · split at h
        · cases h
        · injection h with h1; rw [← h1]
      · injection h with h1; rw [← h1]

theorem gbfsRelax_vio (g : Graph) (hv : ℚ → ℚ → ℚ → ℚ → ℚ) (endData : GraphNode)
    (cur : ℤ) (st st' : GState) (ed : GraphEdge)
    (h : gbfsRelax g hv endData cur st ed = some st') :
    st'.visitedInOrder = st.visitedInOrder := by
  unfold gbfsRelax at h
  split at h
  · split at h
    · cases h
    · injection h with h1; rw [← h1]
  · injection h with h1; rw [← h1]

theorem dijkstraLoop_preserves (g : Graph) (endN : ℤ) (P : DState → Prop)
    (hpop : ∀ (st : DState) (c : PQElem ℤ) (rest : List (PQElem ℤ)), st.pq = c :: rest → P st →
      P { st with pq := rest, visitedInOrder := st.visitedInOrder ++ [c.element] })
    (hrelax : ∀ (cur : ℤ) (st : DState) (ed : GraphEdge), ed ∈ g.getNeighbors cur →
      cur ∈ st.visitedInOrder → P st → P (dijkstraRelax cur st ed)) :
    ∀ (fuel : ℕ) (st st' : DState), P st → dijkstraLoop g endN fuel st = some st' → P st' := by
  have hfold : ∀ (cur : ℤ) (l : List GraphEdge), (∀ ed ∈ l, ed ∈ g.getNeighbors cur) →
      ∀ st : DState, cur ∈ st.visitedInOrder → P st →
      cur ∈ (l.foldl (dijkstraRelax cur) st).visitedInOrder ∧
        P (l.foldl (dijkstraRelax cur) st) := by
    intro cur l
    induction l with
    | nil => intro _ st hc hp; exact ⟨hc, hp⟩
    | cons ed rest ih =>
      intro hsub st hc hp
      rw [List.foldl_cons]
      refine ih (fun x hx => hsub x (List.mem_cons_of_mem ed hx)) _ ?_ ?_
      · rw [dijkstraRelax_vio]; exact hc
      · exact hrelax cur st ed (hsub ed (List.mem_cons_self ed rest)) hc hp
  intro fuel
  induction fuel with
  | zero =>
    intro st st' hp h
    cases hst : st.pq with
    | nil =>
      rw [dijkstraLoop_nil g endN 0 st hst] at h
      injection h with h1
      rw [← h1]
      exact hp
    | cons c cs =>
      rw [dijkstraLoop_zero_cons g endN st c cs hst] at h
      cases h
  | succ f ih =>
    intro st st' hp h
    cases hst : st.pq with
    | nil =>
      rw [dijkstraLoop_nil g endN (f + 1) st hst] at h
      injection h with h1
      rw [← h1]
      exact hp
    | cons c cs =>
      have hp1 := hpop st c cs hst hp
      by_cases hce : c.element = endN
      · rw [dijkstraLoop_cons_found g endN f st c cs hst hce] at h
        injection h with h1
        rw [← h1]
        exact hp1
      · rw [dijkstraLoop_cons_step g endN f st c cs hst hce] at h
        refine ih _ st' ?_ h
        exact (hfold c.element (g.getNeighbors c.element) (fun x hx => hx) _
          (by simp) hp1).2

theorem bfsLoop_preserves (g : Graph) (endN : ℤ) (P : BState → Prop)
    (hpop : ∀ (st : BState) (c : ℤ) (rest : List ℤ), st.queue = c :: rest → P st →
      P { st with queue := rest, visitedInOrder := st.visitedInOrder ++ [c] })
    (hrelax : ∀ (cur : ℤ) (st : BState) (ed : GraphEdge), ed ∈ g.getNeighbors cur →
      cur ∈ st.visitedInOrder → P st → P (bfsRelax cur st ed)) :
    ∀ (fuel : ℕ) (st : BState) (st' : BState) (b : Bool), P st →
      bfsLoop g endN fuel st = some (st', b) → P st' := by
  have hfold : ∀ (cur : ℤ) (l : List GraphEdge), (∀ ed ∈ l, ed ∈ g.getNeighbors cur) →
      ∀ st : BState, cur ∈ st.visitedInOrder → P st →
      cur ∈ (l.foldl (bfsRelax cur) st).visitedInOrder ∧ P (l.foldl (bfsRelax cur) st) := by
    intro cur l
    induction l with
    | nil => intro _ st hc hp; exact ⟨hc, hp⟩
    | cons ed rest ih =>
      intro hsub st hc hp
      rw [List.foldl_cons]
      refine ih (fun x hx => hsub x (List.mem_cons_of_mem ed hx)) _ ?_ ?_
      · rw [bfsRelax_vio]; exact hc
      · exact hrelax cur st ed (hsub ed (List.mem_cons_self ed rest)) hc hp
  intro fuel
  induction fuel with
  | zero =>
    intro st st' b hp h
    cases hst : st.queue with
    | nil =>
      rw [bfsLoop_nil g endN 0 st hst] at h
      obtain ⟨h1, _⟩ : st = st' ∧ false = b := by
        injection h with hh
        injection hh with hh1 hh2
        exact ⟨hh1, hh2⟩
      rw [← h1]
      exact hp
    | cons c cs =>
      rw [bfsLoop_zero_cons g endN st c cs hst] at h
      cases h
  | succ f ih =>
    intro st st' b hp h
    cases hst : st.queue with
    | nil =>
      rw [bfsLoop_nil g endN (f + 1) st hst] at h
      obtain ⟨h1, _⟩ : st = st' ∧ false = b := by
        injection h with hh
        injection hh with hh1 hh2
        exact ⟨hh1, hh2⟩
      rw [← h1]
      exact hp
    | cons c cs =>
      have hp1 := hpop st c cs hst hp
      by_cases hce : c = endN
      · rw [bfsLoop_cons_found g endN f st c cs hst hce] at h
        obtain ⟨h1, _⟩ : _ = st' ∧ true = b := by
          injection h with hh
          injection hh with hh1 hh2
          exact ⟨hh1, hh2⟩
        rw [← h1]
        exact hp1
      · rw [bfsLoop_cons_step g endN f st c cs hst hce] at h
        refine ih _ st' b ?_ h
        exact (hfold c (g.getNeighbors c) (fun x hx => hx) _ (by simp) hp1).2

theorem dfsLoop_preserves (g : Graph) (endN : ℤ) (P : FState → Prop)
    (hpop : ∀ (st : FState) (c : ℤ) (rest : List ℤ), st.stack = c :: rest → P st →
      P { st with stack := rest, visitedInOrder := st.visitedInOrder ++ [c] })
    (hrelax : ∀ (cur : ℤ) (st : FState) (ed : GraphEdge), ed ∈ g.getNeighbors cur →
      cur ∈ st.visitedInOrder → P st → P (dfsRelax cur st ed)) :
    ∀ (fuel : ℕ) (st : FState) (st' : FState) (b : Bool), P st →
      dfsLoop g endN fuel st = some (st', b) → P st' := by
  have hfold : ∀ (cur : ℤ) (l : List GraphEdge), (∀ ed ∈ l, ed ∈ g.getNeighbors cur) →
      ∀ st : FState, cur ∈ st.visitedInOrder → P st →
      cur ∈ (l.foldl (dfsRelax cur) st).visitedInOrder ∧ P (l.foldl (dfsRelax cur) st) := by
    intro cur l
    induction l with
    | nil => intro _ st hc hp; exact ⟨hc, hp⟩
    | cons ed rest ih =>
      intro hsub st hc hp
      rw [List.foldl_cons]
      refine ih (fun x hx => hsub x (List.mem_cons_of_mem ed hx)) _ ?_ ?_
      · rw [dfsRelax_vio]; exact hc
      · exact hrelax cur st ed (hsub ed (List.mem_cons_self ed rest)) hc hp
  intro fuel
  induction fuel with
  | zero =>
    intro st st' b hp h
    cases hst : st.stack with
    | nil =>
      rw [dfsLoop_nil g endN 0 st hst] at h
      obtain ⟨h1, _⟩ : st = st' ∧ false = b := by
        injection h with hh
        injection hh with hh1 hh2
        exact ⟨hh1, hh2⟩
      rw [← h1]
      exact hp
    | cons c cs =>
      rw [dfsLoop_zero_cons g endN st c cs hst] at h
      cases h
  | succ f ih =>
    intro st st' b hp h
    cases hst : st.stack with
    | nil =>
      rw [dfsLoop_nil g endN (f + 1) st hst] at h
      obtain ⟨h1, _⟩ : st = st' ∧ false = b := by
        injection h with hh
        injection hh with hh1 hh2
        exact ⟨hh1, hh2⟩
      rw [← h1]
      exact hp
    | cons c cs =>
      have hp1 := hpop st c cs hst hp
      by_cases hce : c = endN
      · rw [dfsLoop_cons_found g endN f st c cs hst hce] at h
        obtain ⟨h1, _⟩ : _ = st' ∧ true = b := by
          injection h with hh
          injection hh with hh1 hh2
          exact ⟨hh1, hh2⟩
        rw [← h1]
        exact hp1
      · rw [dfsLoop_cons_step g endN f st c cs hst hce] at h
        refine ih _ st' b ?_ h
        exact (hfold c (g.getNeighbors c) (fun x hx => hx) _ (by simp) hp1).2

theorem aStar_foldl_none (g : Graph) (hv : ℚ → ℚ → ℚ → ℚ → ℚ) (endData : GraphNode)
    (cur : ℤ) (edges : List GraphEdge) :
    edges.foldl (fun acc ed => acc.bind fun s => aStarRelax g hv endData cur s ed) none = none := by
  induction edges with
  | nil => rfl
  | cons ed rest ih => simpa using ih

theorem aStarLoop_preserves (g : Graph) (hv : ℚ → ℚ → ℚ → ℚ → ℚ) (endData : GraphNode)
    (endN : ℤ) (P : AState → Prop)
    (hpop : ∀ (st : AState) (c : PQElem ℤ) (rest : List (PQElem ℤ)), st.pq = c :: rest → P st →
      P { st with pq := rest, visitedInOrder := st.visitedInOrder ++ [c.element] })
    (hrelax : ∀ (cur : ℤ) (st st' : AState) (ed : GraphEdge), ed ∈ g.getNeighbors cur →
      cur ∈ st.visitedInOrder → P st → aStarRelax g hv endData cur st ed = some st' → P st') :
    ∀ (fuel : ℕ) (st st' : AState), P st →
      aStarLoop g hv endData endN fuel st = some st' → P st' := by
  have hfold : ∀ (cur : ℤ) (l : List GraphEdge), (∀ ed ∈ l, ed ∈ g.getNeighbors cur) →
      ∀ (st st' : AState), cur ∈ st.visitedInOrder → P st →
      l.foldl (fun acc ed => acc.bind fun s => aStarRelax g hv endData cur s ed) (some st) =
        some st' →
      cur ∈ st'.visitedInOrder ∧ P st' := by
    intro cur l
    induction l with
    | nil =>
      intro _ st st' hc hp hfd
      injection hfd with h1
      rw [← h1]
      exact ⟨hc, hp⟩
    | cons ed rest ih =>
      intro hsub st st' hc hp hfd
      rw [List.foldl_cons] at hfd
      cases hrel : aStarRelax g hv endData cur st ed with
      | none =>
        rw [show (some st).bind (fun s => aStarRelax g hv endData cur s ed) = none by
          simpa using hrel] at hfd
        rw [aStar_foldl_none] at hfd
        cases hfd
      | some st1 =>
        rw [show (some st).bind (fun s => aStarRelax g hv endData cur s ed) = some st1 by
          simpa using hrel] at hfd
        refine ih (fun x hx => hsub x (List.mem_cons_of_mem ed hx)) st1 st' ?_ ?_ hfd
        · rw [aStarRelax_vio g hv endData cur st st1 ed hrel]; exact hc
        · exact hrelax cur st st1 ed (hsub ed (List.mem_cons_self ed rest)) hc hp hrel
  intro fuel
  induction fuel with
  | zero =>
    intro st st' hp h
    cases hst : st.pq with
    | nil =>
      rw [aStarLoop_nil g hv endData endN 0 st hst] at h
      injection h with h1
      rw [← h1]
      exact hp
    | cons c cs =>
      rw [aStarLoop_zero_cons g hv endData endN st c cs hst] at h
      cases h
  | succ f ih =>
    intro st st' hp h
    cases hst : st.pq with
    | nil =>
      rw [aStarLoop_nil g hv endData endN (f + 1) st hst] at h
      injection h with h1
      rw [← h1]
      exact hp
    | cons c cs =>
      have hp1 := hpop st c cs hst hp
      by_cases hce : c.element = endN
      · rw [aStarLoop_cons_found g hv endData endN f st c cs hst hce] at h
        injection h with h1
        rw [← h1]
        exact hp1
      · rw [aStarLoop_cons_step g hv endData endN f st c cs hst hce] at h
        cases hfd : (g.getNeighbors c.element).foldl
            (fun acc ed => acc.bind fun s => aStarRelax g hv endData c.element s ed)
            (some { st with pq := cs, visitedInOrder := st.visitedInOrder ++ [c.element] }) with
        | none => rw [hfd] at h; cases h
        | some st2 =>
          rw [hfd] at h
          refine ih st2 st' ?_ h
          exact (hfold c.element (g.getNeighbors c.element) (fun x hx => hx) _ st2
            (by simp) hp1 hfd).2

theorem gbfsLoop_preserves (g : Graph) (hv : ℚ → ℚ → ℚ → ℚ → ℚ) (endData : GraphNode)
    (endN : ℤ) (P : GState → Prop)
    (hpop : ∀ (st : GState) (c : PQElem ℤ) (rest : List (PQElem ℤ)), st.pq = c :: rest → P st →
      P { st with pq := rest, visitedInOrder := st.visitedInOrder ++ [c.element] })
    (hrelax : ∀ (cur : ℤ) (st st' : GState) (ed : GraphEdge), ed ∈ g.getNeighbors cur →
      cur ∈ st.visitedInOrder → P st → gbfsRelax g hv endData cur st ed = some st' → P st') :
    ∀ (fuel : ℕ) (st st' : GState), P st →
      gbfsLoop g hv endData endN fuel st = some st' → P st' := by
  have hfold : ∀ (cur : ℤ) (l : List GraphEdge), (∀ ed ∈ l, ed ∈ g.getNeighbors cur) →
      ∀ (st st' : GState), cur ∈ st.visitedInOrder → P st →
      l.foldl (fun acc ed => acc.bind fun s => gbfsRelax g hv endData cur s ed) (some st) =
        some st' →
      cur ∈ st'.visitedInOrder ∧ P st' := by
    intro cur l
    induction l with
    | nil =>
      intro _ st st' hc hp hfd
      injection hfd with h1
      rw [← h1]
      exact ⟨hc, hp⟩
    | cons ed rest ih =>
      intro hsub st st' hc hp hfd
      rw [List.foldl_cons] at hfd
      cases hrel : gbfsRelax g hv endData cur st ed with
      | none =>
        rw [show (some st).bind (fun s => gbfsRelax g hv endData cur s ed) = none by
          simpa using hrel] at hfd
        rw [gbfs_foldl_none] at hfd
        cases hfd
      | some st1 =>
        rw [show (some st).bind (fun s => gbfsRelax g hv endData cur s ed) = some st1 by
          simpa using hrel] at hfd
        refine ih (fun x hx => hsub x (List.mem_cons_of_mem ed hx)) st1 st' ?_ ?_ hfd
        · rw [gbfsRelax_vio g hv endData cur st st1 ed hrel]; exact hc
        · exact hrelax cur st st1 ed (hsub ed (List.mem_cons_self ed rest)) hc hp hrel
  intro fuel
  induction fuel with
  | zero =>
    intro st st' hp h
    cases hst : st.pq with
    | nil =>
      rw [gbfsLoop_nil g hv endData endN 0 st hst] at h
      injection h with h1
      rw [← h1]
      exact hp
    | cons c cs =>
      rw [gbfsLoop_zero_cons g hv endData endN st c cs hst] at h
      cases h
  | succ f ih =>
    intro st st' hp h
    cases hst : st.pq with
    | nil =>
      rw [gbfsLoop_nil g hv endData endN (f + 1) st hst] at h
      injection h with h1
      rw [← h1]
      exact hp
    | cons c cs =>
      have hp1 := hpop st c cs hst hp
      by_cases hce : c.element = endN
      · rw [gbfsLoop_cons_found g hv endData endN f st c cs hst hce] at h
        injection h with h1
        rw [← h1]
        exact hp1
      · rw [gbfsLoop_cons_step g hv endData endN f st c cs hst hce] at h
        cases hfd : (g.getNeighbors c.element).foldl
            (fun acc ed => acc.bind fun s => gbfsRelax g hv endData c.element s ed)
            (some { st with pq := cs, visitedInOrder := st.visitedInOrder ++ [c.element] }) with
        | none => rw [hfd] at h; cases h
        | some st2 =>
          rw [hfd] at h
          refine ih st2 st' ?_ h
          exact (hfold c.element (g.getNeighbors c.element) (fun x hx => hx) _ st2
            (by simp) hp1 hfd).2

/-! ## Chains of stored edges and reachability -/

theorem reachable_cons (g : Graph) (u v e : ℤ) (ha : Adjacent g u v)
    (hr : Reachable g v e) : Reachable g u e := by
  obtain ⟨ed, hed, htgt⟩ := ha
  subst htgt
  obtain ⟨p, c, hp⟩ := hr
  exact ⟨u :: p, ed.weight + c, PathCost.cons u e ed p c hed hp⟩

theorem reachable_of_chain (g : Graph) :
    ∀ (q : List ℤ) (s e : ℤ), q.head? = some s → q.getLast? = some e →
      List.Chain' (Adjacent g) q → Reachable g s e := by
  intro q
  induction q with
  | nil => intro s e hh _ _; cases hh
  | cons a rest ih =>
    intro s e hh hl hch
    have ha : a = s := by
      have : some a = some s := hh
      injection this
    cases rest with
    | nil =>
      have he : a = e := by
        have : some a = some e := hl
        injection this
      rw [← ha, ← he]
      exact reachable_refl g a
    | cons b rest2 =>
      have hab : Adjacent g a b := (List.chain'_cons.1 hch).1
      have hch2 : List.Chain' (Adjacent g) (b :: rest2) := (List.chain'_cons.1 hch).2
      have hl2 : (b :: rest2).getLast? = some e := by
        rw [List.getLast?_cons_cons] at hl
        exact hl
      have hbe : Reachable g b e := ih b e rfl hl2 hch2
      rw [← ha]
      exact reachable_cons g a b e hab hbe

theorem reachable_of_revchain (g : Graph) (s e : ℤ) (q : List ℤ)
    (hh : q.head? = some e) (hl : q.getLast? = some s)
    (hch : List.Chain' (fun a b => Adjacent g b a) q) : Reachable g s e := by
  refine reachable_of_chain g q.reverse s e ?_ ?_ ?_
  · rw [List.head?_reverse]; exact hl
  · rw [List.getLast?_reverse]; exact hh
  · exact List.chain'_reverse.2 hch

theorem pathCost_endpoint (g : Graph) (s e : ℤ) (p : List ℤ) (c : ℚ)
    (hp : PathCost g s e p c) : e = s ∨ ∃ u, Adjacent g u e := by
  induction hp with
  | single s => left; rfl
  | cons u e ed p c hed _ ih =>
    rcases ih with h | h
    · right
      exact ⟨u, ed, hed, h.symm⟩
    · right
      exact h

theorem exGraphTwo_neighbors (u : ℤ) : exGraphTwo.getNeighbors u = [] := by
  have hadj : exGraphTwo.adj = [(1, []), (2, [])] := by with_unfolding_all rfl
  unfold Graph.getNeighbors
  rw [hadj]
  unfold mapGet
  by_cases h1 : u = 1
  · rw [if_pos h1]; rfl
  · rw [if_neg h1]
    unfold mapGet
    by_cases h2 : u = 2
    · rw [if_pos h2]; rfl
    · rw [if_neg h2]; rfl

theorem exGraphTwo_not_reachable : ¬ Reachable exGraphTwo 1 2 := by
  rintro ⟨p, c, hp⟩
  rcases pathCost_endpoint exGraphTwo 1 2 p c hp with h | ⟨u, ed, hed, _⟩
  · cases h
  · rw [exGraphTwo_neighbors] at hed
    cases hed

/-! ## Invariants of the five loops -/

theorem dijkstraInv_init (g : Graph) (s : ℤ) : DijkstraInv g s (dijkstraInit g s) := by
  refine ⟨?_, ?_, ?_, ?_⟩
  · intro x hx
    have hx1 : x ∈ [(⟨s, ((0 : ℚ) : WithTop ℚ)⟩ : PQElem ℤ)] := hx
    rw [List.mem_singleton] at hx1
    rw [hx1]
    exact reachable_refl g s
  · intro v hvm
    cases hvm
  · intro v u hvu
    have h1 : initMap g.nodeIds (none : Option ℤ) v = some (some u) := hvu
    rw [initMap_eval] at h1
    split at h1
    · injection h1 with h2; cases h2
    · cases h1
  · intro v hvm
    show initMap g.nodeIds (none : Option ℤ) v ≠ none
    rw [initMap_eval, if_pos hvm]
    intro hc
    cases hc

theorem dijkstraInv_pop (g : Graph) (s : ℤ) (st : DState) (c : PQElem ℤ)
    (rest : List (PQElem ℤ)) (hq : st.pq = c :: rest) (h : DijkstraInv g s st) :
    DijkstraInv g s
      { st with pq := rest, visitedInOrder := st.visitedInOrder ++ [c.element] } := by
  obtain ⟨h1, h2, h3, h4⟩ := h
  refine ⟨?_, ?_, h3, h4⟩
  · intro x hx
    apply h1
    rw [hq]
    exact List.mem_cons_of_mem c hx
  · intro v hvm
    rcases List.mem_append.1 hvm with hvm | hvm
    · exact h2 v hvm
    · rw [List.mem_singleton] at hvm
      rw [hvm]
      apply h1
      rw [hq]
      exact List.mem_cons_self c rest

theorem dijkstraInv_relax (g : Graph) (s cur : ℤ) (st : DState) (ed : GraphEdge)
    (hed : ed ∈ g.getNeighbors cur) (hcur : cur ∈ st.visitedInOrder)
    (h : DijkstraInv g s st) : DijkstraInv g s (dijkstraRelax cur st ed) := by
  obtain ⟨h1, h2, h3, h4⟩ := h
  have hreach : Reachable g s ed.target :=
    reachable_step g s cur ed.target (h2 cur hcur) ⟨ed, hed, rfl⟩
  unfold dijkstraRelax
  split
  · exact ⟨h1, h2, h3, h4⟩
  · split
    · exact ⟨h1, h2, h3, h4⟩
    · dsimp only
      split
      · refine ⟨?_, h2, ?_, ?_⟩
        · intro x hx
          rcases (mem_pqEnqueue _ x _).1 hx with hx | hx
          · rw [hx]
            exact hreach
          · exact h1 x hx
        · intro v u hvu
          dsimp only at hvu
          rw [upd_eval] at hvu
          by_cases hveq : v = ed.target
          · rw [if_pos hveq] at hvu
            injection hvu with h5
            injection h5 with h6
            rw [← h6, hveq]
            exact ⟨⟨ed, hed, rfl⟩, hveq ▸ hreach⟩
          · rw [if_neg hveq] at hvu
            exact h3 v u hvu
        · intro v hvm
          dsimp only
          rw [upd_eval]
          by_cases hveq : v = ed.target
          · rw [if_pos hveq]
            intro hc
            cases hc
          · rw [if_neg hveq]
            exact h4 v hvm
      · exact ⟨h1, h2, h3, h4⟩

theorem aStarInv_init (g : Graph) (s : ℤ) (hs0 : ℚ) : AStarInv g s (aStarInit g s hs0) := by
  refine ⟨?_, ?_, ?_, ?_⟩
  · intro x hx
    have hx1 : x ∈ [(⟨s, ((hs0 : ℚ) : WithTop ℚ)⟩ : PQElem ℤ)] := hx
    rw [List.mem_singleton] at hx1
    rw [hx1]
    exact reachable_refl g s
  · intro v hvm
    cases hvm
  · intro v u hvu
    have h1 : initMap g.nodeIds (none : Option ℤ) v = some (some u) := hvu
    rw [initMap_eval] at h1
    split at h1
    · injection h1 with h2; cases h2
    · cases h1
  · intro v hvm
    show initMap g.nodeIds (none : Option ℤ) v ≠ none
    rw [initMap_eval, if_pos hvm]
    intro hc
    cases hc

theorem aStarInv_pop (g : Graph) (s : ℤ) (st : AState) (c : PQElem ℤ)
    (rest : List (PQElem ℤ)) (hq : st.pq = c :: rest) (h : AStarInv g s st) :
    AStarInv g s
      { st with pq := rest, visitedInOrder := st.visitedInOrder ++ [c.element] } := by
  obtain ⟨h1, h2, h3, h4⟩ := h
  refine ⟨?_, ?_, h3, h4⟩
  · intro x hx
    apply h1
    rw [hq]
    exact List.mem_cons_of_mem c hx
  · intro v hvm
    rcases List.mem_append.1 hvm with hvm | hvm
    · exact h2 v hvm
    · rw [List.mem_singleton] at hvm
      rw [hvm]
      apply h1
      rw [hq]
      exact List.mem_cons_self c rest

theorem aStarInv_relax (g : Graph) (hv : ℚ → ℚ → ℚ → ℚ → ℚ) (endData : GraphNode)
    (s cur : ℤ) (st st' : AState) (ed : GraphEdge)
    (hed : ed ∈ g.getNeighbors cur) (hcur : cur ∈ st.visitedInOrder)
    (h : AStarInv g s st) (hrel : aStarRelax g hv endData cur st ed = some st') :
    AStarInv g s st' := by
  obtain ⟨h1, h2, h3, h4⟩ := h
  have hreach : Reachable g s ed.target :=
    reachable_step g s cur ed.target (h2 cur hcur) ⟨ed, hed, rfl⟩
  unfold aStarRelax at hrel
  split at hrel
  · injection hrel with h0
    rw [← h0]
    exact ⟨h1, h2, h3, h4⟩
  · split at hrel
    · injection hrel with h0
      rw [← h0]
      exact ⟨h1, h2, h3, h4⟩
    · dsimp only at hrel
      split at hrel
      · split at hrel
        · cases hrel
        · injection hrel with h0
          rw [← h0]
          refine ⟨?_, h2, ?_, ?_⟩
          · intro x hx
            rcases (mem_pqEnqueue _ x _).1 hx with hx | hx
            · rw [hx]
              exact hreach
            · exact h1 x hx
          · intro v u hvu
            dsimp only at hvu
            rw [upd_eval] at hvu
            by_cases hveq : v = ed.target
            · rw [if_pos hveq] at hvu
              injection hvu with h5
              injection h5 with h6
              rw [← h6, hveq]
              exact ⟨⟨ed, hed, rfl⟩, hveq ▸ hreach⟩
            · rw [if_neg hveq] at hvu
              exact h3 v u hvu
          · intro v hvm
            dsimp only
            rw [upd_eval]
            by_cases hveq : v = ed.target
            · rw [if_pos hveq]
              intro hc
              cases hc
            · rw [if_neg hveq]
              exact h4 v hvm
      · injection hrel with h0
        rw [← h0]
        exact ⟨h1, h2, h3, h4⟩

theorem gbfsInv_init (g : Graph) (s : ℤ) (hs0 : ℚ) : GbfsInv g s (gbfsInit g s hs0) := by
  refine ⟨?_, ?_, ?_, ?_⟩
  · intro x hx
    have hx1 : x ∈ [(⟨s, ((hs0 : ℚ) : WithTop ℚ)⟩ : PQElem ℤ)] := hx
    rw [List.mem_singleton] at hx1
    rw [hx1]
    exact reachable_refl g s
  · intro v hvm
    cases hvm
  · intro v u hvu
    have h1 : upd (initMap g.nodeIds (none : Option ℤ)) s (some s) v = some (some u) := hvu
    rw [upd_eval] at h1
    by_cases hveq : v = s
    · left
      exact hveq
    · rw [if_neg hveq, initMap_eval] at h1
      split at h1
      · injection h1 with h2; cases h2
      · cases h1
  · intro v hvm
    show upd (initMap g.nodeIds (none : Option ℤ)) s (some s) v ≠ none
    rw [upd_eval]
    by_cases hveq : v = s
    · rw [if_pos hveq]
      intro hc
      cases hc
    · rw [if_neg hveq, initMap_eval, if_pos hvm]
      intro hc
      cases hc

theorem gbfsInv_pop (g : Graph) (s : ℤ) (st : GState) (c : PQElem ℤ)
    (rest : List (PQElem ℤ)) (hq : st.pq = c :: rest) (h : GbfsInv g s st) :
    GbfsInv g s
      { st with pq := rest, visitedInOrder := st.visitedInOrder ++ [c.element] } := by
  obtain ⟨h1, h2, h3, h4⟩ := h
  refine ⟨?_, ?_, h3, h4⟩
  · intro x hx
    apply h1
    rw [hq]
    exact List.mem_cons_of_mem c hx
  · intro v hvm
    rcases List.mem_append.1 hvm with hvm | hvm
    · exact h2 v hvm
    · rw [List.mem_singleton] at hvm
      rw [hvm]
      apply h1
      rw [hq]
      exact List.mem_cons_self c rest

theorem gbfsInv_relax (g : Graph) (hv : ℚ → ℚ → ℚ → ℚ → ℚ) (endData : GraphNode)
    (s cur : ℤ) (st st' : GState) (ed : GraphEdge)
    (hed : ed ∈ g.getNeighbors cur) (hcur : cur ∈ st.visitedInOrder)
    (h : GbfsInv g s st) (hrel : gbfsRelax g hv endData cur st ed = some st') :
    GbfsInv g s st' := by
  obtain ⟨h1, h2, h3, h4⟩ := h
  have hreach : Reachable g s ed.target :=
    reachable_step g s cur ed.target (h2 cur hcur) ⟨ed, hed, rfl⟩
  unfold gbfsRelax at hrel
  split at hrel
  · split at hrel
    · cases hrel
    · injection hrel with h0
      rw [← h0]
      refine ⟨?_, h2, ?_, ?_⟩
      · intro x hx
        rcases (mem_pqEnqueue _ x _).1 hx with hx | hx
        · rw [hx]
          exact hreach
        · exact h1 x hx
      · intro v u hvu
        dsimp only at hvu
        rw [upd_eval] at hvu
        by_cases hveq : v = ed.target
        · rw [if_pos hveq] at hvu
          injection hvu with h5
          injection h5 with h6
          right
          rw [← h6, hveq]
          exact ⟨⟨ed, hed, rfl⟩, hveq ▸ hreach⟩
        · rw [if_neg hveq] at hvu
          exact h3 v u hvu
      · intro v hvm
        dsimp only
        rw [upd_eval]
        by_cases hveq : v = ed.target
        · rw [if_pos hveq]
          intro hc
          cases hc
        · rw [if_neg hveq]
          exact h4 v hvm
  · injection hrel with h0
    rw [← h0]
    exact ⟨h1, h2, h3, h4⟩

theorem bfsInv_init (g : Graph) (s : ℤ) : BfsInv g s (bfsInit g s) := by
  refine ⟨?_, ?_, ?_, ?_, ?_⟩
  · intro v hvm
    have hv1 : v ∈ [s] := hvm
    rw [List.mem_singleton] at hv1
    rw [hv1]
    exact reachable_refl g s
  · intro v u hvu
    have h1 : initMap g.nodeIds (none : Option ℤ) v = some (some u) := hvu
    rw [initMap_eval] at h1
    split at h1
    · injection h1 with h2; cases h2
    · cases h1
  · intro v hvm hvs
    have hv1 : v ∈ [s] := hvm
    rw [List.mem_singleton] at hv1
    exact absurd hv1 hvs
  · intro v hvm
    exact hvm
  · intro v hvm
    cases hvm

theorem bfsInv_pop (g : Graph) (s : ℤ) (st : BState) (c : ℤ)
    (rest : List ℤ) (hq : st.queue = c :: rest) (h : BfsInv g s st) :
    BfsInv g s
      { st with queue := rest, visitedInOrder := st.visitedInOrder ++ [c] } := by
  obtain ⟨h1, h2, h3, h4, h5⟩ := h
  refine ⟨h1, h2, h3, ?_, ?_⟩
  · intro v hvm
    apply h4
    rw [hq]
    exact List.mem_cons_of_mem c hvm
  · intro v hvm
    rcases List.mem_append.1 hvm with hvm | hvm
    · exact h5 v hvm
    · rw [List.mem_singleton] at hvm
      rw [hvm]
      apply h4
      rw [hq]
      exact List.mem_cons_self c rest

theorem bfsInv_relax (g : Graph) (s cur : ℤ) (st : BState) (ed : GraphEdge)
    (hed : ed ∈ g.getNeighbors cur) (hcur : cur ∈ st.visitedInOrder)
    (h : BfsInv g s st) : BfsInv g s (bfsRelax cur st ed) := by
  obtain ⟨h1, h2, h3, h4, h5⟩ := h
  have hcv : cur ∈ st.visited := h5 cur hcur
  have hreach : Reachable g s ed.target :=
    reachable_step g s cur ed.target (h1 cur hcv) ⟨ed, hed, rfl⟩
  unfold bfsRelax
  split
  · exact ⟨h1, h2, h3, h4, h5⟩
  · rename_i htv
    refine ⟨?_, ?_, ?_, ?_, ?_⟩
    · intro v hvm
      rcases List.mem_cons.1 hvm with hvm | hvm
      · rw [hvm]
        exact hreach
      · exact h1 v hvm
    · intro v u hvu
      dsimp only at hvu
      rw [upd_eval] at hvu
      by_cases hveq : v = ed.target
      · rw [if_pos hveq] at hvu
        injection hvu with h6
        injection h6 with h7
        rw [← h7, hveq]
        exact ⟨⟨ed, hed, rfl⟩, List.mem_cons_of_mem _ hcv⟩
      · rw [if_neg hveq] at hvu
        obtain ⟨ha, hm⟩ := h2 v u hvu
        exact ⟨ha, List.mem_cons_of_mem _ hm⟩
    · intro v hvm hvs
      dsimp only
      rcases List.mem_cons.1 hvm with hvm | hvm
      · refine ⟨cur, ?_⟩
        rw [upd_eval, if_pos hvm]
      · have hvt : v ≠ ed.target := fun hc => htv (hc ▸ hvm)
        obtain ⟨u, hu⟩ := h3 v hvm hvs
        refine ⟨u, ?_⟩
        rw [upd_eval, if_neg hvt]
        exact hu
    · intro v hvm
      rcases List.mem_append.1 hvm with hvm | hvm
      · exact List.mem_cons_of_mem _ (h4 v hvm)
      · rw [List.mem_singleton] at hvm
        rw [hvm]
        exact List.mem_cons_self _ _
    · intro v hvm
      exact List.mem_cons_of_mem _ (h5 v hvm)

theorem dfsReachInv_init (g : Graph) (s : ℤ) : DfsReachInv g s (dfsInit g s) := by
  refine ⟨?_, ?_, ?_⟩
  · rintro v ⟨u, hu⟩
    have h1 : upd (initMap g.nodeIds (none : Option ℤ)) s (some (-1)) v = some (some u) := hu
    rw [upd_eval] at h1
    by_cases hveq : v = s
    · rw [hveq]
      exact reachable_refl g s
    · rw [if_neg hveq, initMap_eval] at h1
      split at h1
      · injection h1 with h2; cases h2
      · cases h1
  · intro v hvm
    have hv1 : v ∈ [s] := hvm
    rw [List.mem_singleton] at hv1
    refine ⟨-1, ?_⟩
    show upd (initMap g.nodeIds (none : Option ℤ)) s (some (-1)) v = some (some (-1))
    rw [upd_eval, if_pos hv1]
  · intro v hvm
    cases hvm

theorem dfsReachInv_pop (g : Graph) (s : ℤ) (st : FState) (c : ℤ)
    (rest : List ℤ) (hq : st.stack = c :: rest) (h : DfsReachInv g s st) :
    DfsReachInv g s
      { st with stack := rest, visitedInOrder := st.visitedInOrder ++ [c] } := by
  obtain ⟨h1, h2, h3⟩ := h
  refine ⟨h1, ?_, ?_⟩
  · intro v hvm
    apply h2
    rw [hq]
    exact List.mem_cons_of_mem c hvm
  · intro v hvm
    rcases List.mem_append.1 hvm with hvm | hvm
    · exact h3 v hvm
    · rw [List.mem_singleton] at hvm
      rw [hvm]
      apply h2
      rw [hq]
      exact List.mem_cons_self c rest

theorem dfsReachInv_relax (g : Graph) (s cur : ℤ) (st : FState) (ed : GraphEdge)
    (hed : ed ∈ g.getNeighbors cur) (hcur : cur ∈ st.visitedInOrder)
    (h : DfsReachInv g s st) : DfsReachInv g s (dfsRelax cur st ed) := by
  obtain ⟨h1, h2, h3⟩ := h
  have hreach : Reachable g s ed.target :=
    reachable_step g s cur ed.target (h1 cur (h3 cur hcur)) ⟨ed, hed, rfl⟩
  unfold dfsRelax
  split
  · rename_i hmt
    refine ⟨?_, ?_, ?_⟩
    · rintro v ⟨u, hu⟩
      dsimp only at hu
      rw [upd_eval] at hu
      by_cases hveq : v = ed.target
      · rw [hveq]
        exact hreach
      · rw [if_neg hveq] at hu
        exact h1 v ⟨u, hu⟩
    · intro v hvm
      dsimp only at hvm ⊢
      rcases List.mem_cons.1 hvm with hvm | hvm
      · refine ⟨cur, ?_⟩
        show upd st.prev ed.target (some cur) v = some (some cur)
        rw [upd_eval, if_pos hvm]
      · obtain ⟨u, hu⟩ := h2 v hvm
        have hvt : v ≠ ed.target := by
          intro hc
          rw [hc, hmt] at hu
          cases hu
        refine ⟨u, ?_⟩
        show upd st.prev ed.target (some cur) v = some (some u)
        rw [upd_eval, if_neg hvt]
        exact hu
    · intro v hvm
      dsimp only at hvm ⊢
      obtain ⟨u, hu⟩ := h3 v hvm
      have hvt : v ≠ ed.target := by
        intro hc
        rw [hc, hmt] at hu
        cases hu
      refine ⟨u, ?_⟩
      show upd st.prev ed.target (some cur) v = some (some u)
      rw [upd_eval, if_neg hvt]
      exact hu
  · exact ⟨h1, h2, h3⟩

theorem dfsInv_init (g : Graph) (s : ℤ) (hs : s ≠ -1) (hneg : (-1 : ℤ) ∉ g.nodeIds) :
    DfsInv g s (dfsInit g s) := by
  refine ⟨?_, ?_, ?_, ?_, ?_⟩
  · rintro v ⟨u, hu⟩
    have h1 : upd (initMap g.nodeIds (none : Option ℤ)) s (some (-1)) v = some (some u) := hu
    rw [upd_eval] at h1
    by_cases hveq : v = s
    · rw [hveq]
      exact reachable_refl g s
    · rw [if_neg hveq, initMap_eval] at h1
      split at h1
      · injection h1 with h2; cases h2
      · cases h1
  · intro v u hvu
    have h1 : upd (initMap g.nodeIds (none : Option ℤ)) s (some (-1)) v = some (some u) := hvu
    rw [upd_eval] at h1
    by_cases hveq : v = s
    · rw [if_pos hveq] at h1
      injection h1 with h2
      injection h2 with h3
      left
      exact ⟨hveq, h3.symm⟩
    · rw [if_neg hveq, initMap_eval] at h1
      split at h1
      · injection h1 with h2; cases h2
      · cases h1
  · intro v hvm
    have hv1 : v ∈ [s] := hvm
    rw [List.mem_singleton] at hv1
    refine ⟨-1, ?_⟩
    show upd (initMap g.nodeIds (none : Option ℤ)) s (some (-1)) v = some (some (-1))
    rw [upd_eval, if_pos hv1]
  · intro v hvm
    cases hvm
  · show upd (initMap g.nodeIds (none : Option ℤ)) s (some (-1)) (-1) = none
    rw [upd_eval, if_neg (fun hc => hs hc.symm), initMap_eval, if_neg hneg]

theorem dfsInv_pop (g : Graph) (s : ℤ) (st : FState) (c : ℤ)
    (rest : List ℤ) (hq : st.stack = c :: rest) (h : DfsInv g s st) :
    DfsInv g s
      { st with stack := rest, visitedInOrder := st.visitedInOrder ++ [c] } := by
  obtain ⟨h1, h2, h3, h4, h5⟩ := h
  refine ⟨h1, h2, ?_, ?_, h5⟩
  · intro v hvm
    apply h3
    rw [hq]
    exact List.mem_cons_of_mem c hvm
  · intro v hvm
    rcases List.mem_append.1 hvm with hvm | hvm
    · exact h4 v hvm
    · rw [List.mem_singleton] at hvm
      rw [hvm]
      apply h3
      rw [hq]
      exact List.mem_cons_self c rest

theorem dfsInv_relax (g : Graph) (s cur : ℤ) (st : FState) (ed : GraphEdge)
    (hed : ed ∈ g.getNeighbors cur) (hcur : cur ∈ st.visitedInOrder)
    (h : DfsInv g s st) : DfsInv g s (dfsRelax cur st ed) := by
  obtain ⟨h1, h2, h3, h4, h5⟩ := h
  obtain ⟨u0, hu0⟩ := h4 cur hcur
  have hreach : Reachable g s ed.target :=
    reachable_step g s cur ed.target (h1 cur ⟨u0, hu0⟩) ⟨ed, hed, rfl⟩
  have hcur1 : cur ≠ -1 := by
    intro hc
    rw [hc, h5] at hu0
    cases hu0
  unfold dfsRelax
  split
  · rename_i hmt
    have ht1 : ed.target ≠ -1 := by
      intro hc
      rw [hc, h5] at hmt
      cases hmt
    have hct : cur ≠ ed.target := by
      intro hc
      rw [hc, hmt] at hu0
      cases hu0
    refine ⟨?_, ?_, ?_, ?_, ?_⟩
    · rintro v ⟨u, hu⟩
      dsimp only at hu
      rw [upd_eval] at hu
      by_cases hveq : v = ed.target
      · rw [hveq]
        exact hreach
      · rw [if_neg hveq] at hu
        exact h1 v ⟨u, hu⟩
    · intro v u hvu
      dsimp only at hvu
      rw [upd_eval] at hvu
      by_cases hveq : v = ed.target
      · rw [if_pos hveq] at hvu
        injection hvu with h6
        injection h6 with h7
        right
        refine ⟨h7 ▸ hcur1, ?_, ?_⟩
        · rw [hveq, ← h7]
          exact ⟨ed, hed, rfl⟩
        · refine ⟨u0, ?_⟩
          show upd st.prev ed.target (some cur) u = some (some u0)
          rw [upd_eval, if_neg (h7 ▸ hct), ← h7]
          exact hu0
      · rw [if_neg hveq] at hvu
        rcases h2 v u hvu with hl | ⟨hu1, hadj, w, hw⟩
        · left
          exact hl
        · right
          have hut : u ≠ ed.target := by
            intro hc
            rw [hc, hmt] at hw
            cases hw
          refine ⟨hu1, hadj, w, ?_⟩
          show upd st.prev ed.target (some cur) u = some (some w)
          rw [upd_eval, if_neg hut]
          exact hw
    · intro v hvm
      dsimp only at hvm ⊢
      rcases List.mem_cons.1 hvm with hvm | hvm
      · refine ⟨cur, ?_⟩
        show upd st.prev ed.target (some cur) v = some (some cur)
        rw [upd_eval, if_pos hvm]
      · obtain ⟨u, hu⟩ := h3 v hvm
        have hvt : v ≠ ed.target := by
          intro hc
          rw [hc, hmt] at hu
          cases hu
        refine ⟨u, ?_⟩
        show upd st.prev ed.target (some cur) v = some (some u)
        rw [upd_eval, if_neg hvt]
        exact hu
    · intro v hvm
      dsimp only at hvm ⊢
      obtain ⟨u, hu⟩ := h4 v hvm
      have hvt : v ≠ ed.target := by
        intro hc
        rw [hc, hmt] at hu
        cases hu
      refine ⟨u, ?_⟩
      show upd st.prev ed.target (some cur) v = some (some u)
      rw [upd_eval, if_neg hvt]
      exact hu
    · show upd st.prev ed.target (some cur) (-1) = none
      rw [upd_eval, if_neg (fun hc => ht1 hc.symm)]
      exact h5
  · exact ⟨h1, h2, h3, h4, h5⟩

theorem bfsLoop_found (g : Graph) (endN : ℤ) :
    ∀ (fuel : ℕ) (st st' : BState), bfsLoop g endN fuel st = some (st', true) →
      endN ∈ st'.visitedInOrder := by
  intro fuel
  induction fuel with
  | zero =>
    intro st st' h
    cases hst : st.queue with
    | nil =>
      rw [bfsLoop_nil g endN 0 st hst] at h
      injection h with h1
      injection h1 with _ h2
      cases h2
    | cons c cs =>
      rw [bfsLoop_zero_cons g endN st c cs hst] at h
      cases h
  | succ f ih =>
    intro st st' h
    cases hst : st.queue with
    | nil =>
      rw [bfsLoop_nil g endN (f + 1) st hst] at h
      injection h with h1
      injection h1 with _ h2
      cases h2
    | cons c cs =>
      by_cases hce : c = endN
      · rw [bfsLoop_cons_found g endN f st c cs hst hce] at h
        injection h with h1
        injection h1 with h2 _
        rw [← h2]
        rw [← hce]
        exact List.mem_append.2 (Or.inr (List.mem_singleton.2 rfl))
      · rw [bfsLoop_cons_step g endN f st c cs hst hce] at h
        exact ih _ st' h

theorem dfsLoop_found (g : Graph) (endN : ℤ) :
    ∀ (fuel : ℕ) (st st' : FState), dfsLoop g endN fuel st = some (st', true) →
      endN ∈ st'.visitedInOrder := by
  intro fuel
  induction fuel with
  | zero =>
    intro st st' h
    cases hst : st.stack with
    | nil =>
      rw [dfsLoop_nil g endN 0 st hst] at h
      injection h with h1
      injection h1 with _ h2
      cases h2
    | cons c cs =>
      rw [dfsLoop_zero_cons g endN st c cs hst] at h
      cases h
  | succ f ih =>
    intro st st' h
    cases hst : st.stack with
    | nil =>
      rw [dfsLoop_nil g endN (f + 1) st hst] at h
      injection h with h1
      injection h1 with _ h2
      cases h2
    | cons c cs =>
      by_cases hce : c = endN
      · rw [dfsLoop_cons_found g endN f st c cs hst hce] at h
        injection h with h1
        injection h1 with h2 _
        rw [← h2]
        rw [← hce]
        exact List.mem_append.2 (Or.inr (List.mem_singleton.2 rfl))
      · rw [dfsLoop_cons_step g endN f st c cs hst hce] at h
        exact ih _ st' h

theorem bfs_prev_chain (g : Graph) (s : ℤ) (st : BState) (hinv : BfsInv g s st) :
    ∀ (q : List ℤ) (z h0 : ℤ), q.head? = some h0 → h0 ∈ st.visited →
      List.Chain' (fun a b => st.prev a = some (some b)) q →
      q.getLast? = some z → st.prev z = some none →
      List.Chain' (fun a b => Adjacent g b a) q ∧ z = s := by
  obtain ⟨h1, h2, h3, h4, h5⟩ := hinv
  intro q
  induction q with
  | nil => intro z h0 hh _ _ _ _; cases hh
  | cons a rest ih =>
    intro z h0 hh hmem hch hl hz
    have ha0 : a = h0 := by
      have : some a = some h0 := hh
      injection this
    cases rest with
    | nil =>
      have haz : a = z := by
        have : some a = some z := hl
        injection this
      refine ⟨List.chain'_singleton a, ?_⟩
      by_cases has : z = s
      · exact has
      · obtain ⟨u, hu⟩ := h3 z (haz ▸ ha0 ▸ hmem) has
        rw [hz] at hu
        injection hu with h6
        cases h6
    | cons b rest2 =>
      have hab : st.prev a = some (some b) := (List.chain'_cons.1 hch).1
      have hch2 : List.Chain' (fun x y => st.prev x = some (some y)) (b :: rest2) :=
        (List.chain'_cons.1 hch).2
      have hl2 : (b :: rest2).getLast? = some z := by
        rw [List.getLast?_cons_cons] at hl
        exact hl
      obtain ⟨hadj, hbv⟩ := h2 a b hab
      obtain ⟨hchr, hzs⟩ := ih z b rfl hbv hch2 hl2 hz
      exact ⟨List.chain'_cons.2 ⟨hadj, hchr⟩, hzs⟩

theorem dfs_prev_chain (g : Graph) (s : ℤ) (st : FState) (hinv : DfsInv g s st) :
    ∀ (q : List ℤ) (z h0 : ℤ), q.head? = some h0 → DfsClaimed st h0 →
      List.Chain' (fun a b => st.prev a = some (some b)) q →
      q.getLast? = some z →
      (st.prev z = some none ∨ st.prev z = some (some (-1))) →
      List.Chain' (fun a b => Adjacent g b a) q ∧ z = s := by
  obtain ⟨h1, h2, h3, h4, h5⟩ := hinv
  intro q
  induction q with
  | nil => intro z h0 hh _ _ _ _; cases hh
  | cons a rest ih =>
    intro z h0 hh hcl hch hl hz
    have ha0 : a = h0 := by
      have : some a = some h0 := hh
      injection this
    cases rest with
    | nil =>
      have haz : a = z := by
        have : some a = some z := hl
        injection this
      refine ⟨List.chain'_singleton a, ?_⟩
      obtain ⟨u, hu⟩ := ha0 ▸ hcl
      rcases hz with hz | hz
      · rw [haz, hz] at hu
        injection hu with h6
        cases h6
      · rcases h2 z (-1) hz with ⟨hzs, _⟩ | ⟨hn1, _, _⟩
        · exact hzs
        · exact absurd rfl hn1
    | cons b rest2 =>
      have hab : st.prev a = some (some b) := (List.chain'_cons.1 hch).1
      have hch2 : List.Chain' (fun x y => st.prev x = some (some y)) (b :: rest2) :=
        (List.chain'_cons.1 hch).2
      have hl2 : (b :: rest2).getLast? = some z := by
        rw [List.getLast?_cons_cons] at hl
        exact hl
      rcases h2 a b hab with ⟨_, hb1⟩ | ⟨_, hadj, hbcl⟩
      · exfalso
        have hbn : st.prev b = none := hb1 ▸ h5
        cases rest2 with
        | nil =>
          have hbz : b = z := by
            have : some b = some z := hl2
            injection this
          rcases hz with hz | hz
          · rw [hbz, hz] at hbn
            cases hbn
          · rw [hbz, hz] at hbn
            cases hbn
        | cons c2 rest3 =>
          have hbc : st.prev b = some (some c2) := (List.chain'_cons.1 hch2).1
          rw [hbn] at hbc
          cases hbc
      · obtain ⟨hchr, hzs⟩ := ih z b rfl hbcl hch2 hl2 hz
        exact ⟨List.chain'_cons.2 ⟨hadj, hchr⟩, hzs⟩

/-! ## Claim C9: unreachable end nodes -/

theorem dijkstra_unreachable (g : Graph) (s e : ℤ) (fuel : ℕ) (r : AlgorithmResult)
    (hnr : ¬ Reachable g s e) (h : dijkstraRun g s e fuel = some r) :
    r.path = [] ∧ e ∉ r.visitedInOrder := by
  obtain ⟨st, hl, hvio, hprev, p, hw, hcase⟩ := dijkstraRun_spec g s e fuel r h
  have hinv : DijkstraInv g s st :=
    dijkstraLoop_preserves g e (DijkstraInv g s)
      (fun st c rest hq hp => dijkstraInv_pop g s st c rest hq hp)
      (fun cur st ed hed hc hp => dijkstraInv_relax g s cur st ed hed hc hp)
      fuel _ st (dijkstraInv_init g s) hl
  obtain ⟨h1, h2, h3, h4⟩ := hinv
  constructor
  · rcases hcase with ⟨hlast, _⟩ | ⟨_, hpath⟩
    · exfalso
      obtain ⟨q, hpq, hhead, hch, z, hzl, hzn⟩ := walkPrev_spec st.prev fuel e [] p hw
      rw [List.nil_append] at hpq
      rw [hpq] at hlast
      have hzs : z = s := by
        rw [hzl] at hlast
        injection hlast
      have hchAdj : List.Chain' (fun a b => Adjacent g b a) q :=
        List.Chain'.imp (fun a b hab => (h3 a b hab).1) hch
      exact hnr (reachable_of_revchain g s e q hhead (hzs ▸ hzl) hchAdj)
    · exact hpath
  · intro hmem
    rw [hvio] at hmem
    exact hnr (h2 e hmem)

theorem aStar_unreachable (g : Graph) (hv : ℚ → ℚ → ℚ → ℚ → ℚ) (s e : ℤ) (fuel : ℕ)
    (r : AlgorithmResult) (hnr : ¬ Reachable g s e) (h : aStarRun hv g s e fuel = some r) :
    r.path = [] ∧ e ∉ r.visitedInOrder := by
  rcases aStarRun_spec hv g s e fuel r h with ⟨_, hpath, hvio⟩ |
    ⟨endData, startData, st, _, _, hl, hvio, hprev, p, hw, hcase⟩
  · refine ⟨hpath, ?_⟩
    rw [hvio]
    exact List.not_mem_nil e
  · have hinv : AStarInv g s st :=
      aStarLoop_preserves g hv endData e (AStarInv g s)
        (fun st c rest hq hp => aStarInv_pop g s st c rest hq hp)
        (fun cur st st' ed hed hc hp hr => aStarInv_relax g hv endData s cur st st' ed hed hc hp hr)
        fuel _ st (aStarInv_init g s _) hl
    obtain ⟨h1, h2, h3, h4⟩ := hinv
    constructor
    · rcases hcase with ⟨hlast, _⟩ | ⟨_, hpath⟩
      · exfalso
        obtain ⟨q, hpq, hhead, hch, z, hzl, hzn⟩ := walkPrev_spec st.prev fuel e [] p hw
        rw [List.nil_append] at hpq
        rw [hpq] at hlast
        have hzs : z = s := by
          rw [hzl] at hlast
          injection hlast
        have hchAdj : List.Chain' (fun a b => Adjacent g b a) q :=
          List.Chain'.imp (fun a b hab => (h3 a b hab).1) hch
        exact hnr (reachable_of_revchain g s e q hhead (hzs ▸ hzl) hchAdj)
      · exact hpath
    · intro hmem
      rw [hvio] at hmem
      exact hnr (h2 e hmem)

theorem gbfs_unreachable (g : Graph) (hv : ℚ → ℚ → ℚ → ℚ → ℚ) (s e : ℤ) (fuel : ℕ)
    (r : AlgorithmResult) (hnr : ¬ Reachable g s e) (h : gbfsRun hv g s e fuel = some r) :
    r.path = [] ∧ e ∉ r.visitedInOrder := by
  rcases gbfsRun_spec hv g s e fuel r h with ⟨_, hpath, hvio⟩ |
    ⟨endData, startData, st, _, _, hl, hvio, hprev, p, hw, hcase⟩
  · refine ⟨hpath, ?_⟩
    rw [hvio]
    exact List.not_mem_nil e
  · have hinv : GbfsInv g s st :=
      gbfsLoop_preserves g hv endData e (GbfsInv g s)
        (fun st c rest hq hp => gbfsInv_pop g s st c rest hq hp)
        (fun cur st st' ed hed hc hp hr => gbfsInv_relax g hv endData s cur st st' ed hed hc hp hr)
        fuel _ st (gbfsInv_init g s _) hl
    obtain ⟨h1, h2, h3, h4⟩ := hinv
    constructor
    · rcases hcase with ⟨hlast, _⟩ | ⟨_, hpath⟩
      · exfalso
        obtain ⟨q, hpq, hhead, hch, z, hzl, hzn⟩ := gbfsWalk_spec st.prev s fuel e [] p hw
        rw [List.nil_append] at hpq
        rw [hpq] at hlast
        have hzs : z = s := by
          rw [hzl] at hlast
          injection hlast
        have hchAdj : List.Chain' (fun a b => Adjacent g b a) q :=
          List.Chain'.imp (fun a b hab => ((h3 a b hab.1).resolve_left hab.2).1) hch
        exact hnr (reachable_of_revchain g s e q hhead (hzs ▸ hzl) hchAdj)
      · exact hpath
    · intro hmem
      rw [hvio] at hmem
      exact hnr (h2 e hmem)

theorem bfs_unreachable (g : Graph) (s e : ℤ) (fuel : ℕ) (r : AlgorithmResult)
    (hnr : ¬ Reachable g s e) (h : bfsRun g s e fuel = some r) :
    r.path = [] ∧ e ∉ r.visitedInOrder := by
  obtain ⟨st, found, hl, hvio, hprev, hcase⟩ := bfsRun_spec g s e fuel r h
  have hinv : BfsInv g s st :=
    bfsLoop_preserves g e (BfsInv g s)
      (fun st c rest hq hp => bfsInv_pop g s st c rest hq hp)
      (fun cur st ed hed hc hp => bfsInv_relax g s cur st ed hed hc hp)
      fuel _ st found (bfsInv_init g s) hl
  obtain ⟨h1, h2, h3, h4, h5⟩ := hinv
  constructor
  · rcases hcase with ⟨_, hpath⟩ | ⟨hfound, _⟩
    · exact hpath
    · exfalso
      have hmem : e ∈ st.visitedInOrder := bfsLoop_found g e fuel _ st (hfound ▸ hl)
      exact hnr (h1 e (h5 e hmem))
  · intro hmem
    rw [hvio] at hmem
    exact hnr (h1 e (h5 e hmem))

theorem dfs_unreachable (g : Graph) (s e : ℤ) (fuel : ℕ) (r : AlgorithmResult)
    (hnr : ¬ Reachable g s e) (h : dfsRun g s e fuel = some r) :
    r.path = [] ∧ e ∉ r.visitedInOrder := by
  obtain ⟨st, found, hl, hvio, hprev, hcase⟩ := dfsRun_spec g s e fuel r h
  have hinv : DfsReachInv g s st :=
    dfsLoop_preserves g e (DfsReachInv g s)
      (fun st c rest hq hp => dfsReachInv_pop g s st c rest hq hp)
      (fun cur st ed hed hc hp => dfsReachInv_relax g s cur st ed hed hc hp)
      fuel _ st found (dfsReachInv_init g s) hl
  obtain ⟨h1, h2, h3⟩ := hinv
  constructor
  · rcases hcase with ⟨_, hpath⟩ | ⟨hfound, _⟩
    · exact hpath
    · exfalso
      have hmem : e ∈ st.visitedInOrder := dfsLoop_found g e fuel _ st (hfound ▸ hl)
      exact hnr (h1 e (h3 e hmem))
  · intro hmem
    rw [hvio] at hmem
    exact hnr (h1 e (h3 e hmem))

/-- Claim C9: for every graph and every pair of listed node ids `s`, `e` with
no path from `s` to `e` along stored edges, every one of the five algorithms
that returns a result returns an empty `path`, and `e` never appears in the
returned `visitedInOrder`. -/
theorem c9_unreachable_pairs (g : Graph) (hv : ℚ → ℚ → ℚ → ℚ → ℚ) (s e : ℤ) (fuel : ℕ)
    (hs : s ∈ g.nodeIds) (he : e ∈ g.nodeIds) (hnr : ¬ Reachable g s e) :
    (∀ r, dijkstraRun g s e fuel = some r → r.path = [] ∧ e ∉ r.visitedInOrder) ∧
    (∀ r, aStarRun hv g s e fuel = some r → r.path = [] ∧ e ∉ r.visitedInOrder) ∧
    (∀ r, gbfsRun hv g s e fuel = some r → r.path = [] ∧ e ∉ r.visitedInOrder) ∧
    (∀ r, bfsRun g s e fuel = some r → r.path = [] ∧ e ∉ r.visitedInOrder) ∧
    (∀ r, dfsRun g s e fuel = some r → r.path = [] ∧ e ∉ r.visitedInOrder) :=
  ⟨fun r hr => dijkstra_unreachable g s e fuel r hnr hr,
   fun r hr => aStar_unreachable g hv s e fuel r hnr hr,
   fun r hr => gbfs_unreachable g hv s e fuel r hnr hr,
   fun r hr => bfs_unreachable g s e fuel r hnr hr,
   fun r hr => dfs_unreachable g s e fuel r hnr hr⟩

theorem c9_unreachable_pairs_witness :
    (∀ r, dijkstraRun exGraphTwo 1 2 9 = some r → r.path = [] ∧ (2 : ℤ) ∉ r.visitedInOrder) ∧
    (∀ r, aStarRun (fun _ _ _ _ => 0) exGraphTwo 1 2 9 = some r →
      r.path = [] ∧ (2 : ℤ) ∉ r.visitedInOrder) ∧
    (∀ r, gbfsRun (fun _ _ _ _ => 0) exGraphTwo 1 2 9 = some r →
      r.path = [] ∧ (2 : ℤ) ∉ r.visitedInOrder) ∧
    (∀ r, bfsRun exGraphTwo 1 2 9 = some r → r.path = [] ∧ (2 : ℤ) ∉ r.visitedInOrder) ∧
    (∀ r, dfsRun exGraphTwo 1 2 9 = some r → r.path = [] ∧ (2 : ℤ) ∉ r.visitedInOrder) :=
  c9_unreachable_pairs exGraphTwo (fun _ _ _ _ => 0) 1 2 9
    (by with_unfolding_all decide) (by with_unfolding_all decide) exGraphTwo_not_reachable

/-! ## Claim C10: returned non-empty paths are valid start-to-end edge walks -/

theorem dijkstra_path_valid (g : Graph) (s e : ℤ) (fuel : ℕ) (r : AlgorithmResult)
    (h : dijkstraRun g s e fuel = some r) (hne : r.path ≠ []) :
    r.path.head? = some s ∧ r.path.getLast? = some e ∧
      List.Chain' (Adjacent g) r.path := by
  obtain ⟨st, hl, hvio, hprev, p, hw, hcase⟩ := dijkstraRun_spec g s e fuel r h
  have hinv : DijkstraInv g s st :=
    dijkstraLoop_preserves g e (DijkstraInv g s)
      (fun st c rest hq hp => dijkstraInv_pop g s st c rest hq hp)
      (fun cur st ed hed hc hp => dijkstraInv_relax g s cur st ed hed hc hp)
      fuel _ st (dijkstraInv_init g s) hl
  obtain ⟨h1, h2, h3, h4⟩ := hinv
  rcases hcase with ⟨hlast, hpath⟩ | ⟨_, hpath⟩
  · obtain ⟨q, hpq, hhead, hch, z, hzl, hzn⟩ := walkPrev_spec st.prev fuel e [] p hw
    rw [List.nil_append] at hpq
    have hchAdj : List.Chain' (fun a b => Adjacent g b a) q :=
      List.Chain'.imp (fun a b hab => (h3 a b hab).1) hch
    refine ⟨?_, ?_, ?_⟩
    · rw [hpath, List.head?_reverse, hpq]
      rw [hpq] at hlast
      exact hlast
    · rw [hpath, List.getLast?_reverse, hpq]
      exact hhead
    · rw [hpath, hpq]
      exact List.chain'_reverse.2 hchAdj
  · exact absurd hpath hne

theorem aStar_path_valid (g : Graph) (hv : ℚ → ℚ → ℚ → ℚ → ℚ) (s e : ℤ) (fuel : ℕ)
    (r : AlgorithmResult) (h : aStarRun hv g s e fuel = some r) (hne : r.path ≠ []) :
    r.path.head? = some s ∧ r.path.getLast? = some e ∧
      List.Chain' (Adjacent g) r.path := by
  rcases aStarRun_spec hv g s e fuel r h with ⟨_, hpath, _⟩ |
    ⟨endData, startData, st, _, _, hl, hvio, hprev, p, hw, hcase⟩
  · exact absurd hpath hne
  · have hinv : AStarInv g s st :=
      aStarLoop_preserves g hv endData e (AStarInv g s)
        (fun st c rest hq hp => aStarInv_pop g s st c rest hq hp)
        (fun cur st st' ed hed hc hp hr => aStarInv_relax g hv endData s cur st st' ed hed hc hp hr)
        fuel _ st (aStarInv_init g s _) hl
    obtain ⟨h1, h2, h3, h4⟩ := hinv
    rcases hcase with ⟨hlast, hpath⟩ | ⟨_, hpath⟩
    · obtain ⟨q, hpq, hhead, hch, z, hzl, hzn⟩ := walkPrev_spec st.prev fuel e [] p hw
      rw [List.nil_append] at hpq
      have hchAdj : List.Chain' (fun a b => Adjacent g b a) q :=
        List.Chain'.imp (fun a b hab => (h3 a b hab).1) hch
      refine ⟨?_, ?_, ?_⟩
      · rw [hpath, List.head?_reverse, hpq]
        rw [hpq] at hlast
        exact hlast
      · rw [hpath, List.getLast?_reverse, hpq]
        exact hhead
      · rw [hpath, hpq]
        exact List.chain'_reverse.2 hchAdj
    · exact absurd hpath hne

theorem gbfs_path_valid (g : Graph) (hv : ℚ → ℚ → ℚ → ℚ → ℚ) (s e : ℤ) (fuel : ℕ)
    (r : AlgorithmResult) (h : gbfsRun hv g s e fuel = some r) (hne : r.path ≠ []) :
    r.path.head? = some s ∧ r.path.getLast? = some e ∧
      List.Chain' (Adjacent g) r.path := by
  rcases gbfsRun_spec hv g s e fuel r h with ⟨_, hpath, _⟩ |
    ⟨endData, startData, st, _, _, hl, hvio, hprev, p, hw, hcase⟩
  · exact absurd hpath hne
  · have hinv : GbfsInv g s st :=
      gbfsLoop_preserves g hv endData e (GbfsInv g s)
        (fun st c rest hq hp => gbfsInv_pop g s st c rest hq hp)
        (fun cur st st' ed hed hc hp hr => gbfsInv_relax g hv endData s cur st st' ed hed hc hp hr)
        fuel _ st (gbfsInv_init g s _) hl
    obtain ⟨h1, h2, h3, h4⟩ := hinv
    rcases hcase with ⟨hlast, hpath⟩ | ⟨_, hpath⟩
    · obtain ⟨q, hpq, hhead, hch, z, hzl, hzn⟩ := gbfsWalk_spec st.prev s fuel e [] p hw
      rw [List.nil_append] at hpq
      have hchAdj : List.Chain' (fun a b => Adjacent g b a) q :=
        List.Chain'.imp (fun a b hab => ((h3 a b hab.1).resolve_left hab.2).1) hch
      refine ⟨?_, ?_, ?_⟩
      · rw [hpath, List.head?_reverse, hpq]
        rw [hpq] at hlast
        exact hlast
      · rw [hpath, List.getLast?_reverse, hpq]
        exact hhead
      · rw [hpath, hpq]
        exact List.chain'_reverse.2 hchAdj
    · exact absurd hpath hne

theorem bfs_path_valid (g : Graph) (s e : ℤ) (fuel : ℕ) (r : AlgorithmResult)
    (h : bfsRun g s e fuel = some r) (hne : r.path ≠ []) :
    r.path.head? = some s ∧ r.path.getLast? = some e ∧
      List.Chain' (Adjacent g) r.path := by
  obtain ⟨st, found, hl, hvio, hprev, hcase⟩ := bfsRun_spec g s e fuel r h
  have hinv : BfsInv g s st :=
    bfsLoop_preserves g e (BfsInv g s)
      (fun st c rest hq hp => bfsInv_pop g s st c rest hq hp)
      (fun cur st ed hed hc hp => bfsInv_relax g s cur st ed hed hc hp)
      fuel _ st found (bfsInv_init g s) hl
  rcases hcase with ⟨_, hpath⟩ | ⟨hfound, p, hw, hpath⟩
  · exact absurd hpath hne
  · have hmem : e ∈ st.visitedInOrder := bfsLoop_found g e fuel _ st (hfound ▸ hl)
    have hev : e ∈ st.visited := hinv.2.2.2.2 e hmem
    obtain ⟨q, hpq, hhead, hch, z, hzl, hzn⟩ := walkPrev_spec st.prev fuel e [] p hw
    rw [List.nil_append] at hpq
    obtain ⟨hchAdj, hzs⟩ := bfs_prev_chain g s st hinv q z e hhead hev hch hzl hzn
    refine ⟨?_, ?_, ?_⟩
    · rw [hpath, List.head?_reverse, hpq, hzl, hzs]
    · rw [hpath, List.getLast?_reverse, hpq]
      exact hhead
    · rw [hpath, hpq]
      exact List.chain'_reverse.2 hchAdj

theorem dfs_path_valid (g : Graph) (s e : ℤ) (fuel : ℕ) (r : AlgorithmResult)
    (hs1 : s ≠ -1) (hneg : (-1 : ℤ) ∉ g.nodeIds)
    (h : dfsRun g s e fuel = some r) (hne : r.path ≠ []) :
    r.path.head? = some s ∧ r.path.getLast? = some e ∧
      List.Chain' (Adjacent g) r.path := by
  obtain ⟨st, found, hl, hvio, hprev, hcase⟩ := dfsRun_spec g s e fuel r h
  have hinv : DfsInv g s st :=
    dfsLoop_preserves g e (DfsInv g s)
      (fun st c rest hq hp => dfsInv_pop g s st c rest hq hp)
      (fun cur st ed hed hc hp => dfsInv_relax g s cur st ed hed hc hp)
      fuel _ st found (dfsInv_init g s hs1 hneg) hl
  rcases hcase with ⟨_, hpath⟩ | ⟨hfound, p, hw, hpath⟩
  · exact absurd hpath hne
  · have hmem : e ∈ st.visitedInOrder := dfsLoop_found g e fuel _ st (hfound ▸ hl)
    have hecl : DfsClaimed st e := hinv.2.2.2.1 e hmem
    rcases dfsWalk_spec st.prev fuel e [] p hw with ⟨_, hpnil⟩ |
      ⟨q, hpq, hhead, hch, z, hzl, hz⟩
    · exfalso
      apply hne
      rw [hpath, hpnil]
      rfl
    · rw [List.nil_append] at hpq
      obtain ⟨hchAdj, hzs⟩ := dfs_prev_chain g s st hinv q z e hhead hecl hch hzl hz
      refine ⟨?_, ?_, ?_⟩
      · rw [hpath, List.head?_reverse, hpq, hzl, hzs]
      · rw [hpath, List.getLast?_reverse, hpq]
        exact hhead
      · rw [hpath, hpq]
        exact List.chain'_reverse.2 hchAdj

/-- Claim C10 (amended).  For listed node ids `s`, `e`, whenever dijkstra,
aStar, greedyBestFirstSearch or breadthFirstSearch returns a non-empty path,
the path starts at `s`, ends at `e`, and each consecutive pair is joined by a
stored edge.  For depthFirstSearch the same holds provided the id `-1` — which
collides with the reconstruction sentinel `prev[start] = -1` — is neither the
start node nor a listed node id. -/
theorem c10_path_validity (g : Graph) (hv : ℚ → ℚ → ℚ → ℚ → ℚ) (s e : ℤ) (fuel : ℕ)
    (hs : s ∈ g.nodeIds) (he : e ∈ g.nodeIds) :
    (∀ r, dijkstraRun g s e fuel = some r → r.path ≠ [] →
      r.path.head? = some s ∧ r.path.getLast? = some e ∧ List.Chain' (Adjacent g) r.path) ∧
    (∀ r, aStarRun hv g s e fuel = some r → r.path ≠ [] →
      r.path.head? = some s ∧ r.path.getLast? = some e ∧ List.Chain' (Adjacent g) r.path) ∧
    (∀ r, gbfsRun hv g s e fuel = some r → r.path ≠ [] →
      r.path.head? = some s ∧ r.path.getLast? = some e ∧ List.Chain' (Adjacent g) r.path) ∧
    (∀ r, bfsRun g s e fuel = some r → r.path ≠ [] →
      r.path.head? = some s ∧ r.path.getLast? = some e ∧ List.Chain' (Adjacent g) r.path) ∧
    (s ≠ -1 → (-1 : ℤ) ∉ g.nodeIds → ∀ r, dfsRun g s e fuel = some r → r.path ≠ [] →
      r.path.head? = some s ∧ r.path.getLast? = some e ∧ List.Chain' (Adjacent g) r.path) :=
  ⟨fun r hr hne => dijkstra_path_valid g s e fuel r hr hne,
   fun r hr hne => aStar_path_valid g hv s e fuel r hr hne,
   fun r hr hne => gbfs_path_valid g hv s e fuel r hr hne,
   fun r hr hne => bfs_path_valid g s e fuel r hr hne,
   fun hs1 hneg r hr hne => dfs_path_valid g s e fuel r hs1 hneg hr hne⟩

theorem c10_path_validity_witness :
    (∀ r, dijkstraRun exGraphFork 1 2 9 = some r → r.path ≠ [] →
      r.path.head? = some 1 ∧ r.path.getLast? = some 2 ∧
        List.Chain' (Adjacent exGraphFork) r.path) ∧
    (∀ r, dfsRun exGraphFork 1 2 9 = some r → r.path ≠ [] →
      r.path.head? = some 1 ∧ r.path.getLast? = some 2 ∧
        List.Chain' (Adjacent exGraphFork) r.path) :=
  ⟨(c10_path_validity exGraphFork (fun _ _ _ _ => 0) 1 2 9
      (by with_unfolding_all decide) (by with_unfolding_all decide)).1,
   (c10_path_validity exGraphFork (fun _ _ _ _ => 0) 1 2 9
      (by with_unfolding_all decide) (by with_unfolding_all decide)).2.2.2.2
      (by decide) (by with_unfolding_all decide)⟩

/-! ## Claim C5: BFS returns a fewest-hop path -/

theorem bfsD_pop (g : Graph) (s endN : ℤ) (st : BState) (D : ℤ → ℕ) (c : ℤ) (rest : List ℤ)
    (hq : st.queue = c :: rest)
    (hcl : BfsDepthClauses s st D)
    (hfr : ∀ v ∈ st.visitedInOrder, v ≠ endN →
      ∀ ed ∈ g.getNeighbors v, ed.target ∈ st.visited ∧ D ed.target ≤ D v + 1) :
    BfsDepthClauses s
      { st with queue := rest, visitedInOrder := st.visitedInOrder ++ [c] } D ∧
    BfsFrontierExcept g endN c
      { st with queue := rest, visitedInOrder := st.visitedInOrder ++ [c] } D := by
  obtain ⟨⟨hs1, hs0⟩, hd2, hd3, hd4, hd5, hd6, hd8, hd9, hd10, hd11, hd12⟩ := hcl
  have hcq : c ∈ st.queue := by rw [hq]; exact List.mem_cons_self c rest
  have hrestq : ∀ w ∈ rest, w ∈ st.queue := by
    intro w hw
    rw [hq]
    exact List.mem_cons_of_mem c hw
  have hlast : (st.visitedInOrder ++ [c]).getLast? = some c := List.getLast?_concat _
  have hpw : List.Pairwise (fun a b => D a ≤ D b) (c :: rest) := by rw [← hq]; exact hd8
  have hcrest : ∀ w ∈ rest, D c ≤ D w := (List.pairwise_cons.1 hpw).1
  have hrestpw : List.Pairwise (fun a b => D a ≤ D b) rest := (List.pairwise_cons.1 hpw).2
  have hheadc : st.queue.head? = some c := by rw [hq]; rfl
  constructor
  · refine ⟨⟨hs1, hs0⟩, hd2, ?_, ?_, ?_, hd6, hrestpw, ?_, ?_, ?_, ?_⟩
    · intro v hv
      rcases hd3 v hv with hv2 | hv2
      · left
        exact List.mem_append.2 (Or.inl hv2)
      · rw [hq] at hv2
        rcases List.mem_cons.1 hv2 with hv3 | hv3
        · left
          rw [hv3]
          exact List.mem_append.2 (Or.inr (List.mem_singleton.2 rfl))
        · right
          exact hv3
    · intro v hv
      rcases List.mem_append.1 hv with hv2 | hv2
      · exact hd4 v hv2
      · rw [List.mem_singleton] at hv2
        rw [hv2]
        exact hd5 c hcq
    · intro v hv
      exact hd5 v (hrestq v hv)
    · intro w hw h hh
      have hhm : h ∈ rest := List.mem_of_mem_head? (by simp [hh])
      have h1 : D w ≤ D c + 1 := hd9 w (hrestq w hw) c hheadc
      have h2 : D c ≤ D h := hcrest h hhm
      omega
    · intro v hv w hw
      rcases List.mem_append.1 hv with hv2 | hv2
      · exact hd10 v hv2 w (hrestq w hw)
      · rw [List.mem_singleton] at hv2
        rw [hv2]
        exact hcrest w hw
    · intro l hl w hw
      have hlc : l = c := by
        rw [hlast] at hl
        injection hl with hl2
        exact hl2.symm
      rw [hlc]
      exact hd9 w (hrestq w hw) c hheadc
    · intro v hv l hl
      have hlc : l = c := by
        rw [hlast] at hl
        injection hl with hl2
        exact hl2.symm
      rw [hlc]
      rcases List.mem_append.1 hv with hv2 | hv2
      · exact hd10 v hv2 c hcq
      · rw [List.mem_singleton] at hv2
        rw [hv2]
  · intro v hv hvn hvc ed hed
    rcases List.mem_append.1 hv with hv2 | hv2
    · exact hfr v hv2 hvn ed hed
    · rw [List.mem_singleton] at hv2
      exact absurd hv2 hvc

theorem bfsD_relax_step (g : Graph) (s endN cur : ℤ) (st : BState) (D : ℤ → ℕ) (ed : GraphEdge)
    (hcl : BfsDepthClauses s st D)
    (hfr : BfsFrontierExcept g endN cur st D)
    (hlast : st.visitedInOrder.getLast? = some cur)
    (hcv : cur ∈ st.visited) :
    ∃ D' : ℤ → ℕ,
      BfsDepthClauses s (bfsRelax cur st ed) D' ∧
      BfsFrontierExcept g endN cur (bfsRelax cur st ed) D' ∧
      (∀ x ∈ st.visited, D' x = D x ∧ x ∈ (bfsRelax cur st ed).visited) ∧
      (bfsRelax cur st ed).visitedInOrder = st.visitedInOrder ∧
      ed.target ∈ (bfsRelax cur st ed).visited ∧ D' ed.target ≤ D cur + 1 := by
  obtain ⟨⟨hs1, hs0⟩, hd2, hd3, hd4, hd5, hd6, hd8, hd9, hd10, hd11, hd12⟩ := hcl
  have hcvio : cur ∈ st.visitedInOrder := List.mem_of_mem_getLast? (by simp [hlast])
  unfold bfsRelax
  split
  · rename_i ht
    refine ⟨D, ⟨⟨hs1, hs0⟩, hd2, hd3, hd4, hd5, hd6, hd8, hd9, hd10, hd11, hd12⟩,
      hfr, fun x hx => ⟨rfl, hx⟩, rfl, ht, ?_⟩
    rcases hd3 ed.target ht with hv | hv
    · have := hd12 ed.target hv cur hlast
      omega
    · exact hd11 cur hlast ed.target hv
  · rename_i ht
    have hne : ∀ x ∈ st.visited, ¬ (x = ed.target) := fun x hx hc => ht (hc ▸ hx)
    obtain ⟨D2, hD2t, hD2n⟩ :
        ∃ D2 : ℤ → ℕ, D2 ed.target = D cur + 1 ∧ ∀ x, ¬ (x = ed.target) → D2 x = D x :=
      ⟨fun x => if x = ed.target then D cur + 1 else D x, if_pos rfl, fun x hx => if_neg hx⟩
    refine ⟨D2, ?_, ?_, ?_, rfl, ?_, ?_⟩
    · refine ⟨⟨List.mem_cons_of_mem _ hs1, ?_⟩, ?_, ?_, ?_, ?_, ?_, ?_, ?_, ?_, ?_, ?_⟩
      · rw [hD2n s (hne s hs1)]
        exact hs0
      · dsimp only
        rw [upd_eval, if_neg (hne s hs1)]
        exact hd2
      · intro v hv
        dsimp only at hv ⊢
        rcases List.mem_cons.1 hv with hv2 | hv2
        · right
          rw [hv2]
          exact List.mem_append.2 (Or.inr (List.mem_singleton.2 rfl))
        · rcases hd3 v hv2 with hv3 | hv3
          · left
            exact hv3
          · right
            exact List.mem_append.2 (Or.inl hv3)
      · intro v hv
        exact List.mem_cons_of_mem _ (hd4 v hv)
      · intro v hv
        dsimp only at hv
        rcases List.mem_append.1 hv with hv2 | hv2
        · exact List.mem_cons_of_mem _ (hd5 v hv2)
        · rw [List.mem_singleton] at hv2
          rw [hv2]
          exact List.mem_cons_self _ _
      · intro v hv
        dsimp only at hv ⊢
        rcases List.mem_cons.1 hv with hv2 | hv2
        · right
          refine ⟨cur, ?_, List.mem_cons_of_mem _ hcv, ?_⟩
          · rw [hv2, upd_eval, if_pos rfl]
          · rw [hv2, hD2t, hD2n cur (hne cur hcv)]
        · rcases hd6 v hv2 with hv3 | ⟨u, hu1, hu2, hu3⟩
          · left
            exact hv3
          · right
            refine ⟨u, ?_, List.mem_cons_of_mem _ hu2, ?_⟩
            · rw [upd_eval, if_neg (hne v hv2)]
              exact hu1
            · rw [hD2n v (hne v hv2), hD2n u (hne u hu2)]
              exact hu3
      · dsimp only
        refine List.pairwise_append.2 ⟨?_, List.pairwise_singleton _ _, ?_⟩
        · refine List.Pairwise.imp_of_mem ?_ hd8
          intro a b ha hb hab
          rw [hD2n a (hne a (hd5 a ha)), hD2n b (hne b (hd5 b hb))]
          exact hab
        · intro a ha b hb
          rw [List.mem_singleton] at hb
          rw [hb, hD2t, hD2n a (hne a (hd5 a ha))]
          exact hd11 cur hlast a ha
      · intro w hw h hh
        dsimp only at hw hh
        cases hqc : st.queue with
        | nil =>
          rw [hqc, List.nil_append] at hw hh
          rw [List.mem_singleton] at hw
          have hht : h = ed.target := by
            injection hh with h9
            exact h9.symm
          rw [hw, hht]
          omega
        | cons q0 qrest =>
          rw [hqc] at hw hh
          have hh0 : h = q0 := by
            rw [List.cons_append] at hh
            injection hh with h9
            exact h9.symm
          have hq0 : q0 ∈ st.queue := by
            rw [hqc]
            exact List.mem_cons_self _ _
          rw [hh0, hD2n q0 (hne q0 (hd5 q0 hq0))]
          rcases List.mem_append.1 hw with hw2 | hw2
          · have hw3 : w ∈ st.queue := by
              rw [hqc]
              exact hw2
            rw [hD2n w (hne w (hd5 w hw3))]
            refine hd9 w hw3 q0 ?_
            rw [hqc]
            rfl
          · rw [List.mem_singleton] at hw2
            rw [hw2, hD2t]
            have : D cur ≤ D q0 := hd10 cur hcvio q0 hq0
            omega
      · intro v hv w hw
        dsimp only at hv hw
        rcases List.mem_append.1 hw with hw2 | hw2
        · rw [hD2n v (hne v (hd4 v hv)), hD2n w (hne w (hd5 w hw2))]
          exact hd10 v hv w hw2
        · rw [List.mem_singleton] at hw2
          rw [hw2, hD2t, hD2n v (hne v (hd4 v hv))]
          have := hd12 v hv cur hlast
          omega
      · intro l hl w hw
        dsimp only at hl hw
        have hlc : l = cur := by
          rw [hlast] at hl
          injection hl with hl2
          exact hl2.symm
        rw [hlc, hD2n cur (hne cur hcv)]
        rcases List.mem_append.1 hw with hw2 | hw2
        · rw [hD2n w (hne w (hd5 w hw2))]
          exact hd11 cur hlast w hw2
        · rw [List.mem_singleton] at hw2
          rw [hw2, hD2t]
      · intro v hv l hl
        dsimp only at hv hl
        rw [hD2n v (hne v (hd4 v hv))]
        have hlc : l = cur := by
          rw [hlast] at hl
          injection hl with hl2
          exact hl2.symm
        rw [hlc, hD2n cur (hne cur hcv)]
        exact hd12 v hv cur hlast
    · intro v hv hvn hvc ed2 hed2
      dsimp only at hv ⊢
      obtain ⟨h1, h2⟩ := hfr v hv hvn hvc ed2 hed2
      refine ⟨List.mem_cons_of_mem _ h1, ?_⟩
      rw [hD2n ed2.target (hne ed2.target h1), hD2n v (hne v (hd4 v hv))]
      exact h2
    · intro x hx
      exact ⟨hD2n x (hne x hx), List.mem_cons_of_mem _ hx⟩
    · exact List.mem_cons_self _ _
    · rw [hD2t]

theorem bfsD_relax_fold (g : Graph) (s endN cur : ℤ) :
    ∀ (l : List GraphEdge) (st : BState) (D : ℤ → ℕ),
      BfsDepthClauses s st D → BfsFrontierExcept g endN cur st D →
      st.visitedInOrder.getLast? = some cur → cur ∈ st.visited →
      ∃ D' : ℤ → ℕ,
        BfsDepthClauses s (l.foldl (bfsRelax cur) st) D' ∧
        BfsFrontierExcept g endN cur (l.foldl (bfsRelax cur) st) D' ∧
        (∀ x ∈ st.visited, D' x = D x ∧ x ∈ (l.foldl (bfsRelax cur) st).visited) ∧
        (l.foldl (bfsRelax cur) st).visitedInOrder = st.visitedInOrder ∧
        (∀ ed ∈ l, ed.target ∈ (l.foldl (bfsRelax cur) st).visited ∧
          D' ed.target ≤ D cur + 1) := by
  intro l
  induction l with
  | nil =>
    intro st D hcl hfr hlast hcv
    exact ⟨D, hcl, hfr, fun x hx => ⟨rfl, hx⟩, rfl, fun ed hed => absurd hed (List.not_mem_nil ed)⟩
  | cons ed rest ih =>
    intro st D hcl hfr hlast hcv
    obtain ⟨D1, hcl1, hfr1, hag1, hvio1, htv1, htd1⟩ :=
      bfsD_relax_step g s endN cur st D ed hcl hfr hlast hcv
    have hlast1 : (bfsRelax cur st ed).visitedInOrder.getLast? = some cur := by
      rw [hvio1]
      exact hlast
    have hcv1 : cur ∈ (bfsRelax cur st ed).visited := (hag1 cur hcv).2
    obtain ⟨D2, hcl2, hfr2, hag2, hvio2, hpost2⟩ := ih (bfsRelax cur st ed) D1 hcl1 hfr1 hlast1 hcv1
    rw [List.foldl_cons]
    have hcurD : D1 cur = D cur := (hag1 cur hcv).1
    refine ⟨D2, hcl2, hfr2, ?_, ?_, ?_⟩
    · intro x hx
      obtain ⟨he1, hm1⟩ := hag1 x hx
      obtain ⟨he2, hm2⟩ := hag2 x hm1
      exact ⟨he2.trans he1, hm2⟩
    · rw [hvio2, hvio1]
    · intro ed2 hed2
      rcases List.mem_cons.1 hed2 with hed3 | hed3
      · subst hed3
        obtain ⟨he2, hm2⟩ := hag2 ed2.target htv1
        refine ⟨hm2, ?_⟩
        rw [he2]
        exact htd1
      · obtain ⟨hm3, hd3⟩ := hpost2 ed2 hed3
        refine ⟨hm3, ?_⟩
        rw [hcurD] at hd3
        exact hd3

theorem bfsLoopD (g : Graph) (s endN : ℤ) :
    ∀ (fuel : ℕ) (st st' : BState) (b : Bool), BfsD g s endN st →
      bfsLoop g endN fuel st = some (st', b) → BfsD g s endN st' := by
  intro fuel
  induction fuel with
  | zero =>
    intro st st' b hp h
    cases hst : st.queue with
    | nil =>
      rw [bfsLoop_nil g endN 0 st hst] at h
      obtain ⟨h1, _⟩ : st = st' ∧ false = b := by
        injection h with hh
        injection hh with hh1 hh2
        exact ⟨hh1, hh2⟩
      rw [← h1]
      exact hp
    | cons c cs =>
      rw [bfsLoop_zero_cons g endN st c cs hst] at h
      cases h
  | succ f ih =>
    intro st st' b hp h
    obtain ⟨D, hcl, hfr⟩ := hp
    cases hst : st.queue with
    | nil =>
      rw [bfsLoop_nil g endN (f + 1) st hst] at h
      obtain ⟨h1, _⟩ : st = st' ∧ false = b := by
        injection h with hh
        injection hh with hh1 hh2
        exact ⟨hh1, hh2⟩
      rw [← h1]
      exact ⟨D, hcl, hfr⟩
    | cons c cs =>
      obtain ⟨hcl1, hfr1⟩ := bfsD_pop g s endN st D c cs hst hcl hfr
      by_cases hce : c = endN
      · rw [bfsLoop_cons_found g endN f st c cs hst hce] at h
        obtain ⟨h1, _⟩ : _ = st' ∧ true = b := by
          injection h with hh
          injection hh with hh1 hh2
          exact ⟨hh1, hh2⟩
        rw [← h1]
        refine ⟨D, hcl1, ?_⟩
        intro v hv hvn ed hed
        refine hfr1 v hv hvn ?_ ed hed
        intro hc
        rw [hc, hce] at hvn
        exact hvn rfl
      · rw [bfsLoop_cons_step g endN f st c cs hst hce] at h
        have hlast : ({ st with
            queue := cs
            visitedInOrder := st.visitedInOrder ++ [c] } : BState).visitedInOrder.getLast? =
              some c := List.getLast?_concat _
        have hcv : c ∈ ({ st with
            queue := cs
            visitedInOrder := st.visitedInOrder ++ [c] } : BState).visited := by
          have hcq : c ∈ st.queue := by
            rw [hst]
            exact List.mem_cons_self c cs
          exact hcl.2.2.2.2.1 c hcq
        obtain ⟨D', hcl2, hfr2, hag2, hvio2, hpost2⟩ :=
          bfsD_relax_fold g s endN c (g.getNeighbors c) _ D hcl1 hfr1 hlast hcv
        refine ih _ st' b ⟨D', hcl2, ?_⟩ h
        intro v hv hvn ed hed
        rw [hvio2] at hv
        by_cases hvc : v = c
        · rw [hvc] at hed
          obtain ⟨hm, hd⟩ := hpost2 ed hed
          refine ⟨hm, ?_⟩
          rw [hvc]
          have hDc : D' c = D c := (hag2 c hcv).1
          rw [hDc]
          exact hd
        · exact hfr2 v (by rw [hvio2]; exact hv) hvn hvc ed hed

theorem bfsD_init (g : Graph) (s endN : ℤ) : BfsD g s endN (bfsInit g s) := by
  refine ⟨fun _ => 0, ⟨⟨List.mem_singleton.2 rfl, rfl⟩, ?_, ?_, ?_, ?_, ?_, ?_, ?_, ?_, ?_, ?_⟩, ?_⟩
  · show initMap g.nodeIds (none : Option ℤ) s = some none ∨
      initMap g.nodeIds (none : Option ℤ) s = none
    rw [initMap_eval]
    split
    · left; rfl
    · right; rfl
  · intro v hv
    right
    exact hv
  · intro v hv
    cases hv
  · intro v hv
    exact hv
  · intro v hv
    left
    have : v ∈ [s] := hv
    rw [List.mem_singleton] at this
    exact this
  · exact List.pairwise_singleton _ _
  · intro w _ h _
    exact Nat.le_succ 0
  · intro v hv
    cases hv
  · intro l hl
    cases hl
  · intro v hv
    cases hv
  · intro v hv
    cases hv

theorem bfsLoop_queue_empty (g : Graph) (endN : ℤ) :
    ∀ (fuel : ℕ) (st st' : BState), bfsLoop g endN fuel st = some (st', false) →
      st'.queue = [] := by
  intro fuel
  induction fuel with
  | zero =>
    intro st st' h
    cases hst : st.queue with
    | nil =>
      rw [bfsLoop_nil g endN 0 st hst] at h
      obtain ⟨h1, _⟩ : st = st' ∧ false = false := by
        injection h with hh
        injection hh with hh1 hh2
        exact ⟨hh1, rfl⟩
      rw [← h1]
      exact hst
    | cons c cs =>
      rw [bfsLoop_zero_cons g endN st c cs hst] at h
      cases h
  | succ f ih =>
    intro st st' h
    cases hst : st.queue with
    | nil =>
      rw [bfsLoop_nil g endN (f + 1) st hst] at h
      obtain ⟨h1, _⟩ : st = st' ∧ false = false := by
        injection h with hh
        injection hh with hh1 hh2
        exact ⟨hh1, rfl⟩
      rw [← h1]
      exact hst
    | cons c cs =>
      by_cases hce : c = endN
      · rw [bfsLoop_cons_found g endN f st c cs hst hce] at h
        injection h with hh
        injection hh with _ hh2
        cases hh2
      · rw [bfsLoop_cons_step g endN f st c cs hst hce] at h
        exact ih _ st' h

theorem bfs_foldl_vio (cur : ℤ) :
    ∀ (l : List GraphEdge) (st : BState),
      (l.foldl (bfsRelax cur) st).visitedInOrder = st.visitedInOrder := by
  intro l
  induction l with
  | nil => intro st; rfl
  | cons ed rest ih =>
    intro st
    rw [List.foldl_cons, ih, bfsRelax_vio]

theorem bfsLoop_notfound_vio (g : Graph) (endN : ℤ) :
    ∀ (fuel : ℕ) (st st' : BState), endN ∉ st.visitedInOrder →
      bfsLoop g endN fuel st = some (st', false) → endN ∉ st'.visitedInOrder := by
  intro fuel
  induction fuel with
  | zero =>
    intro st st' hn h
    cases hst : st.queue with
    | nil =>
      rw [bfsLoop_nil g endN 0 st hst] at h
      obtain ⟨h1, _⟩ : st = st' ∧ false = false := by
        injection h with hh
        injection hh with hh1 hh2
        exact ⟨hh1, rfl⟩
      rw [← h1]
      exact hn
    | cons c cs =>
      rw [bfsLoop_zero_cons g endN st c cs hst] at h
      cases h
  | succ f ih =>
    intro st st' hn h
    cases hst : st.queue with
    | nil =>
      rw [bfsLoop_nil g endN (f + 1) st hst] at h
      obtain ⟨h1, _⟩ : st = st' ∧ false = false := by
        injection h with hh
        injection hh with hh1 hh2
        exact ⟨hh1, rfl⟩
      rw [← h1]
      exact hn
    | cons c cs =>
      by_cases hce : c = endN
      · rw [bfsLoop_cons_found g endN f st c cs hst hce] at h
        injection h with hh
        injection hh with _ hh2
        cases hh2
      · rw [bfsLoop_cons_step g endN f st c cs hst hce] at h
        refine ih _ st' ?_ h
        rw [bfs_foldl_vio]
        intro hc
        rcases List.mem_append.1 hc with hc2 | hc2
        · exact hn hc2
        · rw [List.mem_singleton] at hc2
          exact hce hc2.symm

theorem pathCost_length_pos (g : Graph) (s e : ℤ) (p : List ℤ) (c : ℚ)
    (hp : PathCost g s e p c) : 0 < p.length := by
  induction hp with
  | single s => simp
  | cons u e ed p c hed hp ih => simp

theorem pathCost_of_chain (g : Graph) :
    ∀ (p : List ℤ) (s e : ℤ), p.head? = some s → p.getLast? = some e →
      List.Chain' (Adjacent g) p → ∃ c, PathCost g s e p c := by
  intro p
  induction p with
  | nil => intro s e hh _ _; cases hh
  | cons a rest ih =>
    intro s e hh hl hch
    have ha : a = s := by
      injection hh with hh2
    cases rest with
    | nil =>
      have he : a = e := by
        have : some a = some e := hl
        injection this
      subst ha
      subst he
      exact ⟨0, PathCost.single a⟩
    | cons b rest2 =>
      have hab : Adjacent g a b := (List.chain'_cons.1 hch).1
      have hch2 : List.Chain' (Adjacent g) (b :: rest2) := (List.chain'_cons.1 hch).2
      have hl2 : (b :: rest2).getLast? = some e := by
        rw [List.getLast?_cons_cons] at hl
        exact hl
      obtain ⟨c, hc⟩ := ih b e rfl hl2 hch2
      obtain ⟨ed, hed, htgt⟩ := hab
      subst ha
      refine ⟨ed.weight + c, ?_⟩
      have := PathCost.cons (g := g) a e ed (b :: rest2) c hed (by rw [htgt]; exact hc)
      exact this

theorem bfsD_dist_le (g : Graph) (s endN : ℤ) (st : BState) (D : ℤ → ℕ)
    (hcl : BfsDepthClauses s st D)
    (hfr : ∀ v ∈ st.visitedInOrder, v ≠ endN →
      ∀ ed ∈ g.getNeighbors v, ed.target ∈ st.visited ∧ D ed.target ≤ D v + 1)
    (hev : endN ∈ st.visitedInOrder) :
    ∀ (p : List ℤ) (u w : ℤ) (c : ℚ), PathCost g u w p c → w = endN → u ∈ st.visited →
      D endN ≤ D u + (p.length - 1) := by
  obtain ⟨⟨hs1, hs0⟩, hd2, hd3, hd4, hd5, hd6, hd8, hd9, hd10, hd11, hd12⟩ := hcl
  intro p u w c hp
  induction hp with
  | single v =>
    intro hw _
    rw [← hw]
    simp
  | cons u w2 ed p c hed hp ih =>
    intro hw hu
    have hppos : 0 < p.length := pathCost_length_pos g ed.target w2 p c hp
    rcases hd3 u hu with hvio | hqueue
    · by_cases hue : u = w2
      · rw [hue, hw]
        simp
      · have hune : u ≠ endN := by
          rw [← hw]
          exact hue
        obtain ⟨htv, htd⟩ := hfr u hvio hune ed hed
        have h2 := ih hw htv
        simp only [List.length_cons]
        omega
    · have h2 := hd10 endN hev u hqueue
      simp only [List.length_cons]
      omega

theorem bfsD_complete (g : Graph) (s endN : ℤ) (st : BState) (D : ℤ → ℕ)
    (hcl : BfsDepthClauses s st D)
    (hfr : ∀ v ∈ st.visitedInOrder, v ≠ endN →
      ∀ ed ∈ g.getNeighbors v, ed.target ∈ st.visited ∧ D ed.target ≤ D v + 1)
    (hqe : st.queue = []) (hnf : endN ∉ st.visitedInOrder) :
    ∀ (p : List ℤ) (u w : ℤ) (c : ℚ), PathCost g u w p c → w = endN → u ∈ st.visited →
      False := by
  obtain ⟨⟨hs1, hs0⟩, hd2, hd3, hd4, hd5, hd6, hd8, hd9, hd10, hd11, hd12⟩ := hcl
  intro p u w c hp
  induction hp with
  | single v =>
    intro hw hv
    rcases hd3 v hv with hvio | hqueue
    · rw [hw] at hvio
      exact hnf hvio
    · rw [hqe] at hqueue
      cases hqueue
  | cons u w2 ed p c hed hp ih =>
    intro hw hu
    rcases hd3 u hu with hvio | hqueue
    · by_cases hue : u = w2
      · rw [hue, hw] at hvio
        exact hnf hvio
      · have hune : u ≠ endN := by
          rw [← hw]
          exact hue
        obtain ⟨htv, _⟩ := hfr u hvio hune ed hed
        exact ih hw htv
    · rw [hqe] at hqueue
      cases hqueue


theorem bfsD_chain_length (st : BState) (s : ℤ) (D : ℤ → ℕ)
    (hd6 : ∀ v ∈ st.visited, v = s ∨
      ∃ u, st.prev v = some (some u) ∧ u ∈ st.visited ∧ D v = D u + 1)
    (hd2 : st.prev s = some none ∨ st.prev s = none) :
    ∀ (q : List ℤ) (a z : ℤ), q.head? = some a → a ∈ st.visited →
      List.Chain' (fun x y => st.prev x = some (some y)) q → q.getLast? = some z →
      D a + 1 = D z + q.length := by
  intro q
  induction q with
  | nil => intro a z hh _ _ _; cases hh
  | cons x rest ih =>
    intro a z hh hav hch hl
    have hxa : x = a := by
      have : some x = some a := hh
      injection this
    subst hxa
    cases rest with
    | nil =>
      have hxz : x = z := by
        have : some x = some z := hl
        injection this
      rw [hxz]
      simp
    | cons b rest2 =>
      have hab : st.prev x = some (some b) := (List.chain'_cons.1 hch).1
      have hch2 : List.Chain' (fun v w => st.prev v = some (some w)) (b :: rest2) :=
        (List.chain'_cons.1 hch).2
      have hl2 : (b :: rest2).getLast? = some z := by
        rw [List.getLast?_cons_cons] at hl
        exact hl
      rcases hd6 x hav with hxs | ⟨u, hu1, hu2, hu3⟩
      · exfalso
        rw [hxs] at hab
        rcases hd2 with hd | hd
        · rw [hd] at hab
          injection hab with h9
          simp at h9
        · rw [hd] at hab
          cases hab
      · have hub : u = b := by
          rw [hu1] at hab
          injection hab with h9
          injection h9 with h10
        rw [hub] at hu2 hu3
        have := ih b z rfl hu2 hch2 hl2
        simp only [List.length_cons] at this ⊢
        omega

/-- Claim C5: when the end node is reachable from the start node and
`breadthFirstSearch` finishes, the returned path is a real start-to-end walk
along stored edges and no start-to-end walk has fewer nodes (hence fewer
hops). -/
theorem c5_bfs_fewest_hops (g : Graph) (s e : ℤ) (fuel : ℕ) (r : AlgorithmResult)
    (hreach : Reachable g s e) (h : bfsRun g s e fuel = some r) :
    r.path ≠ [] ∧ (∃ c, PathCost g s e r.path c) ∧
      ∀ (q : List ℤ) (c : ℚ), PathCost g s e q c → r.path.length ≤ q.length := by
  obtain ⟨st, found, hl, hvio, hprev, hcase⟩ := bfsRun_spec g s e fuel r h
  have hbfsinv : BfsInv g s st :=
    bfsLoop_preserves g e (BfsInv g s)
      (fun st c rest hq hp => bfsInv_pop g s st c rest hq hp)
      (fun cur st ed hed hc hp => bfsInv_relax g s cur st ed hed hc hp)
      fuel _ st found (bfsInv_init g s) hl
  obtain ⟨D, hcl, hfr⟩ := bfsLoopD g s e fuel _ st found (bfsD_init g s e) hl
  rcases hcase with ⟨hf0, _⟩ | ⟨hf1, p, hw, hpath⟩
  · exfalso
    have hqe : st.queue = [] := bfsLoop_queue_empty g e fuel _ st (hf0 ▸ hl)
    have hnf : e ∉ st.visitedInOrder := by
      refine bfsLoop_notfound_vio g e fuel _ st ?_ (hf0 ▸ hl)
      intro hc
      cases hc
    obtain ⟨p0, c0, hp0⟩ := hreach
    exact bfsD_complete g s e st D hcl hfr hqe hnf p0 s e c0 hp0 rfl hcl.1.1
  · have hev : e ∈ st.visitedInOrder := bfsLoop_found g e fuel _ st (hf1 ▸ hl)
    have hevis : e ∈ st.visited := hcl.2.2.2.1 e hev
    obtain ⟨q, hpq, hhead, hch, z, hzl, hzn⟩ := walkPrev_spec st.prev fuel e [] p hw
    rw [List.nil_append] at hpq
    obtain ⟨hchAdj, hzs⟩ := bfs_prev_chain g s st hbfsinv q z e hhead hevis hch hzl hzn
    have hlen : D e + 1 = D z + q.length :=
      bfsD_chain_length st s D hcl.2.2.2.2.2.1 hcl.2.1 q e z hhead hevis hch hzl
    rw [hzs, hcl.1.2] at hlen
    have hqne : q ≠ [] := by
      intro hc
      rw [hc] at hhead
      cases hhead
    refine ⟨?_, ?_, ?_⟩
    · rw [hpath, hpq]
      simpa using hqne
    · refine pathCost_of_chain g r.path s e ?_ ?_ ?_
      · rw [hpath, hpq, List.head?_reverse, hzl, hzs]
      · rw [hpath, hpq, List.getLast?_reverse]
        exact hhead
      · rw [hpath, hpq]
        exact List.chain'_reverse.2 hchAdj
    · intro q' c' hq'
      have hq'pos := pathCost_length_pos g s e q' c' hq'
      have hmin : D e ≤ D s + (q'.length - 1) :=
        bfsD_dist_le g s e st D hcl hfr hev q' s e c' hq' rfl hcl.1.1
      rw [hpath, hpq, List.length_reverse]
      have hds : D s = 0 := hcl.1.2
      omega

theorem c5_bfs_fewest_hops_witness :
    Reachable exGraphFork 1 2 ∧
    ∃ r, bfsRun exGraphFork 1 2 9 = some r ∧ r.path ≠ [] ∧
      (∃ c, PathCost exGraphFork 1 2 r.path c) ∧
      ∀ (q : List ℤ) (c : ℚ), PathCost exGraphFork 1 2 q c → r.path.length ≤ q.length := by
  have hed : (⟨1, 2, 1⟩ : GraphEdge) ∈ exGraphFork.getNeighbors 1 := by
    with_unfolding_all decide
  have hreach : Reachable exGraphFork 1 2 :=
    ⟨[1, 2], 1 + 0, PathCost.cons 1 2 ⟨1, 2, 1⟩ [2] 0 hed (PathCost.single 2)⟩
  have hsome : (bfsRun exGraphFork 1 2 9).isSome = true := by
    with_unfolding_all decide
  obtain ⟨r, hr⟩ := Option.isSome_iff_exists.mp hsome
  exact ⟨hreach, r, hr, c5_bfs_fewest_hops exGraphFork 1 2 9 r hreach hr⟩

/-! ## Claim C1: Dijkstra and A* return equal, minimal-cost paths -/

theorem pathCost_nonneg (g : Graph) (hw : WeightsNonneg g) (s e : ℤ) (p : List ℤ) (c : ℚ)
    (hp : PathCost g s e p c) : 0 ≤ c := by
  induction hp with
  | single v => exact le_refl 0
  | cons u e ed p c hed _ ih =>
    have := hw u ed hed
    linarith

theorem consistent_telescope (g : Graph) (hv : ℚ → ℚ → ℚ → ℚ → ℚ) (endData : GraphNode)
    (hcons : Consistent g hv endData) (s e : ℤ) (p : List ℤ) (c : ℚ)
    (hp : PathCost g s e p c) :
    hfun g hv endData s ≤ c + hfun g hv endData e := by
  induction hp with
  | single v => simp
  | cons u e ed p c hed _ ih =>
    have h1 := hcons u ed hed
    linarith

theorem wt_le_coe {x : WithTop ℚ} {a : ℚ} (h : x ≤ ((a : ℚ) : WithTop ℚ)) :
    ∃ b : ℚ, x = ((b : ℚ) : WithTop ℚ) ∧ b ≤ a := by
  cases x with
  | top => simp at h
  | coe b => exact ⟨b, rfl, WithTop.coe_le_coe.1 h⟩

theorem wt_lt_coe {x : WithTop ℚ} {a : ℚ} (h : x < ((a : ℚ) : WithTop ℚ)) :
    ∃ b : ℚ, x = ((b : ℚ) : WithTop ℚ) ∧ b < a := by
  cases x with
  | top => simp at h
  | coe b => exact ⟨b, rfl, WithTop.coe_lt_coe.1 h⟩

theorem pqSorted_head_le {α : Type} (c : PQElem α) (rest : List (PQElem α))
    (h : PQSorted (c :: rest)) : ∀ x ∈ rest, c.priority ≤ x.priority :=
  (List.pairwise_cons.1 h).1

theorem dijkOpt_init (g : Graph) (s endN : ℤ) (hs : s ∈ g.nodeIds) :
    DijkOpt g s endN (dijkstraInit g s) := by
  constructor
  · refine ⟨⟨?_, ?_⟩, ?_, ?_, ?_, ?_, ?_, ?_, ?_, ?_⟩
    · show upd (initMap g.nodeIds (⊤ : WithTop ℚ)) s ((0 : ℚ) : WithTop ℚ) s =
        some ((0 : ℚ) : WithTop ℚ)
      rw [upd_eval, if_pos rfl]
    · show initMap g.nodeIds (none : Option ℤ) s = some none
      rw [initMap_eval, if_pos hs]
    · intro v dv hdv
      have h1 : upd (initMap g.nodeIds (⊤ : WithTop ℚ)) s ((0 : ℚ) : WithTop ℚ) v =
        some ((dv : ℚ) : WithTop ℚ) := hdv
      rw [upd_eval] at h1
      by_cases hvs : v = s
      · rw [if_pos hvs] at h1
        injection h1 with h2
        have h3 : (0 : ℚ) = dv := WithTop.coe_inj.1 h2
        rw [← h3]
      · rw [if_neg hvs, initMap_eval] at h1
        split at h1
        · injection h1 with h2
          exact absurd h2.symm (WithTop.coe_ne_top)
        · cases h1
    · intro v hvs dv hdv
      exfalso
      have h1 : upd (initMap g.nodeIds (⊤ : WithTop ℚ)) s ((0 : ℚ) : WithTop ℚ) v =
        some ((dv : ℚ) : WithTop ℚ) := hdv
      rw [upd_eval, if_neg hvs, initMap_eval] at h1
      split at h1
      · injection h1 with h2
        exact absurd h2.symm (WithTop.coe_ne_top)
      · cases h1
    · show PQSorted [(⟨s, ((0 : ℚ) : WithTop ℚ)⟩ : PQElem ℤ)]
      exact List.pairwise_singleton _ _
    · intro x hx
      have hx1 : x ∈ [(⟨s, ((0 : ℚ) : WithTop ℚ)⟩ : PQElem ℤ)] := hx
      rw [List.mem_singleton] at hx1
      refine ⟨0, ((0 : ℚ) : WithTop ℚ), ?_, ?_, le_refl _⟩
      · rw [hx1]
      · rw [hx1]
        show upd (initMap g.nodeIds (⊤ : WithTop ℚ)) s ((0 : ℚ) : WithTop ℚ) s =
          some ((0 : ℚ) : WithTop ℚ)
        rw [upd_eval, if_pos rfl]
    · intro v _ dv hdv
      have h1 : upd (initMap g.nodeIds (⊤ : WithTop ℚ)) s ((0 : ℚ) : WithTop ℚ) v =
        some ((dv : ℚ) : WithTop ℚ) := hdv
      rw [upd_eval] at h1
      by_cases hvs : v = s
      · rw [if_pos hvs] at h1
        injection h1 with h2
        have h3 : (0 : ℚ) = dv := WithTop.coe_inj.1 h2
        rw [hvs, ← h3]
        exact List.mem_singleton.2 rfl
      · exfalso
        rw [if_neg hvs, initMap_eval] at h1
        split at h1
        · injection h1 with h2
          exact absurd h2.symm (WithTop.coe_ne_top)
        · cases h1
    · intro u hu
      cases hu
    · intro v dv hdv
      have h1 : upd (initMap g.nodeIds (⊤ : WithTop ℚ)) s ((0 : ℚ) : WithTop ℚ) v =
        some ((dv : ℚ) : WithTop ℚ) := hdv
      rw [upd_eval] at h1
      by_cases hvs : v = s
      · rw [if_pos hvs] at h1
        injection h1 with h2
        have h3 : (0 : ℚ) = dv := WithTop.coe_inj.1 h2
        refine ⟨[s], ?_⟩
        rw [hvs, ← h3]
        exact PathCost.single s
      · exfalso
        rw [if_neg hvs, initMap_eval] at h1
        split at h1
        · injection h1 with h2
          exact absurd h2.symm (WithTop.coe_ne_top)
        · cases h1
    · intro v hv
      show ∃ d, upd (initMap g.nodeIds (⊤ : WithTop ℚ)) s ((0 : ℚ) : WithTop ℚ) v = some d
      rw [upd_eval]
      by_cases hvs : v = s
      · rw [if_pos hvs]
        exact ⟨_, rfl⟩
      · rw [if_neg hvs, initMap_eval, if_pos hv]
        exact ⟨_, rfl⟩
  · intro u hu
    cases hu

theorem dijk_cut (g : Graph) (s : ℤ) (st : DState)
    (hw : WeightsNonneg g) (hclosed : GraphClosed g)
    (hcl : DijkClauses g s st)
    (hfr : ∀ u ∈ st.visitedInOrder, ∀ ed ∈ g.getNeighbors u, ∀ du : ℚ,
      st.dist u = some ((du : ℚ) : WithTop ℚ) →
      (∃ dt : WithTop ℚ, st.dist ed.target = some dt ∧
        dt ≤ (((du + ed.weight : ℚ)) : WithTop ℚ)) ∨ st.dist ed.target = none)
    (c : PQElem ℤ) (rest : List (PQElem ℤ)) (hq : st.pq = c :: rest) :
    ∀ (P : List ℤ) (u w2 : ℤ) (cP : ℚ), PathCost g u w2 P cP → w2 = c.element →
      u ∈ st.visitedInOrder → ∀ du : ℚ, st.dist u = some ((du : ℚ) : WithTop ℚ) →
      ∃ dc : WithTop ℚ, st.dist c.element = some dc ∧
        dc ≤ (((du + cP : ℚ)) : WithTop ℚ) := by
  obtain ⟨⟨hO1a, hO1b⟩, hO2, hO3, hO4, hO5, hO6, hO7, hO9, hO10⟩ := hcl
  have hcm : c ∈ st.pq := by
    rw [hq]
    exact List.mem_cons_self c rest
  intro P u w2 cP hp
  induction hp with
  | single v =>
    intro hw2 hvio du hdu
    refine ⟨((du : ℚ) : WithTop ℚ), ?_, ?_⟩
    · rw [← hw2]
      exact hdu
    · exact_mod_cast (by linarith : du ≤ du + 0)
  | cons u w2 ed P c2 hed hp ih =>
    intro hw2 hvio du hdu
    have hc2nn : 0 ≤ c2 := pathCost_nonneg g hw ed.target w2 P c2 hp
    have hwnn : 0 ≤ ed.weight := hw u ed hed
    rcases hfr u hvio ed hed du hdu with ⟨dt, hdt, hdtle⟩ | hnone
    · obtain ⟨dtq, hdtq, hdtqle⟩ := wt_le_coe hdtle
      rw [hdtq] at hdt
      by_cases htvio : ed.target ∈ st.visitedInOrder
      · obtain ⟨dc, hdc, hdcle⟩ := ih hw2 htvio dtq hdt
        refine ⟨dc, hdc, le_trans hdcle ?_⟩
        exact_mod_cast (by linarith : dtq + c2 ≤ du + (ed.weight + c2))
      · have hmem := hO6 ed.target htvio dtq hdt
        rw [hq] at hmem
        rcases List.mem_cons.1 hmem with heq | hrest2
        · have hel : ed.target = c.element := congrArg PQElem.element heq
          refine ⟨((dtq : ℚ) : WithTop ℚ), ?_, ?_⟩
          · rw [← hel]
            exact hdt
          · exact_mod_cast (by linarith : dtq ≤ du + (ed.weight + c2))
        · have hsorted : PQSorted (c :: rest) := by
            rw [← hq]
            exact hO4
          have hle := pqSorted_head_le c rest hsorted ⟨ed.target, ((dtq : ℚ) : WithTop ℚ)⟩ hrest2
          obtain ⟨pc, dxc, hpr, hdxc, hdxcle⟩ := hO5 c hcm
          refine ⟨dxc, hdxc, ?_⟩
          have h1 : ((pc : ℚ) : WithTop ℚ) ≤ ((dtq : ℚ) : WithTop ℚ) := by
            rw [← hpr]
            exact hle
          have h2 : pc ≤ dtq := by exact_mod_cast h1
          refine le_trans hdxcle ?_
          exact_mod_cast (by linarith : pc ≤ du + (ed.weight + c2))
    · exfalso
      have htn : ed.target ∉ g.nodeIds := by
        intro hc2
        obtain ⟨d, hd⟩ := hO10 ed.target hc2
        rw [hnone] at hd
        cases hd
      have hemp : g.getNeighbors ed.target = [] := hclosed ed.target htn
      cases hp with
      | single =>
        obtain ⟨pc, dxc, hpr, hdxc, _⟩ := hO5 c hcm
        rw [← hw2] at hdxc
        rw [hnone] at hdxc
        cases hdxc
      | cons z1 z2 ed3 p3 c3 hmem3 hp3 =>
        rw [hemp] at hmem3
        cases hmem3

theorem dijkOpt_pop (g : Graph) (s endN : ℤ) (st : DState) (c : PQElem ℤ)
    (rest : List (PQElem ℤ))
    (hw : WeightsNonneg g) (hclosed : GraphClosed g)
    (hq : st.pq = c :: rest)
    (hopt : DijkOpt g s endN st)
    (hnotin : endN ∉ st.visitedInOrder) :
    DijkClauses g s
      { st with pq := rest, visitedInOrder := st.visitedInOrder ++ [c.element] } ∧
    DijkFrontierExcept g endN c.element
      { st with pq := rest, visitedInOrder := st.visitedInOrder ++ [c.element] } := by
  obtain ⟨hcl, hfrEnd⟩ := hopt
  have hfr : ∀ u ∈ st.visitedInOrder, ∀ ed ∈ g.getNeighbors u, ∀ du : ℚ,
      st.dist u = some ((du : ℚ) : WithTop ℚ) →
      (∃ dt : WithTop ℚ, st.dist ed.target = some dt ∧
        dt ≤ (((du + ed.weight : ℚ)) : WithTop ℚ)) ∨ st.dist ed.target = none := by
    intro u hu ed hed du hdu
    refine hfrEnd u hu ?_ ed hed du hdu
    intro hc
    rw [hc] at hu
    exact hnotin hu
  have hcut := dijk_cut g s st hw hclosed hcl hfr c rest hq
  obtain ⟨⟨hO1a, hO1b⟩, hO2, hO3, hO4, hO5, hO6, hO7, hO9, hO10⟩ := hcl
  have hcm : c ∈ st.pq := by
    rw [hq]
    exact List.mem_cons_self c rest
  have hO7c : ∀ (P : List ℤ) (cP : ℚ), PathCost g s c.element P cP →
      ∃ dc : WithTop ℚ, st.dist c.element = some dc ∧ dc ≤ ((cP : ℚ) : WithTop ℚ) := by
    intro P cP hp
    by_cases hsv : s ∈ st.visitedInOrder
    · obtain ⟨dc, hdc, hdcle⟩ := hcut P s c.element cP hp rfl hsv 0 hO1a
      refine ⟨dc, hdc, le_trans hdcle ?_⟩
      exact_mod_cast (by linarith : (0 : ℚ) + cP ≤ cP)
    · have hcP : 0 ≤ cP := pathCost_nonneg g hw s c.element P cP hp
      have hmem := hO6 s hsv 0 hO1a
      rw [hq] at hmem
      rcases List.mem_cons.1 hmem with heq | hrest2
      · have hel : s = c.element := congrArg PQElem.element heq
        refine ⟨((0 : ℚ) : WithTop ℚ), ?_, ?_⟩
        · rw [← hel]
          exact hO1a
        · exact_mod_cast hcP
      · have hsorted : PQSorted (c :: rest) := by
          rw [← hq]
          exact hO4
        have hle := pqSorted_head_le c rest hsorted ⟨s, ((0 : ℚ) : WithTop ℚ)⟩ hrest2
        obtain ⟨pc, dxc, hpr, hdxc, hdxcle⟩ := hO5 c hcm
        have h1 : ((pc : ℚ) : WithTop ℚ) ≤ ((0 : ℚ) : WithTop ℚ) := by
          rw [← hpr]
          exact hle
        have h2 : pc ≤ 0 := by exact_mod_cast h1
        refine ⟨dxc, hdxc, le_trans hdxcle ?_⟩
        exact_mod_cast (by linarith : pc ≤ cP)
  constructor
  · refine ⟨⟨hO1a, hO1b⟩, hO2, hO3, ?_, ?_, ?_, ?_, hO9, hO10⟩
    · have hsorted : PQSorted (c :: rest) := by
        rw [← hq]
        exact hO4
      exact (List.pairwise_cons.1 hsorted).2
    · intro x hx
      refine hO5 x ?_
      rw [hq]
      exact List.mem_cons_of_mem c hx
    · intro v hv dv hdv
      have hv1 : v ∉ st.visitedInOrder := fun hc => hv (List.mem_append.2 (Or.inl hc))
      have hv2 : v ≠ c.element := by
        intro hc
        exact hv (List.mem_append.2 (Or.inr (List.mem_singleton.2 hc)))
      have hmem := hO6 v hv1 dv hdv
      rw [hq] at hmem
      rcases List.mem_cons.1 hmem with heq | hrest2
      · exact absurd (congrArg PQElem.element heq) hv2
      · exact hrest2
    · intro u hu P cP hp
      rcases List.mem_append.1 hu with hu2 | hu2
      · exact hO7 u hu2 P cP hp
      · rw [List.mem_singleton] at hu2
        rw [hu2]
        rw [hu2] at hp
        exact hO7c P cP hp
  · intro u hu hun huc ed hed du hdu
    rcases List.mem_append.1 hu with hu2 | hu2
    · exact hfr u hu2 ed hed du hdu
    · rw [List.mem_singleton] at hu2
      exact absurd hu2 huc

theorem dijkOpt_relax (g : Graph) (s endN cur : ℤ) (st : DState) (ed : GraphEdge)
    (hw : WeightsNonneg g)
    (hed : ed ∈ g.getNeighbors cur)
    (hcl : DijkClauses g s st)
    (hfr : DijkFrontierExcept g endN cur st)
    (hcur : cur ∈ st.visitedInOrder) :
    DijkClauses g s (dijkstraRelax cur st ed) ∧
    DijkFrontierExcept g endN cur (dijkstraRelax cur st ed) ∧
    (dijkstraRelax cur st ed).visitedInOrder = st.visitedInOrder ∧
    (dijkstraRelax cur st ed).dist cur = st.dist cur ∧
    (∀ du : ℚ, st.dist cur = some ((du : ℚ) : WithTop ℚ) →
      (∃ dt : WithTop ℚ, (dijkstraRelax cur st ed).dist ed.target = some dt ∧
        dt ≤ (((du + ed.weight : ℚ)) : WithTop ℚ)) ∨
      (dijkstraRelax cur st ed).dist ed.target = none) ∧
    (∀ (v : ℤ) (d : WithTop ℚ), (dijkstraRelax cur st ed).dist v = some d →
      ∃ d0, st.dist v = some d0 ∧ d ≤ d0) ∧
    (∀ (v : ℤ) (d : WithTop ℚ), st.dist v = some d →
      ∃ d', (dijkstraRelax cur st ed).dist v = some d' ∧ d' ≤ d) ∧
    (∀ v : ℤ, st.dist v = none → (dijkstraRelax cur st ed).dist v = none) := by
  obtain ⟨⟨hO1a, hO1b⟩, hO2, hO3, hO4, hO5, hO6, hO7, hO9, hO10⟩ := hcl
  have hwnn : 0 ≤ ed.weight := hw cur ed hed
  unfold dijkstraRelax
  split
  · rename_i hmc
    refine ⟨⟨⟨hO1a, hO1b⟩, hO2, hO3, hO4, hO5, hO6, hO7, hO9, hO10⟩, hfr, rfl, rfl, ?_,
      fun v d hd => ⟨d, hd, le_refl d⟩, fun v d hd => ⟨d, hd, le_refl d⟩, fun v hv => hv⟩
    intro du hdu
    rw [hmc] at hdu
    cases hdu
  · rename_i dc hmc
    split
    · rename_i hmt
      refine ⟨⟨⟨hO1a, hO1b⟩, hO2, hO3, hO4, hO5, hO6, hO7, hO9, hO10⟩, hfr, rfl, rfl, ?_,
        fun v d hd => ⟨d, hd, le_refl d⟩, fun v d hd => ⟨d, hd, le_refl d⟩, fun v hv => hv⟩
      intro du hdu
      right
      exact hmt
    · rename_i dt hmt
      dsimp only
      split
      · rename_i hlt
        obtain ⟨dcq, hdcq⟩ : ∃ b : ℚ, dc = ((b : ℚ) : WithTop ℚ) := by
          cases dc with
          | top =>
            rw [top_add] at hlt
            exact absurd hlt not_top_lt
          | coe b => exact ⟨b, rfl⟩
        subst hdcq
        have hndeq : ((dcq : ℚ) : WithTop ℚ) + ((ed.weight : ℚ) : WithTop ℚ) =
            (((dcq + ed.weight : ℚ)) : WithTop ℚ) := by
          push_cast
          rfl
        have hndlt : (((dcq + ed.weight : ℚ)) : WithTop ℚ) < dt := by
          rw [← hndeq]
          exact hlt
        have hcurq : 0 ≤ dcq := hO2 cur dcq hmc
        have htvio : ed.target ∉ st.visitedInOrder := by
          intro hc
          obtain ⟨P0, hP0⟩ := hO9 cur dcq hmc
          have hP1 := pathCost_append_edge g s cur P0 dcq hP0 ed hed
          obtain ⟨dtv, hdtv, hdtvle⟩ := hO7 ed.target hc _ _ hP1
          rw [hmt] at hdtv
          have : dt = dtv := by injection hdtv
          rw [← this] at hdtvle
          exact absurd hndlt (not_lt.2 hdtvle)
        have hts : ed.target ≠ s := by
          intro hc
          rw [hc, hO1a] at hmt
          have hdt0 : ((0 : ℚ) : WithTop ℚ) = dt := by injection hmt
          rw [← hdt0] at hndlt
          have : dcq + ed.weight < 0 := by exact_mod_cast hndlt
          linarith
        have htc : cur ≠ ed.target := by
          intro hc
          rw [hc] at hcur
          exact htvio hcur
        refine ⟨⟨⟨?_, ?_⟩, ?_, ?_, ?_, ?_, ?_, ?_, ?_, ?_⟩, ?_, rfl, ?_, ?_, ?_, ?_, ?_⟩
        · show upd st.dist ed.target _ s = some ((0 : ℚ) : WithTop ℚ)
          rw [upd_eval, if_neg (fun hc => hts hc.symm)]
          exact hO1a
        · show upd st.prev ed.target (some cur) s = some none
          rw [upd_eval, if_neg (fun hc => hts hc.symm)]
          exact hO1b
        · intro v dv hdv
          dsimp only at hdv
          rw [upd_eval] at hdv
          by_cases hveq : v = ed.target
          · rw [if_pos hveq] at hdv
            injection hdv with h2
            rw [hndeq] at h2
            have h3 : dcq + ed.weight = dv := by exact_mod_cast h2
            rw [← h3]
            linarith
          · rw [if_neg hveq] at hdv
            exact hO2 v dv hdv
        · intro v hvs dv hdv
          dsimp only at hdv ⊢
          rw [upd_eval] at hdv
          by_cases hveq : v = ed.target
          · rw [if_pos hveq] at hdv
            injection hdv with h2
            rw [hndeq] at h2
            have h3 : dcq + ed.weight = dv := by exact_mod_cast h2
            refine ⟨cur, dcq, ed, ?_, ?_, hed, hveq.symm, ?_⟩
            · rw [upd_eval, if_pos hveq]
            · rw [upd_eval, if_neg htc]
              exact hmc
            · rw [← h3]
          · rw [if_neg hveq] at hdv
            obtain ⟨u, du, ed2, h1, h2, h3, h4, h5⟩ := hO3 v hvs dv hdv
            by_cases hueq : u = ed.target
            · refine ⟨u, dcq + ed.weight, ed2, ?_, ?_, h3, h4, ?_⟩
              · rw [upd_eval, if_neg hveq]
                exact h1
              · rw [upd_eval, if_pos hueq, ← hndeq]
              · have hdud : ((du : ℚ) : WithTop ℚ) = dt := by
                  rw [hueq, hmt] at h2
                  injection h2 with h6
                  exact h6.symm
                have hlt2 : dcq + ed.weight < du := by
                  rw [← hdud] at hndlt
                  exact_mod_cast hndlt
                linarith
            · refine ⟨u, du, ed2, ?_, ?_, h3, h4, h5⟩
              · rw [upd_eval, if_neg hveq]
                exact h1
              · rw [upd_eval, if_neg hueq]
                exact h2
        · show PQSorted (pqEnqueue _ st.pq)
          exact pqEnqueue_sorted _ _ hO4
        · intro x hx
          dsimp only at hx
          rcases (mem_pqEnqueue _ x _).1 hx with hx2 | hx2
          · refine ⟨dcq + ed.weight, (((dcq + ed.weight : ℚ)) : WithTop ℚ), ?_, ?_, le_refl _⟩
            · rw [hx2, ← hndeq]
            · rw [hx2]
              show upd st.dist ed.target _ ed.target = _
              rw [upd_eval, if_pos rfl, ← hndeq]
          · obtain ⟨px, dx, hpr, hdx, hdxle⟩ := hO5 x hx2
            by_cases hxeq : x.element = ed.target
            · refine ⟨px, ((dcq : ℚ) : WithTop ℚ) + ((ed.weight : ℚ) : WithTop ℚ), hpr, ?_, ?_⟩
              · show upd st.dist ed.target _ x.element = _
                rw [upd_eval, if_pos hxeq]
              · have hdxdt : dx = dt := by
                  rw [hxeq, hmt] at hdx
                  injection hdx with h6
                  exact h6.symm
                rw [hdxdt] at hdxle
                exact le_trans (le_of_lt hlt) hdxle
            · refine ⟨px, dx, hpr, ?_, hdxle⟩
              show upd st.dist ed.target _ x.element = _
              rw [upd_eval, if_neg hxeq]
              exact hdx
        · intro v hv dv hdv
          dsimp only at hdv ⊢
          rw [upd_eval] at hdv
          by_cases hveq : v = ed.target
          · rw [if_pos hveq] at hdv
            injection hdv with h2
            refine (mem_pqEnqueue _ _ _).2 (Or.inl ?_)
            rw [hveq]
            congr 1
            exact h2.symm
          · rw [if_neg hveq] at hdv
            exact (mem_pqEnqueue _ _ _).2 (Or.inr (hO6 v hv dv hdv))
        · intro u hu P cP hp
          have hune : u ≠ ed.target := by
            intro hc
            rw [hc] at hu
            exact htvio hu
          obtain ⟨du, hdu, hle⟩ := hO7 u hu P cP hp
          refine ⟨du, ?_, hle⟩
          dsimp only
          rw [upd_eval, if_neg hune]
          exact hdu
        · intro v dv hdv
          dsimp only at hdv
          rw [upd_eval] at hdv
          by_cases hveq : v = ed.target
          · rw [if_pos hveq] at hdv
            injection hdv with h2
            rw [hndeq] at h2
            have h3 : dcq + ed.weight = dv := by exact_mod_cast h2
            obtain ⟨P0, hP0⟩ := hO9 cur dcq hmc
            refine ⟨P0 ++ [v], ?_⟩
            rw [← h3, hveq]
            exact pathCost_append_edge g s cur P0 dcq hP0 ed hed
          · rw [if_neg hveq] at hdv
            exact hO9 v dv hdv
        · intro v hv
          dsimp only
          rw [upd_eval]
          by_cases hveq : v = ed.target
          · rw [if_pos hveq]
            exact ⟨_, rfl⟩
          · rw [if_neg hveq]
            exact hO10 v hv
        · intro u hu hun huc ed2 hed2 du hdu
          dsimp only at hdu ⊢
          have hune : u ≠ ed.target := by
            intro hc
            rw [hc] at hu
            exact htvio hu
          rw [upd_eval, if_neg hune] at hdu
          rcases hfr u hu hun huc ed2 hed2 du hdu with ⟨dt2, hdt2, hle2⟩ | hnone2
          · by_cases hteq : ed2.target = ed.target
            · left
              refine ⟨((dcq : ℚ) : WithTop ℚ) + ((ed.weight : ℚ) : WithTop ℚ), ?_, ?_⟩
              · rw [upd_eval, if_pos hteq]
              · have hdt2dt : dt2 = dt := by
                  rw [hteq, hmt] at hdt2
                  injection hdt2 with h6
                  exact h6.symm
                rw [hdt2dt] at hle2
                exact le_trans (le_of_lt hlt) hle2
            · left
              refine ⟨dt2, ?_, hle2⟩
              rw [upd_eval, if_neg hteq]
              exact hdt2
          · right
            have hteq : ed2.target ≠ ed.target := by
              intro hc
              rw [hc, hmt] at hnone2
              cases hnone2
            rw [upd_eval, if_neg hteq]
            exact hnone2
        · show upd st.dist ed.target _ cur = st.dist cur
          rw [upd_eval, if_neg htc]
        · intro du hdu
          left
          rw [hmc] at hdu
          have hdceq : ((dcq : ℚ) : WithTop ℚ) = ((du : ℚ) : WithTop ℚ) := by
            injection hdu
          have hdq : dcq = du := by exact_mod_cast hdceq
          refine ⟨((dcq : ℚ) : WithTop ℚ) + ((ed.weight : ℚ) : WithTop ℚ), ?_, ?_⟩
          · show upd st.dist ed.target _ ed.target = _
            rw [upd_eval, if_pos rfl]
          · rw [hndeq, ← hdq]
        · intro v d hd
          dsimp only at hd
          rw [upd_eval] at hd
          by_cases hveq : v = ed.target
          · rw [if_pos hveq] at hd
            injection hd with h2
            refine ⟨dt, ?_, ?_⟩
            · rw [hveq]
              exact hmt
            · rw [← h2]
              exact le_of_lt hlt
          · rw [if_neg hveq] at hd
            exact ⟨d, hd, le_refl d⟩
        · intro v d hd
          dsimp only
          rw [upd_eval]
          by_cases hveq : v = ed.target
          · rw [if_pos hveq]
            refine ⟨((dcq : ℚ) : WithTop ℚ) + ((ed.weight : ℚ) : WithTop ℚ), rfl, ?_⟩
            have hddt : d = dt := by
              rw [hveq, hmt] at hd
              injection hd with h6
              exact h6.symm
            rw [hddt]
            exact le_of_lt hlt
          · rw [if_neg hveq]
            exact ⟨d, hd, le_refl d⟩
        · intro v hv
          dsimp only
          have hveq : v ≠ ed.target := by
            intro hc
            rw [hc, hmt] at hv
            cases hv
          rw [upd_eval, if_neg hveq]
          exact hv
      · rename_i hge
        refine ⟨⟨⟨hO1a, hO1b⟩, hO2, hO3, hO4, hO5, hO6, hO7, hO9, hO10⟩, hfr, rfl, rfl, ?_,
          fun v d hd => ⟨d, hd, le_refl d⟩, fun v d hd => ⟨d, hd, le_refl d⟩, fun v hv => hv⟩
        intro du hdu
        left
        rw [hmc] at hdu
        have hdc : dc = ((du : ℚ) : WithTop ℚ) := by
          injection hdu
        refine ⟨dt, hmt, ?_⟩
        rw [hdc] at hge
        have h1 : ¬ (((du : ℚ) : WithTop ℚ) + ((ed.weight : ℚ) : WithTop ℚ) < dt) := hge
        push_neg at h1
        refine le_trans h1 ?_
        rw [show ((du : ℚ) : WithTop ℚ) + ((ed.weight : ℚ) : WithTop ℚ) =
          (((du + ed.weight : ℚ)) : WithTop ℚ) by push_cast; rfl]

theorem dijkOpt_fold_fwd (g : Graph) (s endN cur : ℤ) (hw : WeightsNonneg g) :
    ∀ (l : List GraphEdge), (∀ ed ∈ l, ed ∈ g.getNeighbors cur) →
    ∀ (st : DState), DijkClauses g s st → DijkFrontierExcept g endN cur st →
      cur ∈ st.visitedInOrder →
      (∀ (v : ℤ) (d : WithTop ℚ), st.dist v = some d →
        ∃ d', (l.foldl (dijkstraRelax cur) st).dist v = some d' ∧ d' ≤ d) ∧
      (∀ v : ℤ, st.dist v = none → (l.foldl (dijkstraRelax cur) st).dist v = none) := by
  intro l
  induction l with
  | nil =>
    intro _ st _ _ _
    exact ⟨fun v d hd => ⟨d, hd, le_refl d⟩, fun v hv => hv⟩
  | cons ed rest ih =>
    intro hsub st hcl hfr hcur
    obtain ⟨hcl1, hfr1, hvio1, hdcur1, hpost1, hback1, hfwd1, hnone1⟩ :=
      dijkOpt_relax g s endN cur st ed hw (hsub ed (List.mem_cons_self ed rest)) hcl hfr hcur
    have hcur1 : cur ∈ (dijkstraRelax cur st ed).visitedInOrder := by
      rw [hvio1]
      exact hcur
    obtain ⟨hfwd2, hnone2⟩ :=
      ih (fun x hx => hsub x (List.mem_cons_of_mem ed hx)) (dijkstraRelax cur st ed)
        hcl1 hfr1 hcur1
    rw [List.foldl_cons]
    constructor
    · intro v d hd
      obtain ⟨d1, hd1, hle1⟩ := hfwd1 v d hd
      obtain ⟨d2, hd2, hle2⟩ := hfwd2 v d1 hd1
      exact ⟨d2, hd2, le_trans hle2 hle1⟩
    · intro v hv
      exact hnone2 v (hnone1 v hv)

theorem dijkOpt_fold (g : Graph) (s endN cur : ℤ) (hw : WeightsNonneg g) :
    ∀ (l : List GraphEdge), (∀ ed ∈ l, ed ∈ g.getNeighbors cur) →
    ∀ (st : DState), DijkClauses g s st → DijkFrontierExcept g endN cur st →
      cur ∈ st.visitedInOrder →
      DijkClauses g s (l.foldl (dijkstraRelax cur) st) ∧
      DijkFrontierExcept g endN cur (l.foldl (dijkstraRelax cur) st) ∧
      (l.foldl (dijkstraRelax cur) st).visitedInOrder = st.visitedInOrder ∧
      (l.foldl (dijkstraRelax cur) st).dist cur = st.dist cur ∧
      (∀ ed ∈ l, ∀ du : ℚ, st.dist cur = some ((du : ℚ) : WithTop ℚ) →
        (∃ dt : WithTop ℚ, (l.foldl (dijkstraRelax cur) st).dist ed.target = some dt ∧
          dt ≤ (((du + ed.weight : ℚ)) : WithTop ℚ)) ∨
        (l.foldl (dijkstraRelax cur) st).dist ed.target = none) := by
  intro l
  induction l with
  | nil =>
    intro _ st hcl hfr hcur
    exact ⟨hcl, hfr, rfl, rfl, fun ed hed => absurd hed (List.not_mem_nil ed)⟩
  | cons ed rest ih =>
    intro hsub st hcl hfr hcur
    obtain ⟨hcl1, hfr1, hvio1, hdcur1, hpost1, hback1, hfwd1, hnone1⟩ :=
      dijkOpt_relax g s endN cur st ed hw (hsub ed (List.mem_cons_self ed rest)) hcl hfr hcur
    have hcur1 : cur ∈ (dijkstraRelax cur st ed).visitedInOrder := by
      rw [hvio1]
      exact hcur
    have hrestsub : ∀ x ∈ rest, x ∈ g.getNeighbors cur :=
      fun x hx => hsub x (List.mem_cons_of_mem ed hx)
    obtain ⟨hcl2, hfr2, hvio2, hdcur2, hpost2⟩ :=
      ih hrestsub (dijkstraRelax cur st ed) hcl1 hfr1 hcur1
    obtain ⟨hfoldfwd, hfoldnone⟩ :=
      dijkOpt_fold_fwd g s endN cur hw rest hrestsub (dijkstraRelax cur st ed) hcl1 hfr1 hcur1
    rw [List.foldl_cons]
    refine ⟨hcl2, hfr2, hvio2.trans hvio1, hdcur2.trans hdcur1, ?_⟩
    intro ed2 hed2 du hdu
    rcases List.mem_cons.1 hed2 with hed3 | hed3
    · subst hed3
      rcases hpost1 du hdu with ⟨dt1, hdt1, hle1⟩ | hnone0
      · obtain ⟨dt2, hdt2, hle2⟩ := hfoldfwd ed2.target dt1 hdt1
        exact Or.inl ⟨dt2, hdt2, le_trans hle2 hle1⟩
      · exact Or.inr (hfoldnone ed2.target hnone0)
    · refine hpost2 ed2 hed3 du ?_
      rw [hdcur1]
      exact hdu

theorem dijkstraLoopOpt (g : Graph) (s endN : ℤ) (hw : WeightsNonneg g)
    (hclosed : GraphClosed g) :
    ∀ (fuel : ℕ) (st st' : DState),
      DijkOpt g s endN st → endN ∉ st.visitedInOrder →
      dijkstraLoop g endN fuel st = some st' → DijkOpt g s endN st' := by
  intro fuel
  induction fuel with
  | zero =>
    intro st st' hopt _ h
    cases hst : st.pq with
    | nil =>
      rw [dijkstraLoop_nil g endN 0 st hst] at h
      injection h with h1
      rw [← h1]
      exact hopt
    | cons c cs =>
      rw [dijkstraLoop_zero_cons g endN st c cs hst] at h
      cases h
  | succ f ih =>
    intro st st' hopt hnotin h
    cases hst : st.pq with
    | nil =>
      rw [dijkstraLoop_nil g endN (f + 1) st hst] at h
      injection h with h1
      rw [← h1]
      exact hopt
    | cons c cs =>
      obtain ⟨hcl1, hfr1⟩ := dijkOpt_pop g s endN st c cs hw hclosed hst hopt hnotin
      by_cases hce : c.element = endN
      · rw [dijkstraLoop_cons_found g endN f st c cs hst hce] at h
        injection h with h1
        rw [← h1]
        refine ⟨hcl1, ?_⟩
        intro u hu hun ed hed du hdu
        refine hfr1 u hu hun ?_ ed hed du hdu
        rw [hce]
        exact hun
      · rw [dijkstraLoop_cons_step g endN f st c cs hst hce] at h
        have hcur1 : c.element ∈ ({ st with
            pq := cs
            visitedInOrder := st.visitedInOrder ++ [c.element] } : DState).visitedInOrder :=
          List.mem_append.2 (Or.inr (List.mem_singleton.2 rfl))
        obtain ⟨hcl2, hfr2, hvio2, hdcur2, hpost2⟩ :=
          dijkOpt_fold g s endN c.element hw (g.getNeighbors c.element) (fun x hx => hx)
            _ hcl1 hfr1 hcur1
        refine ih _ st' ⟨hcl2, ?_⟩ ?_ h
        · intro u hu hun ed hed du hdu
          rw [hvio2] at hu
          by_cases huc : u = c.element
          · subst huc
            refine hpost2 ed hed du ?_
            rw [← hdcur2]
            exact hdu
          · exact hfr2 u (by rw [hvio2]; exact hu) hun huc ed hed du hdu
        · rw [hvio2]
          intro hc
          rcases List.mem_append.1 hc with hc2 | hc2
          · exact hnotin hc2
          · rw [List.mem_singleton] at hc2
            exact hce hc2.symm

theorem dijkstraLoop_final (g : Graph) (endN : ℤ) :
    ∀ (fuel : ℕ) (st st' : DState), dijkstraLoop g endN fuel st = some st' →
      st'.pq = [] ∨ endN ∈ st'.visitedInOrder := by
  intro fuel
  induction fuel with
  | zero =>
    intro st st' h
    cases hst : st.pq with
    | nil =>
      rw [dijkstraLoop_nil g endN 0 st hst] at h
      injection h with h1
      left
      rw [← h1]
      exact hst
    | cons c cs =>
      rw [dijkstraLoop_zero_cons g endN st c cs hst] at h
      cases h
  | succ f ih =>
    intro st st' h
    cases hst : st.pq with
    | nil =>
      rw [dijkstraLoop_nil g endN (f + 1) st hst] at h
      injection h with h1
      left
      rw [← h1]
      exact hst
    | cons c cs =>
      by_cases hce : c.element = endN
      · rw [dijkstraLoop_cons_found g endN f st c cs hst hce] at h
        injection h with h1
        right
        rw [← h1]
        rw [← hce]
        exact List.mem_append.2 (Or.inr (List.mem_singleton.2 rfl))
      · rw [dijkstraLoop_cons_step g endN f st c cs hst hce] at h
        exact ih _ st' h

theorem dijk_complete (g : Graph) (s endN : ℤ) (st : DState)
    (hclosed : GraphClosed g) (he : endN ∈ g.nodeIds)
    (hopt : DijkOpt g s endN st) (hqe : st.pq = []) :
    ∀ (P : List ℤ) (u w2 : ℤ) (cP : ℚ), PathCost g u w2 P cP → w2 = endN →
      u ∈ st.visitedInOrder → ∀ du : ℚ, st.dist u = some ((du : ℚ) : WithTop ℚ) →
      endN ∈ st.visitedInOrder := by
  obtain ⟨⟨⟨hO1a, hO1b⟩, hO2, hO3, hO4, hO5, hO6, hO7, hO9, hO10⟩, hfrE⟩ := hopt
  intro P u w2 cP hp
  induction hp with
  | single v =>
    intro hw2 hvio du _
    rw [← hw2]
    exact hvio
  | cons u w2 ed P c2 hed hp ih =>
    intro hw2 hvio du hdu
    by_cases hue : u = endN
    · rw [← hue]
      exact hvio
    · rcases hfrE u hvio hue ed hed du hdu with ⟨dt, hdt, hdtle⟩ | hnone
      · obtain ⟨dtq, hdtq, _⟩ := wt_le_coe hdtle
        rw [hdtq] at hdt
        by_cases htvio : ed.target ∈ st.visitedInOrder
        · exact ih hw2 htvio dtq hdt
        · exfalso
          have hmem := hO6 ed.target htvio dtq hdt
          rw [hqe] at hmem
          cases hmem
      · exfalso
        have htn : ed.target ∉ g.nodeIds := by
          intro hc2
          obtain ⟨d, hd⟩ := hO10 ed.target hc2
          rw [hnone] at hd
          cases hd
        have hemp : g.getNeighbors ed.target = [] := hclosed ed.target htn
        cases hp with
        | single =>
          rw [hw2] at htn
          exact htn he
        | cons z1 z2 ed3 p3 c3 hmem3 hp3 =>
          rw [hemp] at hmem3
          cases hmem3

theorem dijk_chain (g : Graph) (s : ℤ) (st : DState)
    (hO1a : st.dist s = some ((0 : ℚ) : WithTop ℚ))
    (hO1b : st.prev s = some none)
    (hO3 : ∀ v : ℤ, v ≠ s → ∀ dv : ℚ, st.dist v = some ((dv : ℚ) : WithTop ℚ) →
      ∃ (u : ℤ) (du : ℚ) (ed : GraphEdge), st.prev v = some (some u) ∧
        st.dist u = some ((du : ℚ) : WithTop ℚ) ∧ ed ∈ g.getNeighbors u ∧ ed.target = v ∧
        du + ed.weight ≤ dv) :
    ∀ (q : List ℤ) (a : ℤ) (da : ℚ), q.head? = some a →
      st.dist a = some ((da : ℚ) : WithTop ℚ) →
      List.Chain' (fun x y => st.prev x = some (some y)) q →
      ∀ z, q.getLast? = some z → st.prev z = some none →
      z = s ∧ ∃ C : ℚ, PathCost g s a q.reverse C ∧ C ≤ da := by
  intro q
  induction q with
  | nil => intro a da hh _ _ z hl _; cases hh
  | cons x rest ih =>
    intro a da hh hda hch z hl hz
    have hxa : x = a := by
      have : some x = some a := hh
      injection this
    subst hxa
    cases rest with
    | nil =>
      have hxz : x = z := by
        have : some x = some z := hl
        injection this
      have hxs : x = s := by
        by_contra hxs
        obtain ⟨u, du, ed, h1, _⟩ := hO3 x hxs da hda
        rw [← hxz] at hz
        rw [hz] at h1
        injection h1 with h2
        cases h2
      subst hxs
      refine ⟨hxz ▸ rfl, 0, ?_, ?_⟩
      · show PathCost g x x [x].reverse 0
        simpa using PathCost.single x
      · have hda0 : ((0 : ℚ) : WithTop ℚ) = ((da : ℚ) : WithTop ℚ) := by
          rw [hO1a] at hda
          injection hda
      -- derive 0 ≤ da
        have : (0 : ℚ) = da := by exact_mod_cast hda0
        rw [← this]
    | cons b rest2 =>
      have hab : st.prev x = some (some b) := (List.chain'_cons.1 hch).1
      have hch2 : List.Chain' (fun v w => st.prev v = some (some w)) (b :: rest2) :=
        (List.chain'_cons.1 hch).2
      have hl2 : (b :: rest2).getLast? = some z := by
        rw [List.getLast?_cons_cons] at hl
        exact hl
      have hxs : x ≠ s := by
        intro hc
        rw [hc, hO1b] at hab
        injection hab with h2
        cases h2
      obtain ⟨u, du, ed, h1, h2, h3, h4, h5⟩ := hO3 x hxs da hda
      have hub : u = b := by
        rw [hab] at h1
        injection h1 with h6
        injection h6 with h7
        exact h7.symm
      subst hub
      obtain ⟨hzs, C', hC', hC'le⟩ := ih u du rfl h2 hch2 z hl2 hz
      refine ⟨hzs, C' + ed.weight, ?_, by linarith⟩
      have := pathCost_append_edge g s u (u :: rest2).reverse C' hC' ed h3
      rw [h4] at this
      show PathCost g s x ((x :: u :: rest2).reverse) (C' + ed.weight)
      rw [List.reverse_cons]
      exact this

theorem dijkstra_optimal (g : Graph) (s e : ℤ) (fuel : ℕ) (r : AlgorithmResult)
    (hw : WeightsNonneg g) (hclosed : GraphClosed g)
    (hs : s ∈ g.nodeIds) (he : e ∈ g.nodeIds)
    (hreach : Reachable g s e)
    (h : dijkstraRun g s e fuel = some r) :
    ∃ de : ℚ, PathCost g s e r.path de ∧
      ∀ (q : List ℤ) (c : ℚ), PathCost g s e q c → de ≤ c := by
  obtain ⟨st, hl, hvio, hprev, p, hwk, hcase⟩ := dijkstraRun_spec g s e fuel r h
  have hopt : DijkOpt g s e st := by
    refine dijkstraLoopOpt g s e hw hclosed fuel _ st (dijkOpt_init g s e hs) ?_ hl
    intro hc
    cases hc
  obtain ⟨hcl, hfrE⟩ := hopt
  obtain ⟨⟨hO1a, hO1b⟩, hO2, hO3, hO4, hO5, hO6, hO7, hO9, hO10⟩ := hcl
  obtain ⟨P0, c0, hP0⟩ := hreach
  have hev : e ∈ st.visitedInOrder := by
    rcases dijkstraLoop_final g e fuel _ st hl with hqe | hin
    · have hsv : s ∈ st.visitedInOrder := by
        by_contra hsv
        have hmem := hO6 s hsv 0 hO1a
        rw [hqe] at hmem
        cases hmem
      exact dijk_complete g s e st hclosed he
        ⟨⟨⟨hO1a, hO1b⟩, hO2, hO3, hO4, hO5, hO6, hO7, hO9, hO10⟩, hfrE⟩ hqe
        P0 s e c0 hP0 rfl hsv 0 hO1a
    · exact hin
  obtain ⟨deW, hde, hdele⟩ := hO7 e hev P0 c0 hP0
  obtain ⟨de, hdeq, _⟩ := wt_le_coe hdele
  rw [hdeq] at hde
  obtain ⟨q, hpq, hhead, hch, z, hzl, hzn⟩ := walkPrev_spec st.prev fuel e [] p hwk
  rw [List.nil_append] at hpq
  obtain ⟨hzs, C, hC, hCle⟩ :=
    dijk_chain g s st hO1a hO1b hO3 q e de hhead hde hch z hzl hzn
  have hplast : p.getLast? = some s := by
    rw [hpq, hzl, hzs]
  rcases hcase with ⟨_, hpath⟩ | ⟨hnlast, _⟩
  · have hrp : r.path = q.reverse := by
      rw [hpath, hpq]
    refine ⟨C, by rw [hrp]; exact hC, ?_⟩
    intro q' c' hq'
    obtain ⟨deW2, hde2, hle2⟩ := hO7 e hev q' c' hq'
    rw [hde] at hde2
    have hdw : ((de : ℚ) : WithTop ℚ) = deW2 := by
      injection hde2
    rw [← hdw] at hle2
    have hdec' : de ≤ c' := by exact_mod_cast hle2
    linarith
  · exact absurd hplast hnlast

theorem hfun_eq (g : Graph) (hv : ℚ → ℚ → ℚ → ℚ → ℚ) (endData : GraphNode) (x : ℤ)
    (nd : GraphNode) (h : g.getNode x = some nd) :
    hfun g hv endData x = hv nd.lat nd.lon endData.lat endData.lon := by
  unfold hfun
  rw [h]

theorem aStarOpt_relax (g : Graph) (hv : ℚ → ℚ → ℚ → ℚ → ℚ) (endData : GraphNode)
    (s endN cur : ℤ) (st st' : AState) (ed : GraphEdge)
    (hw : WeightsNonneg g)
    (hed : ed ∈ g.getNeighbors cur)
    (hcl : AStarClauses g hv endData s st)
    (hfr : ∀ u ∈ st.visitedInOrder, u ≠ endN → u ≠ cur →
      ∀ ed2 ∈ g.getNeighbors u, ∀ du : ℚ, st.gScore u = some ((du : ℚ) : WithTop ℚ) →
        (∃ dt : WithTop ℚ, st.gScore ed2.target = some dt ∧
          dt ≤ (((du + ed2.weight : ℚ)) : WithTop ℚ)) ∨ st.gScore ed2.target = none)
    (hcur : cur ∈ st.visitedInOrder)
    (hrel : aStarRelax g hv endData cur st ed = some st') :
    AStarClauses g hv endData s st' ∧
    (∀ u ∈ st'.visitedInOrder, u ≠ endN → u ≠ cur →
      ∀ ed2 ∈ g.getNeighbors u, ∀ du : ℚ, st'.gScore u = some ((du : ℚ) : WithTop ℚ) →
        (∃ dt : WithTop ℚ, st'.gScore ed2.target = some dt ∧
          dt ≤ (((du + ed2.weight : ℚ)) : WithTop ℚ)) ∨ st'.gScore ed2.target = none) ∧
    st'.visitedInOrder = st.visitedInOrder ∧
    st'.gScore cur = st.gScore cur ∧
    (∀ du : ℚ, st.gScore cur = some ((du : ℚ) : WithTop ℚ) →
      (∃ dt : WithTop ℚ, st'.gScore ed.target = some dt ∧
        dt ≤ (((du + ed.weight : ℚ)) : WithTop ℚ)) ∨
      st'.gScore ed.target = none) ∧
    (∀ (v : ℤ) (d : WithTop ℚ), st.gScore v = some d →
      ∃ d', st'.gScore v = some d' ∧ d' ≤ d) ∧
    (∀ v : ℤ, st.gScore v = none → st'.gScore v = none) := by
  obtain ⟨⟨hO1a, hO1b⟩, hO2, hO3, hO4, hO5, hO6, hO7, hO9, hO10⟩ := hcl
  have hwnn : 0 ≤ ed.weight := hw cur ed hed
  unfold aStarRelax at hrel
  split at hrel
  · rename_i hmc
    injection hrel with h0
    rw [← h0]
    refine ⟨⟨⟨hO1a, hO1b⟩, hO2, hO3, hO4, hO5, hO6, hO7, hO9, hO10⟩, hfr, rfl, rfl, ?_,
      fun v d hd => ⟨d, hd, le_refl d⟩, fun v hv => hv⟩
    intro du hdu
    rw [hmc] at hdu
    cases hdu
  · rename_i gc hmc
    dsimp only at hrel
    split at hrel
    · rename_i hmt
      injection hrel with h0
      rw [← h0]
      refine ⟨⟨⟨hO1a, hO1b⟩, hO2, hO3, hO4, hO5, hO6, hO7, hO9, hO10⟩, hfr, rfl, rfl, ?_,
        fun v d hd => ⟨d, hd, le_refl d⟩, fun v hv => hv⟩
      intro du hdu
      right
      exact hmt
    · rename_i gt hmt
      split at hrel
      · rename_i hlt
        split at hrel
        · cases hrel
        · rename_i nd hnd
          injection hrel with h0
          obtain ⟨gcq, hgcq⟩ : ∃ b : ℚ, gc = ((b : ℚ) : WithTop ℚ) := by
            cases gc with
            | top =>
              rw [top_add] at hlt
              exact absurd hlt not_top_lt
            | coe b => exact ⟨b, rfl⟩
          subst hgcq
          have hndeq : ((gcq : ℚ) : WithTop ℚ) + ((ed.weight : ℚ) : WithTop ℚ) =
              (((gcq + ed.weight : ℚ)) : WithTop ℚ) := by
            push_cast
            rfl
          have hndlt : (((gcq + ed.weight : ℚ)) : WithTop ℚ) < gt := by
            rw [← hndeq]
            exact hlt
          have hcurq : 0 ≤ gcq := hO2 cur gcq hmc
          have hhne : hv nd.lat nd.lon endData.lat endData.lon = hfun g hv endData ed.target :=
            (hfun_eq g hv endData ed.target nd hnd).symm
          have hprio : ((gcq : ℚ) : WithTop ℚ) + ((ed.weight : ℚ) : WithTop ℚ) +
              ((hv nd.lat nd.lon endData.lat endData.lon : ℚ) : WithTop ℚ) =
              ((((gcq + ed.weight) + hfun g hv endData ed.target : ℚ)) : WithTop ℚ) := by
            rw [hhne]
            push_cast
            rfl
          have htvio : ed.target ∉ st.visitedInOrder := by
            intro hc
            obtain ⟨P0, hP0⟩ := hO9 cur gcq hmc
            have hP1 := pathCost_append_edge g s cur P0 gcq hP0 ed hed
            obtain ⟨dtv, hdtv, hdtvle⟩ := hO7 ed.target hc _ _ hP1
            rw [hmt] at hdtv
            have : gt = dtv := by injection hdtv
            rw [← this] at hdtvle
            exact absurd hndlt (not_lt.2 hdtvle)
          have hts : ed.target ≠ s := by
            intro hc
            rw [hc, hO1a] at hmt
            have hdt0 : ((0 : ℚ) : WithTop ℚ) = gt := by injection hmt
            rw [← hdt0] at hndlt
            have : gcq + ed.weight < 0 := by exact_mod_cast hndlt
            linarith
          have htc : cur ≠ ed.target := by
            intro hc
            rw [hc] at hcur
            exact htvio hcur
          rw [← h0]
          refine ⟨⟨⟨?_, ?_⟩, ?_, ?_, ?_, ?_, ?_, ?_, ?_, ?_⟩, ?_, rfl, ?_, ?_, ?_, ?_⟩
          · show upd st.gScore ed.target _ s = some ((0 : ℚ) : WithTop ℚ)
            rw [upd_eval, if_neg (fun hc => hts hc.symm)]
            exact hO1a
          · show upd st.prev ed.target (some cur) s = some none
            rw [upd_eval, if_neg (fun hc => hts hc.symm)]
            exact hO1b
          · intro v dv hdv
            dsimp only at hdv
            rw [upd_eval] at hdv
            by_cases hveq : v = ed.target
            · rw [if_pos hveq] at hdv
              injection hdv with h2
              rw [hndeq] at h2
              have h3 : gcq + ed.weight = dv := by exact_mod_cast h2
              rw [← h3]
              linarith
            · rw [if_neg hveq] at hdv
              exact hO2 v dv hdv
          · intro v hvs dv hdv
            dsimp only at hdv ⊢
            rw [upd_eval] at hdv
            by_cases hveq : v = ed.target
            · rw [if_pos hveq] at hdv
              injection hdv with h2
              rw [hndeq] at h2
              have h3 : gcq + ed.weight = dv := by exact_mod_cast h2
              refine ⟨cur, gcq, ed, ?_, ?_, hed, hveq.symm, ?_⟩
              · rw [upd_eval, if_pos hveq]
              · rw [upd_eval, if_neg htc]
                exact hmc
              · rw [← h3]
            · rw [if_neg hveq] at hdv
              obtain ⟨u, du, ed2, h1, h2, h3, h4, h5⟩ := hO3 v hvs dv hdv
              by_cases hueq : u = ed.target
              · refine ⟨u, gcq + ed.weight, ed2, ?_, ?_, h3, h4, ?_⟩
                · rw [upd_eval, if_neg hveq]
                  exact h1
                · rw [upd_eval, if_pos hueq, ← hndeq]
                · have hdud : ((du : ℚ) : WithTop ℚ) = gt := by
                    rw [hueq, hmt] at h2
                    injection h2 with h6
                    exact h6.symm
                  have hlt2 : gcq + ed.weight < du := by
                    rw [← hdud] at hndlt
                    exact_mod_cast hndlt
                  linarith
              · refine ⟨u, du, ed2, ?_, ?_, h3, h4, h5⟩
                · rw [upd_eval, if_neg hveq]
                  exact h1
                · rw [upd_eval, if_neg hueq]
                  exact h2
          · show PQSorted (pqEnqueue _ st.pq)
            exact pqEnqueue_sorted _ _ hO4
          · intro x hx
            dsimp only at hx
            rcases (mem_pqEnqueue _ x _).1 hx with hx2 | hx2
            · refine ⟨gcq + ed.weight, (((gcq + ed.weight : ℚ)) : WithTop ℚ), ?_, ?_, le_refl _⟩
              · rw [hx2]
                show ((gcq : ℚ) : WithTop ℚ) + ((ed.weight : ℚ) : WithTop ℚ) +
                  ((hv nd.lat nd.lon endData.lat endData.lon : ℚ) : WithTop ℚ) = _
                rw [hprio]
              · rw [hx2]
                show upd st.gScore ed.target _ ed.target = _
                rw [upd_eval, if_pos rfl, ← hndeq]
            · obtain ⟨px, dx, hpr, hdx, hdxle⟩ := hO5 x hx2
              by_cases hxeq : x.element = ed.target
              · refine ⟨px, ((gcq : ℚ) : WithTop ℚ) + ((ed.weight : ℚ) : WithTop ℚ), hpr, ?_, ?_⟩
                · show upd st.gScore ed.target _ x.element = _
                  rw [upd_eval, if_pos hxeq]
                · have hdxdt : dx = gt := by
                    rw [hxeq, hmt] at hdx
                    injection hdx with h6
                    exact h6.symm
                  rw [hdxdt] at hdxle
                  exact le_trans (le_of_lt hlt) hdxle
              · refine ⟨px, dx, hpr, ?_, hdxle⟩
                show upd st.gScore ed.target _ x.element = _
                rw [upd_eval, if_neg hxeq]
                exact hdx
          · intro v hv dv hdv
            dsimp only at hdv ⊢
            rw [upd_eval] at hdv
            by_cases hveq : v = ed.target
            · rw [if_pos hveq] at hdv
              injection hdv with h2
              rw [hndeq] at h2
              have h3 : gcq + ed.weight = dv := by exact_mod_cast h2
              refine (mem_pqEnqueue _ _ _).2 (Or.inl ?_)
              rw [hveq]
              congr 1
              rw [hprio, ← h3]
            · rw [if_neg hveq] at hdv
              exact (mem_pqEnqueue _ _ _).2 (Or.inr (hO6 v hv dv hdv))
          · intro u hu P cP hp
            have hune : u ≠ ed.target := by
              intro hc
              rw [hc] at hu
              exact htvio hu
            obtain ⟨du, hdu, hle⟩ := hO7 u hu P cP hp
            refine ⟨du, ?_, hle⟩
            dsimp only
            rw [upd_eval, if_neg hune]
            exact hdu
          · intro v dv hdv
            dsimp only at hdv
            rw [upd_eval] at hdv
            by_cases hveq : v = ed.target
            · rw [if_pos hveq] at hdv
              injection hdv with h2
              rw [hndeq] at h2
              have h3 : gcq + ed.weight = dv := by exact_mod_cast h2
              obtain ⟨P0, hP0⟩ := hO9 cur gcq hmc
              refine ⟨P0 ++ [v], ?_⟩
              rw [← h3, hveq]
              exact pathCost_append_edge g s cur P0 gcq hP0 ed hed
            · rw [if_neg hveq] at hdv
              exact hO9 v dv hdv
          · intro v hv
            dsimp only
            rw [upd_eval]
            by_cases hveq : v = ed.target
            · rw [if_pos hveq]
              exact ⟨_, rfl⟩
            · rw [if_neg hveq]
              exact hO10 v hv
          · intro u hu hun huc ed2 hed2 du hdu
            dsimp only at hdu ⊢
            have hune : u ≠ ed.target := by
              intro hc
              rw [hc] at hu
              exact htvio hu
            rw [upd_eval, if_neg hune] at hdu
            rcases hfr u hu hun huc ed2 hed2 du hdu with ⟨dt2, hdt2, hle2⟩ | hnone2
            · by_cases hteq : ed2.target = ed.target
              · left
                refine ⟨((gcq : ℚ) : WithTop ℚ) + ((ed.weight : ℚ) : WithTop ℚ), ?_, ?_⟩
                · rw [upd_eval, if_pos hteq]
                · have hdt2dt : dt2 = gt := by
                    rw [hteq, hmt] at hdt2
                    injection hdt2 with h6
                    exact h6.symm
                  rw [hdt2dt] at hle2
                  exact le_trans (le_of_lt hlt) hle2
              · left
                refine ⟨dt2, ?_, hle2⟩
                rw [upd_eval, if_neg hteq]
                exact hdt2
            · right
              have hteq : ed2.target ≠ ed.target := by
                intro hc
                rw [hc, hmt] at hnone2
                cases hnone2
              rw [upd_eval, if_neg hteq]
              exact hnone2
          · show upd st.gScore ed.target _ cur = st.gScore cur
            rw [upd_eval, if_neg htc]
          · intro du hdu
            left
            rw [hmc] at hdu
            have hdceq : ((gcq : ℚ) : WithTop ℚ) = ((du : ℚ) : WithTop ℚ) := by
              injection hdu
            have hdq : gcq = du := by exact_mod_cast hdceq
            refine ⟨((gcq : ℚ) : WithTop ℚ) + ((ed.weight : ℚ) : WithTop ℚ), ?_, ?_⟩
            · show upd st.gScore ed.target _ ed.target = _
              rw [upd_eval, if_pos rfl]
            · rw [hndeq, ← hdq]
          · intro v d hd
            dsimp only
            rw [upd_eval]
            by_cases hveq : v = ed.target
            · rw [if_pos hveq]
              refine ⟨((gcq : ℚ) : WithTop ℚ) + ((ed.weight : ℚ) : WithTop ℚ), rfl, ?_⟩
              have hddt : d = gt := by
                rw [hveq, hmt] at hd
                injection hd with h6
                exact h6.symm
              rw [hddt]
              exact le_of_lt hlt
            · rw [if_neg hveq]
              exact ⟨d, hd, le_refl d⟩
          · intro v hv
            dsimp only
            have hveq : v ≠ ed.target := by
              intro hc
              rw [hc, hmt] at hv
              cases hv
            rw [upd_eval, if_neg hveq]
            exact hv
      · rename_i hge
        injection hrel with h0
        rw [← h0]
        refine ⟨⟨⟨hO1a, hO1b⟩, hO2, hO3, hO4, hO5, hO6, hO7, hO9, hO10⟩, hfr, rfl, rfl, ?_,
          fun v d hd => ⟨d, hd, le_refl d⟩, fun v hv => hv⟩
        intro du hdu
        left
        rw [hmc] at hdu
        have hdc : gc = ((du : ℚ) : WithTop ℚ) := by
          injection hdu
        refine ⟨gt, hmt, ?_⟩
        rw [hdc] at hge
        have h1 : ¬ (((du : ℚ) : WithTop ℚ) + ((ed.weight : ℚ) : WithTop ℚ) < gt) := hge
        push_neg at h1
        refine le_trans h1 ?_
        rw [show ((du : ℚ) : WithTop ℚ) + ((ed.weight : ℚ) : WithTop ℚ) =
          (((du + ed.weight : ℚ)) : WithTop ℚ) by push_cast; rfl]

theorem aStarOpt_init (g : Graph) (hv : ℚ → ℚ → ℚ → ℚ → ℚ) (endData : GraphNode)
    (s : ℤ) (hs : s ∈ g.nodeIds) (hs0 : ℚ) (hs0eq : hs0 = hfun g hv endData s) :
    AStarClauses g hv endData s (aStarInit g s hs0) := by
  refine ⟨⟨?_, ?_⟩, ?_, ?_, ?_, ?_, ?_, ?_, ?_, ?_⟩
  · show upd (initMap g.nodeIds (⊤ : WithTop ℚ)) s ((0 : ℚ) : WithTop ℚ) s =
      some ((0 : ℚ) : WithTop ℚ)
    rw [upd_eval, if_pos rfl]
  · show initMap g.nodeIds (none : Option ℤ) s = some none
    rw [initMap_eval, if_pos hs]
  · intro v dv hdv
    have h1 : upd (initMap g.nodeIds (⊤ : WithTop ℚ)) s ((0 : ℚ) : WithTop ℚ) v =
      some ((dv : ℚ) : WithTop ℚ) := hdv
    rw [upd_eval] at h1
    by_cases hvs : v = s
    · rw [if_pos hvs] at h1
      injection h1 with h2
      have h3 : (0 : ℚ) = dv := WithTop.coe_inj.1 h2
      rw [← h3]
    · rw [if_neg hvs, initMap_eval] at h1
      split at h1
      · injection h1 with h2
        exact absurd h2.symm WithTop.coe_ne_top
      · cases h1
  · intro v hvs dv hdv
    exfalso
    have h1 : upd (initMap g.nodeIds (⊤ : WithTop ℚ)) s ((0 : ℚ) : WithTop ℚ) v =
      some ((dv : ℚ) : WithTop ℚ) := hdv
    rw [upd_eval, if_neg hvs, initMap_eval] at h1
    split at h1
    · injection h1 with h2
      exact absurd h2.symm WithTop.coe_ne_top
    · cases h1
  · show PQSorted [(⟨s, ((hs0 : ℚ) : WithTop ℚ)⟩ : PQElem ℤ)]
    exact List.pairwise_singleton _ _
  · intro x hx
    have hx1 : x ∈ [(⟨s, ((hs0 : ℚ) : WithTop ℚ)⟩ : PQElem ℤ)] := hx
    rw [List.mem_singleton] at hx1
    refine ⟨0, ((0 : ℚ) : WithTop ℚ), ?_, ?_, le_refl _⟩
    · rw [hx1]
      show ((hs0 : ℚ) : WithTop ℚ) = _
      rw [hs0eq]
      norm_num
    · rw [hx1]
      show upd (initMap g.nodeIds (⊤ : WithTop ℚ)) s ((0 : ℚ) : WithTop ℚ) s =
        some ((0 : ℚ) : WithTop ℚ)
      rw [upd_eval, if_pos rfl]
  · intro v _ dv hdv
    have h1 : upd (initMap g.nodeIds (⊤ : WithTop ℚ)) s ((0 : ℚ) : WithTop ℚ) v =
      some ((dv : ℚ) : WithTop ℚ) := hdv
    rw [upd_eval] at h1
    by_cases hvs : v = s
    · rw [if_pos hvs] at h1
      injection h1 with h2
      have h3 : (0 : ℚ) = dv := WithTop.coe_inj.1 h2
      rw [hvs]
      have : ((dv + hfun g hv endData s : ℚ) : WithTop ℚ) = ((hs0 : ℚ) : WithTop ℚ) := by
        rw [hs0eq, ← h3]
        norm_num
      rw [this]
      exact List.mem_singleton.2 rfl
    · exfalso
      rw [if_neg hvs, initMap_eval] at h1
      split at h1
      · injection h1 with h2
        exact absurd h2.symm WithTop.coe_ne_top
      · cases h1
  · intro u hu
    cases hu
  · intro v dv hdv
    have h1 : upd (initMap g.nodeIds (⊤ : WithTop ℚ)) s ((0 : ℚ) : WithTop ℚ) v =
      some ((dv : ℚ) : WithTop ℚ) := hdv
    rw [upd_eval] at h1
    by_cases hvs : v = s
    · rw [if_pos hvs] at h1
      injection h1 with h2
      have h3 : (0 : ℚ) = dv := WithTop.coe_inj.1 h2
      refine ⟨[s], ?_⟩
      rw [hvs, ← h3]
      exact PathCost.single s
    · exfalso
      rw [if_neg hvs, initMap_eval] at h1
      split at h1
      · injection h1 with h2
        exact absurd h2.symm WithTop.coe_ne_top
      · cases h1
  · intro v hvm
    show ∃ d, upd (initMap g.nodeIds (⊤ : WithTop ℚ)) s ((0 : ℚ) : WithTop ℚ) v = some d
    rw [upd_eval]
    by_cases hvs : v = s
    · rw [if_pos hvs]
      exact ⟨_, rfl⟩
    · rw [if_neg hvs, initMap_eval, if_pos hvm]
      exact ⟨_, rfl⟩

theorem aStar_cut (g : Graph) (hv : ℚ → ℚ → ℚ → ℚ → ℚ) (endData : GraphNode) (s : ℤ)
    (st : AState)
    (hw : WeightsNonneg g) (hclosed : GraphClosed g)
    (hcons : Consistent g hv endData)
    (hcl : AStarClauses g hv endData s st)
    (hfr : ∀ u ∈ st.visitedInOrder, ∀ ed ∈ g.getNeighbors u, ∀ du : ℚ,
      st.gScore u = some ((du : ℚ) : WithTop ℚ) →
      (∃ dt : WithTop ℚ, st.gScore ed.target = some dt ∧
        dt ≤ (((du + ed.weight : ℚ)) : WithTop ℚ)) ∨ st.gScore ed.target = none)
    (c : PQElem ℤ) (rest : List (PQElem ℤ)) (hq : st.pq = c :: rest) :
    ∀ (P : List ℤ) (u w2 : ℤ) (cP : ℚ), PathCost g u w2 P cP → w2 = c.element →
      u ∈ st.visitedInOrder → ∀ du : ℚ, st.gScore u = some ((du : ℚ) : WithTop ℚ) →
      ∃ dc : WithTop ℚ, st.gScore c.element = some dc ∧
        dc ≤ (((du + cP : ℚ)) : WithTop ℚ) := by
  obtain ⟨⟨hO1a, hO1b⟩, hO2, hO3, hO4, hO5, hO6, hO7, hO9, hO10⟩ := hcl
  have hcm : c ∈ st.pq := by
    rw [hq]
    exact List.mem_cons_self c rest
  intro P u w2 cP hp
  induction hp with
  | single v =>
    intro hw2 hvio du hdu
    refine ⟨((du : ℚ) : WithTop ℚ), ?_, ?_⟩
    · rw [← hw2]
      exact hdu
    · exact_mod_cast (by linarith : du ≤ du + 0)
  | cons u w2 ed P c2 hed hp ih =>
    intro hw2 hvio du hdu
    have hc2nn : 0 ≤ c2 := pathCost_nonneg g hw ed.target w2 P c2 hp
    have hwnn : 0 ≤ ed.weight := hw u ed hed
    rcases hfr u hvio ed hed du hdu with ⟨dt, hdt, hdtle⟩ | hnone
    · obtain ⟨dtq, hdtq, hdtqle⟩ := wt_le_coe hdtle
      rw [hdtq] at hdt
      by_cases htvio : ed.target ∈ st.visitedInOrder
      · obtain ⟨dc, hdc, hdcle⟩ := ih hw2 htvio dtq hdt
        refine ⟨dc, hdc, le_trans hdcle ?_⟩
        exact_mod_cast (by linarith : dtq + c2 ≤ du + (ed.weight + c2))
      · have hmem := hO6 ed.target htvio dtq hdt
        rw [hq] at hmem
        rcases List.mem_cons.1 hmem with heq | hrest2
        · have hel : ed.target = c.element := congrArg PQElem.element heq
          refine ⟨((dtq : ℚ) : WithTop ℚ), ?_, ?_⟩
          · rw [← hel]
            exact hdt
          · exact_mod_cast (by linarith : dtq ≤ du + (ed.weight + c2))
        · have hsorted : PQSorted (c :: rest) := by
            rw [← hq]
            exact hO4
          have hle := pqSorted_head_le c rest hsorted
            ⟨ed.target, (((dtq + hfun g hv endData ed.target : ℚ)) : WithTop ℚ)⟩ hrest2
          obtain ⟨pc, dxc, hpr, hdxc, hdxcle⟩ := hO5 c hcm
          have htel : hfun g hv endData ed.target ≤ c2 + hfun g hv endData c.element := by
            rw [← hw2]
            exact consistent_telescope g hv endData hcons ed.target w2 P c2 hp
          refine ⟨dxc, hdxc, ?_⟩
          have h1 : (((pc + hfun g hv endData c.element : ℚ)) : WithTop ℚ) ≤
              (((dtq + hfun g hv endData ed.target : ℚ)) : WithTop ℚ) := by
            rw [← hpr]
            exact hle
          have h2 : pc + hfun g hv endData c.element ≤ dtq + hfun g hv endData ed.target := by
            exact_mod_cast h1
          refine le_trans hdxcle ?_
          exact_mod_cast (by linarith : pc ≤ du + (ed.weight + c2))
    · exfalso
      have htn : ed.target ∉ g.nodeIds := by
        intro hc2
        obtain ⟨d, hd⟩ := hO10 ed.target hc2
        rw [hnone] at hd
        cases hd
      have hemp : g.getNeighbors ed.target = [] := hclosed ed.target htn
      cases hp with
      | single =>
        obtain ⟨pc, dxc, hpr, hdxc, _⟩ := hO5 c hcm
        rw [← hw2] at hdxc
        rw [hnone] at hdxc
        cases hdxc
      | cons z1 z2 ed3 p3 c3 hmem3 hp3 =>
        rw [hemp] at hmem3
        cases hmem3

theorem aStarOpt_pop (g : Graph) (hv : ℚ → ℚ → ℚ → ℚ → ℚ) (endData : GraphNode)
    (s endN : ℤ) (st : AState) (c : PQElem ℤ) (rest : List (PQElem ℤ))
    (hw : WeightsNonneg g) (hclosed : GraphClosed g) (hcons : Consistent g hv endData)
    (hq : st.pq = c :: rest)
    (hopt : AStarOpt g hv endData s endN st)
    (hnotin : endN ∉ st.visitedInOrder) :
    AStarClauses g hv endData s
      { st with pq := rest, visitedInOrder := st.visitedInOrder ++ [c.element] } ∧
    (∀ u ∈ st.visitedInOrder ++ [c.element], u ≠ endN → u ≠ c.element →
      ∀ ed ∈ g.getNeighbors u, ∀ du : ℚ, st.gScore u = some ((du : ℚ) : WithTop ℚ) →
        (∃ dt : WithTop ℚ, st.gScore ed.target = some dt ∧
          dt ≤ (((du + ed.weight : ℚ)) : WithTop ℚ)) ∨ st.gScore ed.target = none) := by
  obtain ⟨hcl, hfrEnd⟩ := hopt
  have hfr : ∀ u ∈ st.visitedInOrder, ∀ ed ∈ g.getNeighbors u, ∀ du : ℚ,
      st.gScore u = some ((du : ℚ) : WithTop ℚ) →
      (∃ dt : WithTop ℚ, st.gScore ed.target = some dt ∧
        dt ≤ (((du + ed.weight : ℚ)) : WithTop ℚ)) ∨ st.gScore ed.target = none := by
    intro u hu ed hed du hdu
    refine hfrEnd u hu ?_ ed hed du hdu
    intro hc
    rw [hc] at hu
    exact hnotin hu
  have hcut := aStar_cut g hv endData s st hw hclosed hcons hcl hfr c rest hq
  obtain ⟨⟨hO1a, hO1b⟩, hO2, hO3, hO4, hO5, hO6, hO7, hO9, hO10⟩ := hcl
  have hcm : c ∈ st.pq := by
    rw [hq]
    exact List.mem_cons_self c rest
  have hO7c : ∀ (P : List ℤ) (cP : ℚ), PathCost g s c.element P cP →
      ∃ dc : WithTop ℚ, st.gScore c.element = some dc ∧ dc ≤ ((cP : ℚ) : WithTop ℚ) := by
    intro P cP hp
    by_cases hsv : s ∈ st.visitedInOrder
    · obtain ⟨dc, hdc, hdcle⟩ := hcut P s c.element cP hp rfl hsv 0 hO1a
      refine ⟨dc, hdc, le_trans hdcle ?_⟩
      exact_mod_cast (by linarith : (0 : ℚ) + cP ≤ cP)
    · have hcP : 0 ≤ cP := pathCost_nonneg g hw s c.element P cP hp
      have hmem := hO6 s hsv 0 hO1a
      rw [hq] at hmem
      rcases List.mem_cons.1 hmem with heq | hrest2
      · have hel : s = c.element := congrArg PQElem.element heq
        refine ⟨((0 : ℚ) : WithTop ℚ), ?_, ?_⟩
        · rw [← hel]
          exact hO1a
        · exact_mod_cast hcP
      · have hsorted : PQSorted (c :: rest) := by
          rw [← hq]
          exact hO4
        have hle := pqSorted_head_le c rest hsorted
          ⟨s, (((0 + hfun g hv endData s : ℚ)) : WithTop ℚ)⟩ hrest2
        obtain ⟨pc, dxc, hpr, hdxc, hdxcle⟩ := hO5 c hcm
        have htel : hfun g hv endData s ≤ cP + hfun g hv endData c.element :=
          consistent_telescope g hv endData hcons s c.element P cP hp
        have h1 : (((pc + hfun g hv endData c.element : ℚ)) : WithTop ℚ) ≤
            (((0 + hfun g hv endData s : ℚ)) : WithTop ℚ) := by
          rw [← hpr]
          exact hle
        have h2 : pc + hfun g hv endData c.element ≤ 0 + hfun g hv endData s := by
          exact_mod_cast h1
        refine ⟨dxc, hdxc, le_trans hdxcle ?_⟩
        exact_mod_cast (by linarith : pc ≤ cP)
  constructor
  · refine ⟨⟨hO1a, hO1b⟩, hO2, hO3, ?_, ?_, ?_, ?_, hO9, hO10⟩
    · have hsorted : PQSorted (c :: rest) := by
        rw [← hq]
        exact hO4
      exact (List.pairwise_cons.1 hsorted).2
    · intro x hx
      refine hO5 x ?_
      rw [hq]
      exact List.mem_cons_of_mem c hx
    · intro v hvm dv hdv
      have hv1 : v ∉ st.visitedInOrder := fun hc => hvm (List.mem_append.2 (Or.inl hc))
      have hv2 : v ≠ c.element := by
        intro hc
        exact hvm (List.mem_append.2 (Or.inr (List.mem_singleton.2 hc)))
      have hmem := hO6 v hv1 dv hdv
      rw [hq] at hmem
      rcases List.mem_cons.1 hmem with heq | hrest2
      · exact absurd (congrArg PQElem.element heq) hv2
      · exact hrest2
    · intro u hu P cP hp
      rcases List.mem_append.1 hu with hu2 | hu2
      · exact hO7 u hu2 P cP hp
      · rw [List.mem_singleton] at hu2
        rw [hu2]
        rw [hu2] at hp
        exact hO7c P cP hp
  · intro u hu hun huc ed hed du hdu
    rcases List.mem_append.1 hu with hu2 | hu2
    · exact hfr u hu2 ed hed du hdu
    · rw [List.mem_singleton] at hu2
      exact absurd hu2 huc

theorem aStarOpt_fold (g : Graph) (hv : ℚ → ℚ → ℚ → ℚ → ℚ) (endData : GraphNode)
    (s endN cur : ℤ) (hw : WeightsNonneg g) :
    ∀ (l : List GraphEdge), (∀ ed ∈ l, ed ∈ g.getNeighbors cur) →
    ∀ (st st2 : AState), AStarClauses g hv endData s st →
      (∀ u ∈ st.visitedInOrder, u ≠ endN → u ≠ cur →
        ∀ ed2 ∈ g.getNeighbors u, ∀ du : ℚ, st.gScore u = some ((du : ℚ) : WithTop ℚ) →
          (∃ dt : WithTop ℚ, st.gScore ed2.target = some dt ∧
            dt ≤ (((du + ed2.weight : ℚ)) : WithTop ℚ)) ∨ st.gScore ed2.target = none) →
      cur ∈ st.visitedInOrder →
      l.foldl (fun acc ed => acc.bind fun s1 => aStarRelax g hv endData cur s1 ed)
        (some st) = some st2 →
      AStarClauses g hv endData s st2 ∧
      (∀ u ∈ st2.visitedInOrder, u ≠ endN → u ≠ cur →
        ∀ ed2 ∈ g.getNeighbors u, ∀ du : ℚ, st2.gScore u = some ((du : ℚ) : WithTop ℚ) →
          (∃ dt : WithTop ℚ, st2.gScore ed2.target = some dt ∧
            dt ≤ (((du + ed2.weight : ℚ)) : WithTop ℚ)) ∨ st2.gScore ed2.target = none) ∧
      st2.visitedInOrder = st.visitedInOrder ∧
      st2.gScore cur = st.gScore cur ∧
      (∀ ed ∈ l, ∀ du : ℚ, st.gScore cur = some ((du : ℚ) : WithTop ℚ) →
        (∃ dt : WithTop ℚ, st2.gScore ed.target = some dt ∧
          dt ≤ (((du + ed.weight : ℚ)) : WithTop ℚ)) ∨ st2.gScore ed.target = none) ∧
      (∀ (v : ℤ) (d : WithTop ℚ), st.gScore v = some d →
        ∃ d', st2.gScore v = some d' ∧ d' ≤ d) ∧
      (∀ v : ℤ, st.gScore v = none → st2.gScore v = none) := by
  intro l
  induction l with
  | nil =>
    intro _ st st2 hcl hfr hcur hfd
    injection hfd with h0
    rw [← h0]
    exact ⟨hcl, hfr, rfl, rfl, fun ed hed => absurd hed (List.not_mem_nil ed),
      fun v d hd => ⟨d, hd, le_refl d⟩, fun v hv => hv⟩
  | cons ed rest ih =>
    intro hsub st st2 hcl hfr hcur hfd
    rw [List.foldl_cons] at hfd
    cases hrel : aStarRelax g hv endData cur st ed with
    | none =>
      rw [show (some st).bind (fun s1 => aStarRelax g hv endData cur s1 ed) = none by
        simpa using hrel] at hfd
      rw [aStar_foldl_none] at hfd
      cases hfd
    | some st1 =>
      rw [show (some st).bind (fun s1 => aStarRelax g hv endData cur s1 ed) = some st1 by
        simpa using hrel] at hfd
      obtain ⟨hcl1, hfr1, hvio1, hgcur1, hpost1, hfwd1, hnone1⟩ :=
        aStarOpt_relax g hv endData s endN cur st st1 ed hw
          (hsub ed (List.mem_cons_self ed rest)) hcl hfr hcur hrel
      have hcur1 : cur ∈ st1.visitedInOrder := by
        rw [hvio1]
        exact hcur
      obtain ⟨hcl2, hfr2, hvio2, hgcur2, hpost2, hfwd2, hnone2⟩ :=
        ih (fun x hx => hsub x (List.mem_cons_of_mem ed hx)) st1 st2 hcl1 hfr1 hcur1 hfd
      refine ⟨hcl2, hfr2, hvio2.trans hvio1, hgcur2.trans hgcur1, ?_, ?_, ?_⟩
      · intro ed2 hed2 du hdu
        rcases List.mem_cons.1 hed2 with hed3 | hed3
        · subst hed3
          rcases hpost1 du hdu with ⟨dt1, hdt1, hle1⟩ | hnone0
          · obtain ⟨dt2, hdt2, hle2⟩ := hfwd2 ed2.target dt1 hdt1
            exact Or.inl ⟨dt2, hdt2, le_trans hle2 hle1⟩
          · exact Or.inr (hnone2 ed2.target hnone0)
        · refine hpost2 ed2 hed3 du ?_
          rw [hgcur1]
          exact hdu
      · intro v d hd
        obtain ⟨d1, hd1, hle1⟩ := hfwd1 v d hd
        obtain ⟨d2, hd2, hle2⟩ := hfwd2 v d1 hd1
        exact ⟨d2, hd2, le_trans hle2 hle1⟩
      · intro v hvn
        exact hnone2 v (hnone1 v hvn)

theorem aStarLoopOpt (g : Graph) (hv : ℚ → ℚ → ℚ → ℚ → ℚ) (endData : GraphNode)
    (s endN : ℤ) (hw : WeightsNonneg g) (hclosed : GraphClosed g)
    (hcons : Consistent g hv endData) :
    ∀ (fuel : ℕ) (st st' : AState),
      AStarOpt g hv endData s endN st → endN ∉ st.visitedInOrder →
      aStarLoop g hv endData endN fuel st = some st' → AStarOpt g hv endData s endN st' := by
  intro fuel
  induction fuel with
  | zero =>
    intro st st' hopt _ h
    cases hst : st.pq with
    | nil =>
      rw [aStarLoop_nil g hv endData endN 0 st hst] at h
      injection h with h1
      rw [← h1]
      exact hopt
    | cons c cs =>
      rw [aStarLoop_zero_cons g hv endData endN st c cs hst] at h
      cases h
  | succ f ih =>
    intro st st' hopt hnotin h
    cases hst : st.pq with
    | nil =>
      rw [aStarLoop_nil g hv endData endN (f + 1) st hst] at h
      injection h with h1
      rw [← h1]
      exact hopt
    | cons c cs =>
      obtain ⟨hcl1, hfr1⟩ :=
        aStarOpt_pop g hv endData s endN st c cs hw hclosed hcons hst hopt hnotin
      by_cases hce : c.element = endN
      · rw [aStarLoop_cons_found g hv endData endN f st c cs hst hce] at h
        injection h with h1
        rw [← h1]
        refine ⟨hcl1, ?_⟩
        intro u hu hun ed hed du hdu
        refine hfr1 u hu hun ?_ ed hed du hdu
        rw [hce]
        exact hun
      · rw [aStarLoop_cons_step g hv endData endN f st c cs hst hce] at h
        cases hfd : (g.getNeighbors c.element).foldl
            (fun acc ed => acc.bind fun s1 => aStarRelax g hv endData c.element s1 ed)
            (some { st with pq := cs, visitedInOrder := st.visitedInOrder ++ [c.element] }) with
        | none =>
          rw [hfd] at h
          cases h
        | some st2 =>
          rw [hfd] at h
          have hcur1 : c.element ∈ ({ st with
              pq := cs
              visitedInOrder := st.visitedInOrder ++ [c.element] } : AState).visitedInOrder :=
            List.mem_append.2 (Or.inr (List.mem_singleton.2 rfl))
          obtain ⟨hcl2, hfr2, hvio2, hgcur2, hpost2, _, _⟩ :=
            aStarOpt_fold g hv endData s endN c.element hw (g.getNeighbors c.element)
              (fun x hx => hx) _ st2 hcl1 hfr1 hcur1 hfd
          refine ih st2 st' ⟨hcl2, ?_⟩ ?_ h
          · intro u hu hun ed hed du hdu
            rw [hvio2] at hu
            by_cases huc : u = c.element
            · subst huc
              refine hpost2 ed hed du ?_
              rw [← hgcur2]
              exact hdu
            · exact hfr2 u (by rw [hvio2]; exact hu) hun huc ed hed du hdu
          · rw [hvio2]
            intro hc
            rcases List.mem_append.1 hc with hc2 | hc2
            · exact hnotin hc2
            · rw [List.mem_singleton] at hc2
              exact hce hc2.symm

theorem aStarLoop_final (g : Graph) (hv : ℚ → ℚ → ℚ → ℚ → ℚ) (endData : GraphNode)
    (endN : ℤ) :
    ∀ (fuel : ℕ) (st st' : AState), aStarLoop g hv endData endN fuel st = some st' →
      st'.pq = [] ∨ endN ∈ st'.visitedInOrder := by
  intro fuel
  induction fuel with
  | zero =>
    intro st st' h
    cases hst : st.pq with
    | nil =>
      rw [aStarLoop_nil g hv endData endN 0 st hst] at h
      injection h with h1
      left
      rw [← h1]
      exact hst
    | cons c cs =>
      rw [aStarLoop_zero_cons g hv endData endN st c cs hst] at h
      cases h
  | succ f ih =>
    intro st st' h
    cases hst : st.pq with
    | nil =>
      rw [aStarLoop_nil g hv endData endN (f + 1) st hst] at h
      injection h with h1
      left
      rw [← h1]
      exact hst
    | cons c cs =>
      by_cases hce : c.element = endN
      · rw [aStarLoop_cons_found g hv endData endN f st c cs hst hce] at h
        injection h with h1
        right
        rw [← h1]
        rw [← hce]
        exact List.mem_append.2 (Or.inr (List.mem_singleton.2 rfl))
      · rw [aStarLoop_cons_step g hv endData endN f st c cs hst hce] at h
        cases hfd : (g.getNeighbors c.element).foldl
            (fun acc ed => acc.bind fun s1 => aStarRelax g hv endData c.element s1 ed)
            (some { st with pq := cs, visitedInOrder := st.visitedInOrder ++ [c.element] }) with
        | none =>
          rw [hfd] at h
          cases h
        | some st2 =>
          rw [hfd] at h
          exact ih st2 st' h

theorem aStar_complete (g : Graph) (hv : ℚ → ℚ → ℚ → ℚ → ℚ) (endData : GraphNode)
    (s endN : ℤ) (st : AState)
    (hclosed : GraphClosed g) (he : endN ∈ g.nodeIds)
    (hopt : AStarOpt g hv endData s endN st) (hqe : st.pq = []) :
    ∀ (P : List ℤ) (u w2 : ℤ) (cP : ℚ), PathCost g u w2 P cP → w2 = endN →
      u ∈ st.visitedInOrder → ∀ du : ℚ, st.gScore u = some ((du : ℚ) : WithTop ℚ) →
      endN ∈ st.visitedInOrder := by
  obtain ⟨⟨⟨hO1a, hO1b⟩, hO2, hO3, hO4, hO5, hO6, hO7, hO9, hO10⟩, hfrE⟩ := hopt
  intro P u w2 cP hp
  induction hp with
  | single v =>
    intro hw2 hvio du _
    rw [← hw2]
    exact hvio
  | cons u w2 ed P c2 hed hp ih =>
    intro hw2 hvio du hdu
    by_cases hue : u = endN
    · rw [← hue]
      exact hvio
    · rcases hfrE u hvio hue ed hed du hdu with ⟨dt, hdt, hdtle⟩ | hnone
      · obtain ⟨dtq, hdtq, _⟩ := wt_le_coe hdtle
        rw [hdtq] at hdt
        by_cases htvio : ed.target ∈ st.visitedInOrder
        · exact ih hw2 htvio dtq hdt
        · exfalso
          have hmem := hO6 ed.target htvio dtq hdt
          rw [hqe] at hmem
          cases hmem
      · exfalso
        have htn : ed.target ∉ g.nodeIds := by
          intro hc2
          obtain ⟨d, hd⟩ := hO10 ed.target hc2
          rw [hnone] at hd
          cases hd
        have hemp : g.getNeighbors ed.target = [] := hclosed ed.target htn
        cases hp with
        | single =>
          rw [hw2] at htn
          exact htn he
        | cons z1 z2 ed3 p3 c3 hmem3 hp3 =>
          rw [hemp] at hmem3
          cases hmem3

theorem aStar_chain (g : Graph) (s : ℤ) (st : AState)
    (hO1a : st.gScore s = some ((0 : ℚ) : WithTop ℚ))
    (hO1b : st.prev s = some none)
    (hO3 : ∀ v : ℤ, v ≠ s → ∀ dv : ℚ, st.gScore v = some ((dv : ℚ) : WithTop ℚ) →
      ∃ (u : ℤ) (du : ℚ) (ed : GraphEdge), st.prev v = some (some u) ∧
        st.gScore u = some ((du : ℚ) : WithTop ℚ) ∧ ed ∈ g.getNeighbors u ∧ ed.target = v ∧
        du + ed.weight ≤ dv) :
    ∀ (q : List ℤ) (a : ℤ) (da : ℚ), q.head? = some a →
      st.gScore a = some ((da : ℚ) : WithTop ℚ) →
      List.Chain' (fun x y => st.prev x = some (some y)) q →
      ∀ z, q.getLast? = some z → st.prev z = some none →
      z = s ∧ ∃ C : ℚ, PathCost g s a q.reverse C ∧ C ≤ da := by
  intro q
  induction q with
  | nil => intro a da hh _ _ z hl _; cases hh
  | cons x rest ih =>
    intro a da hh hda hch z hl hz
    have hxa : x = a := by
      have : some x = some a := hh
      injection this
    subst hxa
    cases rest with
    | nil =>
      have hxz : x = z := by
        have : some x = some z := hl
        injection this
      have hxs : x = s := by
        by_contra hxs
        obtain ⟨u, du, ed, h1, _⟩ := hO3 x hxs da hda
        rw [← hxz] at hz
        rw [hz] at h1
        injection h1 with h2
        cases h2
      subst hxs
      refine ⟨hxz ▸ rfl, 0, ?_, ?_⟩
      · show PathCost g x x [x].reverse 0
        simpa using PathCost.single x
      · have hda0 : ((0 : ℚ) : WithTop ℚ) = ((da : ℚ) : WithTop ℚ) := by
          rw [hO1a] at hda
          injection hda
        have : (0 : ℚ) = da := by exact_mod_cast hda0
        rw [← this]
    | cons b rest2 =>
      have hab : st.prev x = some (some b) := (List.chain'_cons.1 hch).1
      have hch2 : List.Chain' (fun v w => st.prev v = some (some w)) (b :: rest2) :=
        (List.chain'_cons.1 hch).2
      have hl2 : (b :: rest2).getLast? = some z := by
        rw [List.getLast?_cons_cons] at hl
        exact hl
      have hxs : x ≠ s := by
        intro hc
        rw [hc, hO1b] at hab
        injection hab with h2
        cases h2
      obtain ⟨u, du, ed, h1, h2, h3, h4, h5⟩ := hO3 x hxs da hda
      have hub : u = b := by
        rw [hab] at h1
        injection h1 with h6
        injection h6 with h7
        exact h7.symm
      subst hub
      obtain ⟨hzs, C', hC', hC'le⟩ := ih u du rfl h2 hch2 z hl2 hz
      refine ⟨hzs, C' + ed.weight, ?_, by linarith⟩
      have := pathCost_append_edge g s u (u :: rest2).reverse C' hC' ed h3
      rw [h4] at this
      show PathCost g s x ((x :: u :: rest2).reverse) (C' + ed.weight)
      rw [List.reverse_cons]
      exact this

theorem aStar_optimal (g : Graph) (hv : ℚ → ℚ → ℚ → ℚ → ℚ) (s e : ℤ) (fuel : ℕ)
    (r : AlgorithmResult)
    (hw : WeightsNonneg g) (hclosed : GraphClosed g)
    (hs : s ∈ g.nodeIds) (he : e ∈ g.nodeIds)
    (hconsAll : ∀ endData : GraphNode, g.getNode e = some endData → Consistent g hv endData)
    (hreach : Reachable g s e)
    (h : aStarRun hv g s e fuel = some r) :
    ∃ de : ℚ, PathCost g s e r.path de ∧
      ∀ (q : List ℤ) (c : ℚ), PathCost g s e q c → de ≤ c := by
  rcases aStarRun_spec hv g s e fuel r h with ⟨hend, _, _⟩ |
    ⟨endData, startData, st, hend, hstart, hl, hvio, hprev, p, hwk, hcase⟩
  · exfalso
    obtain ⟨nd0, hnd0⟩ := getNode_isSome_of_mem g e he
    rw [hend] at hnd0
    cases hnd0
  · have hcons : Consistent g hv endData := hconsAll endData hend
    have hs0eq : hv startData.lat startData.lon endData.lat endData.lon =
        hfun g hv endData s := (hfun_eq g hv endData s startData hstart).symm
    have hopt : AStarOpt g hv endData s e st := by
      refine aStarLoopOpt g hv endData s e hw hclosed hcons fuel _ st
        ⟨aStarOpt_init g hv endData s hs _ hs0eq, ?_⟩ ?_ hl
      · intro u hu
        cases hu
      · intro hc
        cases hc
    obtain ⟨hcl, hfrE⟩ := hopt
    obtain ⟨⟨hO1a, hO1b⟩, hO2, hO3, hO4, hO5, hO6, hO7, hO9, hO10⟩ := hcl
    obtain ⟨P0, c0, hP0⟩ := hreach
    have hev : e ∈ st.visitedInOrder := by
      rcases aStarLoop_final g hv endData e fuel _ st hl with hqe | hin
      · have hsv : s ∈ st.visitedInOrder := by
          by_contra hsv
          have hmem := hO6 s hsv 0 hO1a
          rw [hqe] at hmem
          cases hmem
        exact aStar_complete g hv endData s e st hclosed he
          ⟨⟨⟨hO1a, hO1b⟩, hO2, hO3, hO4, hO5, hO6, hO7, hO9, hO10⟩, hfrE⟩ hqe
          P0 s e c0 hP0 rfl hsv 0 hO1a
      · exact hin
    obtain ⟨deW, hde, hdele⟩ := hO7 e hev P0 c0 hP0
    obtain ⟨de, hdeq, _⟩ := wt_le_coe hdele
    rw [hdeq] at hde
    obtain ⟨q, hpq, hhead, hch, z, hzl, hzn⟩ := walkPrev_spec st.prev fuel e [] p hwk
    rw [List.nil_append] at hpq
    obtain ⟨hzs, C, hC, hCle⟩ :=
      aStar_chain g s st hO1a hO1b hO3 q e de hhead hde hch z hzl hzn
    have hplast : p.getLast? = some s := by
      rw [hpq, hzl, hzs]
    rcases hcase with ⟨_, hpath⟩ | ⟨hnlast, _⟩
    · have hrp : r.path = q.reverse := by
        rw [hpath, hpq]
      refine ⟨C, by rw [hrp]; exact hC, ?_⟩
      intro q' c' hq'
      obtain ⟨deW2, hde2, hle2⟩ := hO7 e hev q' c' hq'
      rw [hde] at hde2
      have hdw : ((de : ℚ) : WithTop ℚ) = deW2 := by
        injection hde2
      rw [← hdw] at hle2
      have hdec' : de ≤ c' := by exact_mod_cast hle2
      linarith
    · exact absurd hplast hnlast

theorem hfun_zero (g : Graph) (endData : GraphNode) (x : ℤ) :
    hfun g (fun _ _ _ _ => 0) endData x = 0 := by
  unfold hfun
  split <;> rfl

/-- Claim C1 (amended).  On a graph with nonnegative stored weights whose
adjacency map covers exactly the listed nodes, for listed start and end nodes
with the end reachable from the start, and a heuristic that is consistent for
the end node's coordinates, the paths returned by dijkstra and aStar have the
same total stored-edge cost, and that cost is minimal among all start-to-end
walks along stored edges. -/
theorem c1_optimal_equal_cost (g : Graph) (hv : ℚ → ℚ → ℚ → ℚ → ℚ) (s e : ℤ)
    (fuel1 fuel2 : ℕ) (r1 r2 : AlgorithmResult)
    (hw : WeightsNonneg g) (hclosed : GraphClosed g)
    (hs : s ∈ g.nodeIds) (he : e ∈ g.nodeIds)
    (hcons : ∀ endData : GraphNode, g.getNode e = some endData → Consistent g hv endData)
    (hreach : Reachable g s e)
    (h1 : dijkstraRun g s e fuel1 = some r1)
    (h2 : aStarRun hv g s e fuel2 = some r2) :
    ∃ c : ℚ, PathCost g s e r1.path c ∧ PathCost g s e r2.path c ∧
      ∀ (q : List ℤ) (c' : ℚ), PathCost g s e q c' → c ≤ c' := by
  obtain ⟨c1, hc1, hmin1⟩ := dijkstra_optimal g s e fuel1 r1 hw hclosed hs he hreach h1
  obtain ⟨c2, hc2, hmin2⟩ := aStar_optimal g hv s e fuel2 r2 hw hclosed hs he hcons hreach h2
  have e1 : c1 ≤ c2 := hmin1 r2.path c2 hc2
  have e2 : c2 ≤ c1 := hmin2 r1.path c1 hc1
  have heq : c1 = c2 := le_antisymm e1 e2
  exact ⟨c1, hc1, heq ▸ hc2, hmin1⟩

/-- Claim C1 (counterexample).  With a negative stored weight, dijkstra
terminates and returns the path [1, 2] of cost -1, yet the walk [1, 2, 1, 2]
along stored edges costs -3: the returned cost is not minimal, refuting the
claim for arbitrary graphs. -/
theorem c1_counterexample :
    ∃ r : AlgorithmResult, dijkstraRun exGraphNeg 1 2 9 = some r ∧
      PathCost exGraphNeg 1 2 r.path (-1 + 0) ∧
      PathCost exGraphNeg 1 2 [1, 2, 1, 2] (-1 + (-1 + (-1 + 0))) ∧
      ((-1 + (-1 + (-1 + 0)) : ℚ) < -1 + 0) := by
  have hsome : (dijkstraRun exGraphNeg 1 2 9).isSome = true := by
    with_unfolding_all decide
  obtain ⟨r, hr⟩ := Option.isSome_iff_exists.mp hsome
  have hmap : (dijkstraRun exGraphNeg 1 2 9).map (fun r => r.path) = some [1, 2] := by
    with_unfolding_all decide
  rw [hr] at hmap
  simp only [Option.map_some'] at hmap
  injection hmap with hpath
  have hed12 : (⟨1, 2, -1⟩ : GraphEdge) ∈ exGraphNeg.getNeighbors 1 := by
    with_unfolding_all decide
  have hed21 : (⟨2, 1, -1⟩ : GraphEdge) ∈ exGraphNeg.getNeighbors 2 := by
    with_unfolding_all decide
  refine ⟨r, hr, ?_, ?_, by norm_num⟩
  · rw [hpath]
    exact PathCost.cons 1 2 ⟨1, 2, -1⟩ [2] 0 hed12 (PathCost.single 2)
  · exact PathCost.cons 1 2 ⟨1, 2, -1⟩ [2, 1, 2] (-1 + (-1 + 0)) hed12
      (PathCost.cons 2 2 ⟨2, 1, -1⟩ [1, 2] (-1 + 0) hed21
        (PathCost.cons 1 2 ⟨1, 2, -1⟩ [2] 0 hed12 (PathCost.single 2)))

theorem exGraphFork_neighbors (u : ℤ) :
    exGraphFork.getNeighbors u =
      if u = 1 then [⟨1, 2, 1⟩, ⟨1, 3, 1⟩]
      else if u = 2 then [⟨2, 1, 1⟩]
      else if u = 3 then [⟨3, 1, 1⟩]
      else [] := by
  have hadj : exGraphFork.adj =
      [(1, [⟨1, 2, 1⟩, ⟨1, 3, 1⟩]), (2, [⟨2, 1, 1⟩]), (3, [⟨3, 1, 1⟩])] := by
    with_unfolding_all rfl
  unfold Graph.getNeighbors
  rw [hadj]
  unfold mapGet
  by_cases h1 : u = 1
  · rw [if_pos h1, if_pos h1]
    rfl
  · rw [if_neg h1, if_neg h1]
    unfold mapGet
    by_cases h2 : u = 2
    · rw [if_pos h2, if_pos h2]
      rfl
    · rw [if_neg h2, if_neg h2]
      unfold mapGet
      by_cases h3 : u = 3
      · rw [if_pos h3, if_pos h3]
        rfl
      · rw [if_neg h3, if_neg h3]
        rfl

theorem exGraphFork_closed : GraphClosed exGraphFork := by
  intro v hvm
  have hids : exGraphFork.nodeIds = [1, 2, 3] := by
    with_unfolding_all rfl
  rw [hids] at hvm
  have h1 : v ≠ 1 := fun hc => hvm (by rw [hc]; exact List.mem_cons_self _ _)
  have h2 : v ≠ 2 := fun hc => hvm (by rw [hc]; simp)
  have h3 : v ≠ 3 := fun hc => hvm (by rw [hc]; simp)
  rw [exGraphFork_neighbors, if_neg h1, if_neg h2, if_neg h3]

theorem exGraphFork_weights : WeightsNonneg exGraphFork := by
  intro u ed hed
  rw [exGraphFork_neighbors] at hed
  split_ifs at hed
  · rcases List.mem_cons.1 hed with hed | hed
    · rw [hed]
      norm_num
    · rcases List.mem_cons.1 hed with hed | hed
      · rw [hed]
        norm_num
      · cases hed
  · rcases List.mem_cons.1 hed with hed | hed
    · rw [hed]
      norm_num
    · cases hed
  · rcases List.mem_cons.1 hed with hed | hed
    · rw [hed]
      norm_num
    · cases hed
  · cases hed

theorem exGraphFork_consistent (endData : GraphNode) :
    Consistent exGraphFork (fun _ _ _ _ => 0) endData := by
  intro u ed hed
  rw [hfun_zero, hfun_zero]
  have := exGraphFork_weights u ed hed
  linarith

theorem c1_optimal_equal_cost_witness :
    Reachable exGraphFork 1 2 ∧
    ∃ (r1 r2 : AlgorithmResult), dijkstraRun exGraphFork 1 2 9 = some r1 ∧
      aStarRun (fun _ _ _ _ => 0) exGraphFork 1 2 9 = some r2 ∧
      ∃ c : ℚ, PathCost exGraphFork 1 2 r1.path c ∧ PathCost exGraphFork 1 2 r2.path c ∧
        ∀ (q : List ℤ) (c' : ℚ), PathCost exGraphFork 1 2 q c' → c ≤ c' := by
  have hed : (⟨1, 2, 1⟩ : GraphEdge) ∈ exGraphFork.getNeighbors 1 := by
    with_unfolding_all decide
  have hreach : Reachable exGraphFork 1 2 :=
    ⟨[1, 2], 1 + 0, PathCost.cons 1 2 ⟨1, 2, 1⟩ [2] 0 hed (PathCost.single 2)⟩
  have hsome1 : (dijkstraRun exGraphFork 1 2 9).isSome = true := by
    with_unfolding_all decide
  have hsome2 : (aStarRun (fun _ _ _ _ => 0) exGraphFork 1 2 9).isSome = true := by
    with_unfolding_all decide
  obtain ⟨r1, hr1⟩ := Option.isSome_iff_exists.mp hsome1
  obtain ⟨r2, hr2⟩ := Option.isSome_iff_exists.mp hsome2
  refine ⟨hreach, r1, r2, hr1, hr2, ?_⟩
  exact c1_optimal_equal_cost exGraphFork (fun _ _ _ _ => 0) 1 2 9 9 r1 r2
    exGraphFork_weights exGraphFork_closed
    (by with_unfolding_all decide) (by with_unfolding_all decide)
    (fun endData _ => exGraphFork_consistent endData) hreach hr1 hr2
